import Mathlib

/-!
Verification of the constraint-solving core of a field-sensitive,
inclusion-based (Andersen-style) points-to analysis
(gcc/tree-ssa-structalias.c).

The embedding models bitmaps as `Finset Nat`, GCC vectors as sorted
`List`s (kept sorted through the same lower-bound insertions the C code
performs), and the by-reference sharing of edge-weight bitmaps between the
predecessor and successor views of an edge through an explicit store
`wstore : Nat → Finset Nat` indexed by reference tokens, exactly mirroring
the single `weights` bitmap allocated in `add_graph_edge` and stored into
both edge records.  Functions that can hit `gcc_assert`/`gcc_unreachable`
(aborts) are embedded in `Option`; `none` models the abort.  Recursions the
C code performs on pointer chains or by DFS are given explicit fuel; the
fuel chosen by callers (number of variables plus one) suffices for every
well-formed state, and exhaustion also yields `none`.
-/

set_option linter.unusedVariables false

/-- Fixed ids of the special variables created by init_base_vars. -/
def nothing_id : Nat := 0

/-- Id of the ANYTHING variable (second variable created). -/
def anything_id : Nat := 1

/-- Id of the READONLY variable. -/
def readonly_id : Nat := 2

/-- Id of the INTEGER variable. -/
def integer_id : Nat := 3

/-- Constraint expression kind (enum constraint_expr_type).  The C enum
order SCALAR, DEREF, ADDRESSOF gives the numeric comparison used by
constraint_expr_less. -/
inductive CEType where
  | SCALAR
  | DEREF
  | ADDRESSOF
deriving DecidableEq, Repr

/-- Numeric value of the C enum, used for the type comparison in
constraint_expr_less. -/
def CEType.val : CEType → Nat
  | .SCALAR => 0
  | .DEREF => 1
  | .ADDRESSOF => 2

/-- Constraint expression (struct constraint_expr). -/
structure ConstraintExpr where
  type : CEType
  var : Nat
  offset : Nat
deriving DecidableEq, Repr

/-- Constraint lhs := rhs (struct constraint). -/
structure Constraint where
  lhs : ConstraintExpr
  rhs : ConstraintExpr
deriving DecidableEq, Repr

/-- Variable record (struct variable_info).  The name and decl are opaque
to the core; decl is kept as an integer token for the query interface. -/
structure VarInfo where
  decl : Nat
  offset : Nat
  size : Nat
  fullsize : Nat
  next : Option Nat
  node : Nat
  address_taken : Bool
  indirect_target : Bool
  is_artificial_var : Bool
  is_unknown_size_var : Bool
  has_union : Bool
  solution : Finset Nat
  varids : Finset Nat
  complex : List Constraint
deriving DecidableEq

/-- Graph edge record (struct constraint_edge); `wref` is the reference
token of the weights bitmap shared between the two views of the edge. -/
structure CEdge where
  src : Nat
  dest : Nat
  wref : Nat
deriving DecidableEq, Repr

/-- Whole-analysis state: the variable table (varmap, indexed by id, of
conceptual size nvars), the constraint graph adjacency vectors, the store
of edge-weight bitmaps, the changed sbitmap with its separate counter, and
the global edge_added flag. -/
structure PTAState where
  nvars : Nat
  varmap : Nat → VarInfo
  succs : Nat → List CEdge
  preds : Nat → List CEdge
  wstore : Nat → Finset Nat
  nextRef : Nat
  changed : Finset Nat
  changed_count : Nat
  edge_added : Bool

/-- Pointwise update of a function table. -/
def upd {α : Type} (f : Nat → α) (i : Nat) (a : α) : Nat → α :=
  fun j => if j = i then a else f j

theorem upd_same {α : Type} (f : Nat → α) (i : Nat) (a : α) : upd f i a i = a := by
  simp [upd]

theorem upd_other {α : Type} (f : Nat → α) (i j : Nat) (a : α) (h : j ≠ i) :
    upd f i a j = f j := by
  simp [upd, h]

/-- Update one variable record. -/
def setVi (s : PTAState) (i : Nat) (v : VarInfo) : PTAState :=
  { s with varmap := upd s.varmap i v }

/-- Update the node (representative) field of variable i. -/
def setNode (s : PTAState) (i n : Nat) : PTAState :=
  setVi s i { s.varmap i with node := n }

/-- Update the solution set of variable i. -/
def setSolution (s : PTAState) (i : Nat) (b : Finset Nat) : PTAState :=
  setVi s i { s.varmap i with solution := b }

/-- Comparison constraint_expr_less: type, then var, then offset. -/
def constraint_expr_less (a b : ConstraintExpr) : Bool :=
  if a.type.val = b.type.val then
    (if a.var = b.var then decide (a.offset < b.offset) else decide (a.var < b.var))
  else decide (a.type.val < b.type.val)

/-- Comparison constraint_less: lhs first, then rhs. -/
def constraint_less (a b : Constraint) : Bool :=
  if constraint_expr_less a.lhs b.lhs then true
  else if constraint_expr_less b.lhs a.lhs then false
  else constraint_expr_less a.rhs b.rhs

/-- Comparison constraint_edge_less: dest first, then src.  Weights are not
part of edge identity. -/
def constraint_edge_less (a b : CEdge) : Bool :=
  if a.dest < b.dest then true
  else if a.dest = b.dest then decide (a.src < b.src)
  else false

/-- Equality test constraint_edge_equal: src and dest only. -/
def constraint_edge_equal (a b : CEdge) : Bool :=
  decide (a.src = b.src) && decide (a.dest = b.dest)

/-- Generic VEC_lower_bound over a list that is kept sorted by lt: the
index of the first element not less than the key. -/
def lower_bound {α : Type} (lt : α → α → Bool) : List α → α → Nat
  | [], _ => 0
  | x :: xs, e => if lt x e then lower_bound lt xs e + 1 else 0

/-- Total insertion at an index (VEC_safe_insert); indices past the end
append. -/
def list_insert_at {α : Type} : List α → Nat → α → List α
  | l, 0, a => a :: l
  | [], _ + 1, a => [a]
  | x :: xs, n + 1, a => x :: list_insert_at xs n a

/-- Removal at an index (VEC_ordered_remove); indices past the end leave
the list unchanged. -/
def list_remove_at {α : Type} : List α → Nat → List α
  | [], _ => []
  | _ :: xs, 0 => xs
  | x :: xs, n + 1 => x :: list_remove_at xs n

/-- Lookup constraint_edge_vec_find: position the key by lower bound and
accept it only if it compares equal (src and dest). -/
def constraint_edge_vec_find (vec : List CEdge) (src dest : Nat) : Option CEdge :=
  let place := lower_bound constraint_edge_less vec ⟨src, dest, 0⟩
  match vec[place]? with
  | none => none
  | some e => if e.src = src ∧ e.dest = dest then some e else none

/-- Operation add_graph_edge: if no (src, dest) entry is in preds[src],
allocate one fresh weights bitmap (empty), insert the edge into preds[src]
and its mirror into succs[dest] both at their lower bounds, set the
edge_added flag and report true; otherwise report false. -/
def add_graph_edge (s : PTAState) (src dest : Nat) : PTAState × Bool :=
  let vec := s.preds src
  let place := lower_bound constraint_edge_less vec ⟨src, dest, 0⟩
  let hit : Bool :=
    match vec[place]? with
    | some e => decide (e.dest = dest)
    | none => false
  if hit then (s, false)
  else
    let r := s.nextRef
    let s1 := { s with
      preds := upd s.preds src (list_insert_at vec place ⟨src, dest, r⟩),
      wstore := upd s.wstore r ∅,
      nextRef := s.nextRef + 1,
      edge_added := true }
    let svec := s1.succs dest
    let place2 := lower_bound constraint_edge_less svec ⟨dest, src, r⟩
    ({ s1 with succs := upd s1.succs dest (list_insert_at svec place2 ⟨dest, src, r⟩) },
     true)

/-- Operation get_graph_weights: the weights reference of the (src, dest)
entry of preds[src]; none models the gcc_assert failure when absent. -/
def get_graph_weights (s : PTAState) (src dest : Nat) : Option Nat :=
  match constraint_edge_vec_find (s.preds src) src dest with
  | none => none
  | some e => some e.wref

/-- Predicate valid_graph_edge. -/
def valid_graph_edge (s : PTAState) (src dest : Nat) : Bool :=
  (constraint_edge_vec_find (s.preds src) src dest).isSome

/-- Operation int_add_graph_edge: ignore zero-weight self edges; otherwise
ensure the edge exists, report whether the edge or the weight bit is new,
and set the weight bit. -/
def int_add_graph_edge (s : PTAState) (to_ from_ : Nat) (weight : Nat) :
    Option (PTAState × Bool) :=
  if to_ = from_ ∧ weight = 0 then some (s, false)
  else
    let (s1, r) := add_graph_edge s to_ from_
    match get_graph_weights s1 to_ from_ with
    | none => none
    | some ref =>
      let r2 := r || decide (weight ∉ s1.wstore ref)
      some ({ s1 with wstore := upd s1.wstore ref (insert weight (s1.wstore ref)) }, r2)

/-- Operation erase_graph_self_edge for the self edge (n, n): remove the
entry from succs[n] and from preds[n] at their lower bounds. -/
def erase_graph_self_edge (s : PTAState) (n : Nat) : PTAState :=
  let succvec := s.succs n
  let place := lower_bound constraint_edge_less succvec ⟨n, n, 0⟩
  let s1 := { s with succs := upd s.succs n (list_remove_at succvec place) }
  let predvec := s1.preds n
  let place2 := lower_bound constraint_edge_less predvec ⟨n, n, 0⟩
  { s1 with preds := upd s1.preds n (list_remove_at predvec place2) }

/-- Body of the first removal loop of clear_edges_for_node: drop the
mirror entry of a successor edge from the other endpoint's preds. -/
def clear_pred_entry (node : Nat) (acc : PTAState) (c : CEdge) : PTAState :=
  if c.dest ≠ node then
    let vec := acc.preds c.dest
    let place := lower_bound constraint_edge_less vec ⟨c.dest, node, 0⟩
    { acc with preds := upd acc.preds c.dest (list_remove_at vec place) }
  else acc

/-- Body of the second removal loop of clear_edges_for_node. -/
def clear_succ_entry (node : Nat) (acc : PTAState) (c : CEdge) : PTAState :=
  if c.dest ≠ node then
    let vec := acc.succs c.dest
    let place := lower_bound constraint_edge_less vec ⟨c.dest, node, 0⟩
    { acc with succs := upd acc.succs c.dest (list_remove_at vec place) }
  else acc

/-- Operation clear_edges_for_node: for every non-self successor entry
remove the mirror entry from the other endpoint's preds, likewise for
predecessor entries and succs, then empty both adjacency vectors of the
node. -/
def clear_edges_for_node (s : PTAState) (node : Nat) : PTAState :=
  let succvec := s.succs node
  let predvec := s.preds node
  let s1 := succvec.foldl (clear_pred_entry node) s
  let s2 := predvec.foldl (clear_succ_entry node) s1
  { s2 with preds := upd s2.preds node [], succs := upd s2.succs node [] }

/-- Body of the two merge loops of merge_graph_nodes: redirect an edge of
the dying node, ensure the corresponding edge of the surviving node, and
union its weights into the ensured edge's weights.  The pred case uses
direction (to_, d), the succ case (d, to_). -/
def merge_edge_step (from_ to_ : Nat) (predSide : Bool) (s : PTAState) (c : CEdge) :
    Option PTAState :=
  let d := if c.dest = from_ then to_ else c.dest
  let newSrc := if predSide then to_ else d
  let newDest := if predSide then d else to_
  let oldSrc := if predSide then from_ else c.dest
  let oldDest := if predSide then c.dest else from_
  let (s1, _) := add_graph_edge s newSrc newDest
  match get_graph_weights s1 oldSrc oldDest, get_graph_weights s1 newSrc newDest with
  | some rold, some rnew =>
    some { s1 with wstore := upd s1.wstore rnew (s1.wstore rnew ∪ s1.wstore rold) }
  | _, _ => none

/-- Operation merge_graph_nodes: merge all predecessor edges then all
successor edges of `from_` into `to_`, then clear `from_`'s edges.  The two
adjacency vectors of `from_` are read once at entry, as the C code does;
neither loop mutates them when `to_ ≠ from_`. -/
def merge_graph_nodes (s : PTAState) (to_ from_ : Nat) : Option PTAState := do
  let succvec := s.succs from_
  let predvec := s.preds from_
  let s1 ← predvec.foldlM (merge_edge_step from_ to_ true) s
  let s2 ← succvec.foldlM (merge_edge_step from_ to_ false) s1
  pure (clear_edges_for_node s2 from_)

/-- Members of a bitmap in ascending order (EXECUTE_IF_SET_IN_BITMAP). -/
def bmembers (b : Finset Nat) : List Nat := b.sort (· ≤ ·)

/-- Walk first_vi_for_offset: follow the next chain from start until a
field whose range [offset, offset+size) contains off; none models the
gcc_unreachable abort when the chain ends (fuel exhaustion also gives
none; nvars + 1 fuel suffices for any acyclic chain). -/
def first_vi_for_offset (s : PTAState) : Nat → Nat → Nat → Option Nat
  | 0, _, _ => none
  | fuel + 1, curr, off =>
    let vi := s.varmap curr
    if vi.offset ≤ off ∧ off < vi.offset + vi.size then some curr
    else
      match vi.next with
      | none => none
      | some nxt => first_vi_for_offset s fuel nxt off

/-- Operation solution_set_add: displace every member of the set by
offset, mapping it to the first field covering the new offset, keeping
artificial and unknown-size variables as themselves, and dropping members
whose displaced offset leaves the aggregate. -/
def solution_set_add (s : PTAState) (set : Finset Nat) (offset : Nat) :
    Option (Finset Nat) :=
  (bmembers set).foldlM
    (fun result i =>
      if (s.varmap i).offset + offset < (s.varmap i).fullsize then
        match first_vi_for_offset s (s.nvars + 1) i ((s.varmap i).offset + offset) with
        | some v => some (insert v result)
        | none => none
      else if (s.varmap i).is_artificial_var ∨ (s.varmap i).is_unknown_size_var then
        some (insert i result)
      else some result)
    (∅ : Finset Nat)

/-- Operation set_union_with_increment: union from (displaced by inc when
inc is nonzero) into to_; the Bool reports whether to_ changed. -/
def set_union_with_increment (s : PTAState) (to_ from_ : Finset Nat) (inc : Nat) :
    Option (Finset Nat × Bool) :=
  if inc = 0 then some (to_ ∪ from_, decide (¬ from_ ⊆ to_))
  else
    (solution_set_add s from_ inc).map (fun tmp => (to_ ∪ tmp, decide (¬ tmp ⊆ to_)))

/-- Operation insert_into_complex: sorted insertion of a constraint into a
node's complex list. -/
def insert_into_complex (s : PTAState) (var : Nat) (c : Constraint) : PTAState :=
  let vi := s.varmap var
  let place := lower_bound constraint_less vi.complex c
  setVi s var { vi with complex := list_insert_at vi.complex place c }

/-- Lookup constraint_vec_find in a sorted constraint list. -/
def constraint_vec_find (vec : List Constraint) (lookfor : Constraint) :
    Option Constraint :=
  let place := lower_bound constraint_less vec lookfor
  match vec[place]? with
  | none => none
  | some found => if found = lookfor then some found else none

/-- Operation constraint_set_union: insert every member of from_ missing
from to_ at its lower bound. -/
def constraint_set_union (to_ from_ : List Constraint) : List Constraint :=
  from_.foldl
    (fun acc c =>
      match constraint_vec_find acc c with
      | some _ => acc
      | none => list_insert_at acc (lower_bound constraint_less acc c) c)
    to_

/-- Rewriting of a moved complex constraint: the deref side's variable
becomes the surviving node. -/
def complex_rewrite (to_ : Nat) (c : Constraint) : Constraint :=
  if c.rhs.type = .DEREF then { c with rhs := { c.rhs with var := to_ } }
  else { c with lhs := { c.lhs with var := to_ } }

/-- Operation condense_varmap_nodes: point src and everything folded into
src at to_, merge the variable sets, rewrite the deref side of src's
complex constraints to to_ and union them into to_'s complex list. -/
def condense_varmap_nodes (s : PTAState) (to_ src : Nat) : PTAState :=
  let srcvi := s.varmap src
  let s1 : PTAState := { s with
    varmap := fun j =>
      if j = src then { srcvi with node := to_ }
      else if j ∈ srcvi.varids then { s.varmap j with node := to_ }
      else s.varmap j }
  let tovi := s1.varmap to_
  let s2 := setVi s1 to_
    { tovi with varids := insert src (tovi.varids ∪ (s1.varmap src).varids) }
  let s3 := setVi s2 src { s2.varmap src with varids := ∅ }
  let rewritten := (s3.varmap src).complex.map (complex_rewrite to_)
  let s4 := setVi s3 to_
    { s3.varmap to_ with complex := constraint_set_union (s3.varmap to_).complex rewritten }
  setVi s4 src { s4.varmap src with complex := [] }

/-- Shared tail of collapse_nodes and process_unification_queue: if a self
edge exists at n, clear its zero-weight bit and erase the edge when its
weights became empty. -/
def clear_zero_weight_self_edge (s : PTAState) (n : Nat) : PTAState :=
  if valid_graph_edge s n n then
    match get_graph_weights s n n with
    | none => s
    | some r =>
      let w := (s.wstore r).erase 0
      let s1 := { s with wstore := upd s.wstore r w }
      if w = ∅ then erase_graph_self_edge s1 n else s1
  else s

/-- Operation collapse_nodes: condense the variable records, union the
solutions, merge the graph edges, drop a zero-weight self loop, clear the
dying node's solution and inherit its address_taken and indirect_target
flags. -/
def collapse_nodes (s : PTAState) (to_ from_ : Nat) : Option PTAState := do
  let s1 := condense_varmap_nodes s to_ from_
  let s2 := setSolution s1 to_ ((s1.varmap to_).solution ∪ (s1.varmap from_).solution)
  let s3 ← merge_graph_nodes s2 to_ from_
  let s4 := clear_zero_weight_self_edge s3 to_
  let s5 := setSolution s4 from_ ∅
  pure (setVi s5 to_
    { s5.varmap to_ with
      address_taken := (s5.varmap to_).address_taken || (s5.varmap from_).address_taken,
      indirect_target :=
        (s5.varmap to_).indirect_target || (s5.varmap from_).indirect_target })

/-- Per-element unification of process_unification_queue: merge the dying
node's edges and records into its representative and clear its solution,
transferring the changed accounting when updating. -/
def puq_unify_one (update_changed : Bool) (s : PTAState) (tounify n : Nat) :
    Option PTAState := do
  let s1 ← merge_graph_nodes s n tounify
  let s2 := condense_varmap_nodes s1 n tounify
  let s3 :=
    if update_changed ∧ tounify ∈ s2.changed then
      let sa := { s2 with changed := s2.changed.erase tounify }
      if n ∉ sa.changed then { sa with changed := insert n sa.changed }
      else { sa with changed_count := sa.changed_count - 1 }
    else s2
  pure (setSolution s3 tounify ∅)

/-- Group-end flush of process_unification_queue: union the scratch into
the representative's solution, mark it changed when updating and grown,
and drop a zero-weight self loop. -/
def puq_flush (update_changed : Bool) (s : PTAState) (n : Nat) (tmp1 : Finset Nat) :
    PTAState :=
  let grew : Bool := decide (¬ tmp1 ⊆ (s.varmap n).solution)
  let s5 := setSolution s n ((s.varmap n).solution ∪ tmp1)
  let s6 :=
    if grew ∧ update_changed ∧ n ∉ s5.changed then
      { s5 with changed := insert n s5.changed, changed_count := s5.changed_count + 1 }
    else s5
  clear_zero_weight_self_edge s6 n

/-- Loop of process_unification_queue over the queue, carrying the scratch
bitmap tmp of the current component group.  A group ends when the queue is
exhausted or the next element's node differs; at a group end the scratch
is flushed into the representative. -/
def process_unification_queue_go (update_changed : Bool) :
    PTAState → Finset Nat → List Nat → Option PTAState
  | s, _, [] => some s
  | s, tmp, tounify :: rest => do
    let n := (s.varmap tounify).node
    let tmp1 := tmp ∪ (s.varmap tounify).solution
    let s4 ← puq_unify_one update_changed s tounify n
    let groupEnd : Bool :=
      match rest with
      | [] => true
      | next :: _ => decide ((s4.varmap next).node ≠ n)
    if groupEnd then
      process_unification_queue_go update_changed (puq_flush update_changed s4 n tmp1) ∅ rest
    else
      process_unification_queue_go update_changed s4 tmp1 rest

/-- Entry point process_unification_queue with a cleared scratch bitmap. -/
def process_unification_queue (s : PTAState) (queue : List Nat)
    (update_changed : Bool) : Option PTAState :=
  process_unification_queue_go update_changed s ∅ queue

/-- State of one SCC computation (struct scc_info).  The stack stores the
most recently pushed node first; the unification queue is appended at the
end and consumed from the front, matching the C vector. -/
structure SccInfo where
  visited : Finset Nat
  in_component : Finset Nat
  current_index : Nat
  visited_index : Nat → Nat
  scc_stack : List Nat
  unification_queue : List Nat

/-- Fresh scc_info: nothing visited, in_component all ones over the id
range, indices zeroed. -/
def init_scc_info (size : Nat) : SccInfo :=
  { visited := ∅, in_component := Finset.range size, current_index := 0,
    visited_index := fun _ => 0, scc_stack := [], unification_queue := [] }

/-- Pop loop at a root n of scc_visit: pop every stack node with a larger
visited index, point it at n, mark it in_component and queue it for
unification. -/
def scc_pop_loop (n t : Nat) :
    PTAState → SccInfo → List Nat → PTAState × SccInfo
  | s, si, [] => (s, { si with scc_stack := [] })
  | s, si, w :: rest =>
    if t < si.visited_index w then
      scc_pop_loop n t (setNode s w n)
        { si with in_component := insert w si.in_component,
                  unification_queue := si.unification_queue ++ [w] }
        rest
    else (s, { si with scc_stack := w :: rest })

/-- Recursion scc_visit (Nuutila-variant Tarjan).  Only successor edges
whose weights bitmap has bit zero set are followed.  none models either
the gcc_assert that n is its own representative failing, or fuel
exhaustion (the callers' nvars + 1 fuel suffices once each recursive call
visits a distinct unvisited node). -/
def scc_visit : Nat → PTAState → SccInfo → Nat → Option (PTAState × SccInfo)
  | 0, _, _, _ => none
  | fuel + 1, s, si, n =>
    if (s.varmap n).node ≠ n then none
    else
      let si0 := { si with
        visited := insert n si.visited,
        in_component := si.in_component.erase n,
        visited_index := upd si.visited_index n si.current_index,
        current_index := si.current_index + 1 }
      do
      let (s1, si1) ← (s.succs n).foldlM
        (fun (p : PTAState × SccInfo) c => do
          let (s, si) := p
          if 0 ∈ s.wstore c.wref then do
            let w := c.dest
            let (s, si) ←
              if w ∉ si.visited then scc_visit fuel s si w else pure (s, si)
            if w ∉ si.in_component then
              let t := (s.varmap w).node
              let nnode := (s.varmap n).node
              if si.visited_index t < si.visited_index nnode then
                pure (setNode s n t, si)
              else pure (s, si)
            else pure (s, si)
          else pure (s, si))
        (s, si0)
      if (s1.varmap n).node = n then
        let t := si1.visited_index n
        let si2 := { si1 with in_component := insert n si1.in_component }
        pure (scc_pop_loop n t s1 si2 si2.scc_stack)
      else
        pure (s1, { si1 with scc_stack := n :: si1.scc_stack })

/-- Operation find_and_collapse_graph_cycles: run scc_visit from every
unvisited representative, then unify the queued components. -/
def find_and_collapse_graph_cycles (s : PTAState) (update_changed : Bool) :
    Option PTAState := do
  let size := s.nvars
  let (s1, si) ← (List.range size).foldlM
    (fun (p : PTAState × SccInfo) i =>
      let (s, si) := p
      if i ∉ si.visited ∧ (s.varmap i).node = i then scc_visit (size + 1) s si i
      else pure (s, si))
    (s, init_scc_info size)
  process_unification_queue s1 si.unification_queue update_changed

/-- Topological-order DFS state (struct topo_info); topo_order stores the
most recently pushed node first, so folding over the list left to right
visits nodes in the order the C code pops them. -/
structure TopoInfo where
  visited : Finset Nat
  topo_order : List Nat

/-- Recursion topo_visit: DFS over all successor edges, pushing a node
after its successors. -/
def topo_visit : Nat → PTAState → TopoInfo → Nat → Option TopoInfo
  | 0, _, _, _ => none
  | fuel + 1, s, ti, n =>
    let ti0 := { ti with visited := insert n ti.visited }
    do
    let ti1 ← (s.succs n).foldlM
      (fun ti c =>
        if c.dest ∉ ti.visited then topo_visit fuel s ti c.dest else pure ti)
      ti0
    pure { ti1 with topo_order := n :: ti1.topo_order }

/-- Operation compute_topo_order from every unvisited representative;
returns the node list in pop order. -/
def compute_topo_order (s : PTAState) : Option (List Nat) := do
  let size := s.nvars
  let ti ← (List.range size).foldlM
    (fun ti i =>
      if i ∉ ti.visited ∧ (s.varmap i).node = i then topo_visit (size + 1) s ti i
      else pure ti)
    ({ visited := ∅, topo_order := [] } : TopoInfo)
  pure ti.topo_order

/-- Predicate bitmap_other_than_zero_bit_set: false on the empty bitmap,
else whether some bit at position one or above is set. -/
def bitmap_other_than_zero_bit_set (b : Finset Nat) : Bool :=
  if b = ∅ then false
  else decide (∃ i ∈ b, 1 ≤ i)

/-- Scan of the predecessor loop of perform_var_substitution, carrying the
okay_to_elim flag and the candidate root; early exits reproduce the C
breaks.  none models the get_graph_weights assert. -/
def subst_scan (s : PTAState) (i : Nat) :
    List CEdge → Bool → Nat → Option (Bool × Nat)
  | [], okay, root => some (okay, root)
  | ce :: rest, okay, root =>
    match get_graph_weights s ce.src ce.dest with
    | none => none
    | some r =>
      if bitmap_other_than_zero_bit_set (s.wstore r) then some (false, root)
      else
        let w := (s.varmap ce.dest).node
        if ¬ okay then
          if ¬ ((s.varmap i).solution \ (s.varmap w).solution = ∅) then some (false, w)
          else subst_scan s i rest true w
        else if w ≠ root then some (false, root)
        else if ¬ ((s.varmap i).solution \ (s.varmap w).solution = ∅) then
          some (false, root)
        else subst_scan s i rest okay root

/-- Body of perform_var_substitution for one popped node i: skip nodes
with address_taken or indirect_target, scan the predecessors, and on
eligibility point i at the root and collapse. -/
def var_subst_step (s : PTAState) (i : Nat) : Option PTAState :=
  let vi := s.varmap i
  if vi.address_taken || vi.indirect_target then some s
  else do
    let (okay, root) ← subst_scan s i (s.preds i) false s.nvars
    if root ≠ (s.varmap i).node ∧ okay then
      collapse_nodes (setNode s i root) root i
    else pure s

/-- Operation perform_var_substitution: process every node in topological
pop order. -/
def perform_var_substitution (s : PTAState) : Option PTAState := do
  let order ← compute_topo_order s
  order.foldlM var_subst_step s

/-- Predicate type_safe: the globbed variables (ANYTHING, artificial,
unknown size) force the offset to zero and pass; otherwise the displaced
offset must stay inside the full size and the id must be above
ANYTHING. -/
def type_safe (s : PTAState) (n : Nat) (off : Nat) : Bool × Nat :=
  let ninfo := s.varmap n
  if n = anything_id ∨ ninfo.is_artificial_var = true ∨ ninfo.is_unknown_size_var = true then
    (true, 0)
  else (decide (n > anything_id) && decide (ninfo.offset + off < ninfo.fullsize), off)

/-- Body of the do_da_constraint loop for one member of delta. -/
def do_da_step (rhs : Nat) (p : PTAState × Nat) (j : Nat) : Option (PTAState × Nat) :=
  let (s, offset) := p
  let (ok, offset1) := type_safe s j offset
  if ok then
    match first_vi_for_offset s (s.nvars + 1) j ((s.varmap j).offset + offset1) with
    | none => none
    | some v =>
      let t := (s.varmap v).node
      let sol := (s.varmap t).solution
      if rhs ∉ sol then
        let s1 := setSolution s t (insert rhs sol)
        let s2 :=
          if t ∉ s1.changed then
            { s1 with changed := insert t s1.changed,
                      changed_count := s1.changed_count + 1 }
          else s1
        pure (s2, offset1)
      else pure (s, offset1)
  else pure (s, offset1)

/-- Processing do_da_constraint (*x = &y) over the members of delta in
ascending order.  The offset variable is carried across iterations because
type_safe writes through its pointer. -/
def do_da_constraint (s : PTAState) (c : Constraint) (delta : List Nat) :
    Option PTAState :=
  (delta.foldlM (do_da_step c.rhs.var) (s, c.lhs.offset)).map Prod.fst

/-- Body of the do_sd_constraint loop for one member of delta. -/
def do_sd_step (lhs : Nat) (p : PTAState × Bool × Nat) (j : Nat) :
    Option (PTAState × Bool × Nat) := do
  let (s, flag, roffset) := p
  let (ok, roffset1) := type_safe s j roffset
  if ok then
    match first_vi_for_offset s (s.nvars + 1) j ((s.varmap j).offset + roffset1) with
    | none => none
    | some v => do
      let t := (s.varmap v).node
      let (s1, added) ← int_add_graph_edge s lhs t 0
      if added then
        let sol := (s1.varmap lhs).solution
        let tsol := (s1.varmap t).solution
        pure (setSolution s1 lhs (sol ∪ tsol), flag || decide (¬ tsol ⊆ sol), roffset1)
      else pure (s1, flag, roffset1)
  else pure (s, flag, roffset1)

/-- Processing do_sd_constraint (x = *y) over the members of delta in
ascending order: for each type-safe member, int_add_graph_edge a
zero-weight edge from the lhs node to the member's field node, and only
when that reported something new, union that node's solution into the lhs
solution.  The lhs is marked changed at the end when any union grew its
solution. -/
def do_sd_constraint (s : PTAState) (c : Constraint) (delta : List Nat) :
    Option PTAState := do
  let lhs := (s.varmap c.lhs.var).node
  let (s1, flag, _) ← delta.foldlM (do_sd_step lhs) (s, false, c.rhs.offset)
  if flag then
    if lhs ∉ s1.changed then
      pure { s1 with changed := insert lhs s1.changed,
                     changed_count := s1.changed_count + 1 }
    else pure s1
  else pure s1

/-- Body of the do_ds_constraint loop for one member of delta.  The rhs
solution is read afresh from the current state, which also reproduces the
C refresh of its local pointer when t equals the rhs node. -/
def do_ds_step (rhs roff : Nat) (p : PTAState × Nat) (j : Nat) :
    Option (PTAState × Nat) := do
  let (s, loff) := p
  let (ok, loff1) := type_safe s j loff
  if ok then
    match first_vi_for_offset s (s.nvars + 1) j ((s.varmap j).offset + loff1) with
    | none => none
    | some v => do
      let t := (s.varmap v).node
      let (s1, added) ← int_add_graph_edge s t rhs roff
      if added then do
        let tmp := (s1.varmap t).solution
        let sol := (s1.varmap rhs).solution
        let (tmp1, grew) ← set_union_with_increment s1 tmp sol roff
        if grew then
          let s2 := setSolution s1 t tmp1
          let s3 :=
            if t ∉ s2.changed then
              { s2 with changed := insert t s2.changed,
                        changed_count := s2.changed_count + 1 }
            else s2
          pure (s3, loff1)
        else pure (s1, loff1)
      else pure (s1, loff1)
  else pure (s, loff1)

/-- Processing do_ds_constraint (*x = y) over the members of delta in
ascending order: ensure a roff-weighted edge from the member's field node
t to the rhs node and, when the edge or weight was new, union the
(displaced) rhs solution into t's, marking t changed on growth. -/
def do_ds_constraint (s : PTAState) (c : Constraint) (delta : List Nat) :
    Option PTAState :=
  (delta.foldlM (do_ds_step (s.varmap c.rhs.var).node c.rhs.offset)
    (s, c.lhs.offset)).map Prod.fst

/-- Dispatcher do_complex_constraint. -/
def do_complex_constraint (s : PTAState) (c : Constraint) (delta : List Nat) :
    Option PTAState :=
  if c.lhs.type = .DEREF then
    if c.rhs.type = .ADDRESSOF then do_da_constraint s c delta
    else do_ds_constraint s c delta
  else do_sd_constraint s c delta

/-- Body of build_constraint_graph for one constraint: deref lhs goes to
the lhs node's complex list unless the rhs is a scalar special variable;
deref rhs goes to the rhs node's complex list unless the lhs is a special
variable; an AddrOf rhs seeds the lhs solution directly; remaining copy
constraints between non-special variables become a graph edge weighted by
the rhs offset, except zero-weighted self edges. -/
def build_step (s : PTAState) (c : Constraint) : Option PTAState :=
  let lhs := c.lhs
  let rhs := c.rhs
  if lhs.type = .DEREF then
    if rhs.type = .ADDRESSOF ∨ rhs.var > anything_id then
      some (insert_into_complex s lhs.var c)
    else some s
  else if rhs.type = .DEREF then
    if lhs.var > anything_id then some (insert_into_complex s rhs.var c)
    else some s
  else if rhs.type = .ADDRESSOF then
    some (setSolution s lhs.var (insert rhs.var (s.varmap lhs.var).solution))
  else if rhs.var > anything_id ∧ lhs.var > anything_id then
    if lhs.var ≠ rhs.var ∨ rhs.offset ≠ 0 ∨ lhs.offset ≠ 0 then
      let (s1, _) := add_graph_edge s lhs.var rhs.var
      match get_graph_weights s1 lhs.var rhs.var with
      | none => none
      | some r =>
        some { s1 with wstore := upd s1.wstore r (insert rhs.offset (s1.wstore r)) }
    else some s
  else some s

/-- Operation build_constraint_graph over the emitted constraint list (the
graph fields of the incoming state are the freshly cleared vectors). -/
def build_constraint_graph (s : PTAState) (cs : List Constraint) :
    Option PTAState :=
  cs.foldlM build_step s

/-- Initialization of solve_graph: the changed sbitmap gets every bit of
the id range set, and changed_count starts at the variable count and is
decremented once per non-representative, without clearing their bits. -/
def solve_graph_init (s : PTAState) : PTAState :=
  let size := s.nvars
  let cnt := (List.range size).foldl
    (fun acc i => if (s.varmap i).node ≠ i then acc - 1 else acc) size
  { s with changed := Finset.range size, changed_count := cnt }

/-- Body of the solver for one popped node i: representatives only
(gcc_assert), and only when the changed bit is set: clear it, process the
complex list (reading the node's current solution afresh for each
constraint, as the C code's live bitmap pointer does), then propagate the
solution along every successor edge once per weight bit, marking grown
destinations changed. -/
def solve_node (s : PTAState) (i : Nat) : Option PTAState :=
  if (s.varmap i).node ≠ i then none
  else if i ∈ s.changed then do
    let s0 := { s with changed := s.changed.erase i,
                       changed_count := s.changed_count - 1 }
    let complexList := (s0.varmap i).complex
    let s1 ← complexList.foldlM
      (fun s c => do_complex_constraint s c (bmembers (s.varmap i).solution)) s0
    let succlist := s1.succs i
    succlist.foldlM
      (fun s e =>
        if s.wstore e.wref = ∅ then none
        else do
          let (s2, flag) ← (bmembers (s.wstore e.wref)).foldlM
            (fun (p : PTAState × Bool) k => do
              let (s, flag) := p
              let (tmp1, g) ← set_union_with_increment s
                ((s.varmap e.dest).solution) ((s.varmap i).solution) k
              pure (setSolution s e.dest tmp1, flag || g))
            (s, false)
          if flag then
            if e.dest ∉ s2.changed then
              pure { s2 with changed := insert e.dest s2.changed,
                             changed_count := s2.changed_count + 1 }
            else pure s2
          else pure s2)
      s1
  else some s

/-- Body of one outer solver iteration; iter is the value of
stats.iterations after its increment, so cycle collapsing is skipped on
the very first iteration even when edge_added is set. -/
def solve_iteration (s : PTAState) (iter : Nat) : Option PTAState := do
  let s1 ←
    if s.edge_added then
      if iter > 1 then
        (find_and_collapse_graph_cycles s true).map
          (fun s => { s with edge_added := false })
      else pure { s with edge_added := false }
    else pure s
  let order ← compute_topo_order s1
  order.foldlM solve_node s1

/-- Outer while loop of solve_graph with explicit fuel; none models
running out of fuel before changed_count reached zero. -/
def solve_graph_loop : Nat → Nat → PTAState → Option PTAState
  | 0, _, _ => none
  | fuel + 1, iter, s =>
    if s.changed_count = 0 then some s
    else do
      let s1 ← solve_iteration s (iter + 1)
      solve_graph_loop fuel (iter + 1) s1

/-- Operation solve_graph: initialize the changed accounting and iterate
to quiescence. -/
def solve_graph (fuel : Nat) (s : PTAState) : Option PTAState :=
  solve_graph_loop fuel 0 (solve_graph_init s)

/-- Suffix of an aggregate's field list from v through the next chain, in
order; fuel bounds the walk (nvars + 1 covers any acyclic chain). -/
def addr_chain (s : PTAState) : Nat → Nat → List Nat
  | 0, _ => []
  | fuel + 1, v =>
    v :: (match (s.varmap v).next with
      | none => []
      | some nxt => addr_chain s fuel nxt)

/-- Walk of process_constraint's AddrOf branch: set address_taken on every
field from v through the next chain.  Marking never alters next fields, so
folding over the precomputed chain equals the C in-place walk. -/
def mark_address_taken_chain (s : PTAState) (fuel v : Nat) : PTAState :=
  (addr_chain s fuel v).foldl
    (fun s w => setVi s w { s.varmap w with address_taken := true }) s

/-- Creation of the fresh scalar temporary used by the double-dereference
split.  Modelled from the spec: the IR collaborator
(create_tmp_var_raw and create_variable_info_for, outside the solver core
modelled here) allocates the next id as a plain scalar temporary whose
sizes come from the IR type; the sizes play no role in any claim below and
are left zero. -/
def fresh_tmp_var (s : PTAState) : PTAState × Nat :=
  let id := s.nvars
  ({ s with nvars := s.nvars + 1,
            varmap := upd s.varmap id
              { decl := 0, offset := 0, size := 0, fullsize := 0, next := none,
                node := id, address_taken := false, indirect_target := false,
                is_artificial_var := false, is_unknown_size_var := false,
                has_union := false, solution := ∅, varids := ∅, complex := [] } },
   id)

/-- Operation process_constraint; the returned list holds the constraints
appended to the global constraint vector (the accepted ones).  none models
a gcc_assert failure (out-of-range variable ids, nonzero AddrOf offset);
the recursion depth is at most two, so fuel two suffices. -/
def process_constraint : Nat → PTAState → Constraint → Option (PTAState × List Constraint)
  | 0, _, _ => none
  | fuel + 1, s, t =>
    let rhs := t.rhs
    let lhs := t.lhs
    if ¬ (rhs.var < s.nvars) ∨ ¬ (lhs.var < s.nvars) then none
    else if lhs.var = anything_id ∧ rhs.var = anything_id then some (s, [])
    else if lhs.var = anything_id ∧ lhs.type = .ADDRESSOF then
      process_constraint fuel s { lhs := t.rhs, rhs := t.lhs }
    else if rhs.type = .DEREF ∧ lhs.type = .DEREF ∧ rhs.var ≠ anything_id then do
      let (s1, tmpid) := fresh_tmp_var s
      let tmplhs : ConstraintExpr := { type := .SCALAR, var := tmpid, offset := 0 }
      let (s2, l1) ← process_constraint fuel s1 { lhs := tmplhs, rhs := rhs }
      let (s3, l2) ← process_constraint fuel s2 { lhs := lhs, rhs := tmplhs }
      some (s3, l1 ++ l2)
    else if rhs.type = .ADDRESSOF then
      if rhs.offset ≠ 0 then none
      else some (mark_address_taken_chain s (s.nvars + 1) rhs.var, [t])
    else
      let s1 :=
        if lhs.type ≠ .DEREF ∧ rhs.type = .DEREF then
          setVi s lhs.var { s.varmap lhs.var with indirect_target := true }
        else s
      some (s1, [t])

/-- Environment of the points-to query: the collaborator facilities the
core calls out to (tree-to-id table, subvariable metadata, decl kinds and
uids), with trees and decls as opaque integer tokens. -/
structure QueryEnv where
  have_alias_info : Bool
  lookup_id_for_tree : Nat → Option Nat
  var_can_have_subvars : Nat → Bool
  subvars_for_var : Nat → Option (List Nat)
  tree_code_var_or_parm : Nat → Bool
  decl_uid : Nat → Nat

/-- Mapping set_uids_in_ptset from solution members to external decl uids,
expanding union-containing variables into their subvariable uids. -/
def set_uids_in_ptset (env : QueryEnv) (s : PTAState) (from_ : Finset Nat) :
    Finset Nat :=
  (bmembers from_).foldl
    (fun into i =>
      let vi := s.varmap i
      match env.subvars_for_var vi.decl with
      | some svars =>
        if vi.has_union then svars.foldl (fun into sv => insert sv into) into
        else if env.tree_code_var_or_parm vi.decl then insert (env.decl_uid vi.decl) into
        else into
      | none =>
        if env.tree_code_var_or_parm vi.decl then insert (env.decl_uid vi.decl) into
        else into)
    ∅

/-- Query find_what_p_points_to: none models returning false (no
information); some holds the published uid set.  For a sub-field
(size ≠ fullsize) the subvars test can only return false early, and even
when metadata is present control falls through the else branch to the
final return false. -/
def find_what_p_points_to (env : QueryEnv) (s : PTAState) (p : Nat) :
    Option (Finset Nat) :=
  if ¬ env.have_alias_info then none
  else
    match env.lookup_id_for_tree p with
    | none => none
    | some id =>
      let vi := s.varmap id
      if vi.is_artificial_var then none
      else if vi.size ≠ vi.fullsize then
        if ¬ env.var_can_have_subvars vi.decl ∨ env.subvars_for_var vi.decl = none then
          none
        else none
      else
        let vi2 := s.varmap vi.node
        if ∃ i ∈ vi2.solution, (s.varmap i).is_artificial_var = true then none
        else some (set_uids_in_ptset env s vi2.solution)

/-- Blank variable record used to assemble concrete test states. -/
def defaultVi : VarInfo :=
  { decl := 0, offset := 0, size := 0, fullsize := 0, next := none, node := 0,
    address_taken := false, indirect_target := false, is_artificial_var := false,
    is_unknown_size_var := false, has_union := false, solution := ∅, varids := ∅,
    complex := [] }

/-- State with n variables, each its own representative, no edges, no
constraints, empty changed accounting. -/
def emptyState (n : Nat) : PTAState :=
  { nvars := n, varmap := fun i => { defaultVi with node := i },
    succs := fun _ => [], preds := fun _ => [], wstore := fun _ => ∅,
    nextRef := 0, changed := ∅, changed_count := 0, edge_added := false }

theorem mark_fold_varmap (l : List Nat) (s : PTAState) (v : Nat) :
    ((l.foldl (fun s w => setVi s w { s.varmap w with address_taken := true }) s).varmap v)
      = if v ∈ l then { s.varmap v with address_taken := true } else s.varmap v := by
  induction l generalizing s with
  | nil => simp
  | cons x xs ih =>
    simp only [List.foldl_cons]
    rw [ih]
    by_cases hvx : v = x
    · subst hvx
      by_cases hvin : v ∈ xs <;> simp [hvin, setVi, upd]
    · by_cases hvin : v ∈ xs <;>
        simp [hvin, hvx, setVi, upd, List.mem_cons]

theorem mark_chain_varmap (s : PTAState) (fuel r v : Nat) :
    (mark_address_taken_chain s fuel r).varmap v
      = if v ∈ addr_chain s fuel r then { s.varmap v with address_taken := true }
        else s.varmap v := by
  unfold mark_address_taken_chain
  exact mark_fold_varmap _ s v

/-- C9: a constraint accepted by process_constraint with an AddrOf rhs
sets address_taken on the rhs variable and on every field variable
reachable from it through the next chain, and changes no other variable's
record (in particular no other flags). -/
theorem addrof_constraint_marks_whole_field_chain (s : PTAState) (t : Constraint)
    (fuel : Nat)
    (hr : t.rhs.type = CEType.ADDRESSOF)
    (hrv : t.rhs.var < s.nvars) (hlv : t.lhs.var < s.nvars)
    (h1 : ¬ (t.lhs.var = anything_id ∧ t.rhs.var = anything_id))
    (h2 : ¬ (t.lhs.var = anything_id ∧ t.lhs.type = CEType.ADDRESSOF))
    (hoff : t.rhs.offset = 0) :
    process_constraint (fuel + 1) s t
      = some (mark_address_taken_chain s (s.nvars + 1) t.rhs.var, [t])
    ∧ (∀ v ∈ addr_chain s (s.nvars + 1) t.rhs.var,
        (mark_address_taken_chain s (s.nvars + 1) t.rhs.var).varmap v
          = { s.varmap v with address_taken := true })
    ∧ (∀ v, v ∉ addr_chain s (s.nvars + 1) t.rhs.var →
        (mark_address_taken_chain s (s.nvars + 1) t.rhs.var).varmap v = s.varmap v) := by
  refine ⟨?_, ?_, ?_⟩
  · unfold process_constraint
    have hnd : ¬ (t.rhs.type = CEType.DEREF ∧ t.lhs.type = CEType.DEREF
        ∧ t.rhs.var ≠ anything_id) := by
      intro h
      rw [hr] at h
      exact absurd h.1 (by decide)
    simp [hrv, hlv, h1, h2, hnd, hr, hoff]
  · intro v hv
    rw [mark_chain_varmap, if_pos hv]
  · intro v hv
    rw [mark_chain_varmap, if_neg hv]

/-- Witness state for C9: variable 2 heads a two-field chain 2 → 3. -/
def c9_state : PTAState :=
  { emptyState 4 with varmap := fun i =>
      if i = 2 then { defaultVi with node := 2, next := some 3 }
      else { defaultVi with node := i } }

theorem addrof_constraint_marks_whole_field_chain_witness :
    (({ lhs := ⟨CEType.SCALAR, 0, 0⟩, rhs := ⟨CEType.ADDRESSOF, 2, 0⟩ } : Constraint).rhs.type
        = CEType.ADDRESSOF)
    ∧ process_constraint 2 c9_state
        { lhs := ⟨CEType.SCALAR, 0, 0⟩, rhs := ⟨CEType.ADDRESSOF, 2, 0⟩ }
        = some (mark_address_taken_chain c9_state 5 2,
                [{ lhs := ⟨CEType.SCALAR, 0, 0⟩, rhs := ⟨CEType.ADDRESSOF, 2, 0⟩ }]) := by
  refine ⟨by decide, ?_⟩
  have h := addrof_constraint_marks_whole_field_chain c9_state
    { lhs := ⟨CEType.SCALAR, 0, 0⟩, rhs := ⟨CEType.ADDRESSOF, 2, 0⟩ } 1
    (by decide) (by decide) (by decide) (by decide) (by decide) (by decide)
  exact h.1

/-- C10: the points-to query on a variable whose record is a sub-field
(size differs from fullsize) returns no information, whether or not
subvariable metadata is present. -/
theorem subfield_query_returns_none (env : QueryEnv) (s : PTAState) (p id : Nat)
    (hlook : env.lookup_id_for_tree p = some id)
    (hsz : (s.varmap id).size ≠ (s.varmap id).fullsize) :
    find_what_p_points_to env s p = none := by
  unfold find_what_p_points_to
  by_cases hai : env.have_alias_info
  · simp [hai, hlook, hsz]
  · simp [hai]

/-- Query environment of the C10 witness: pointer token 0 maps to id 0,
which has subvariable metadata. -/
def c10_env : QueryEnv :=
  { have_alias_info := true,
    lookup_id_for_tree := fun t => if t = 0 then some 0 else none,
    var_can_have_subvars := fun _ => true,
    subvars_for_var := fun _ => some [5],
    tree_code_var_or_parm := fun _ => true,
    decl_uid := fun d => d }

/-- State of the C10 witness: variable 0 is a sub-field (size 32 of 64). -/
def c10_state : PTAState :=
  { emptyState 1 with varmap := fun i => { defaultVi with node := i, size := 32, fullsize := 64 } }

theorem subfield_query_returns_none_witness :
    c10_env.lookup_id_for_tree 0 = some 0
    ∧ (c10_state.varmap 0).size ≠ (c10_state.varmap 0).fullsize
    ∧ (c10_env.subvars_for_var (c10_state.varmap 0).decl).isSome = true
    ∧ find_what_p_points_to c10_env c10_state 0 = none :=
  ⟨by decide, by decide, by decide,
   subfield_query_returns_none c10_env c10_state 0 0 (by decide) (by decide)⟩

/-- C8: the query returns no information when the pointer has no id, when
its variable is a sub-field without subvariable metadata, and when the
representative's solution contains an artificial variable; a successful
query publishes exactly the uid image of the representative's solution,
which then contains no artificial variable. -/
theorem query_unknown_and_success_conditions (env : QueryEnv) (s : PTAState) (p : Nat) :
    (env.lookup_id_for_tree p = none → find_what_p_points_to env s p = none)
    ∧ (∀ id, env.lookup_id_for_tree p = some id →
        (s.varmap id).size ≠ (s.varmap id).fullsize →
        (¬ env.var_can_have_subvars (s.varmap id).decl
          ∨ env.subvars_for_var (s.varmap id).decl = none) →
        find_what_p_points_to env s p = none)
    ∧ (∀ id, env.lookup_id_for_tree p = some id →
        (∃ i ∈ (s.varmap (s.varmap id).node).solution,
            (s.varmap i).is_artificial_var = true) →
        find_what_p_points_to env s p = none)
    ∧ (∀ id r, env.lookup_id_for_tree p = some id →
        find_what_p_points_to env s p = some r →
        (∀ i ∈ (s.varmap (s.varmap id).node).solution,
            (s.varmap i).is_artificial_var = false)
        ∧ r = set_uids_in_ptset env s (s.varmap (s.varmap id).node).solution) := by
  refine ⟨?_, ?_, ?_, ?_⟩
  · intro hnone
    unfold find_what_p_points_to
    by_cases hai : env.have_alias_info <;> simp [hai, hnone]
  · intro id hlook hsz _
    exact subfield_query_returns_none env s p id hlook hsz
  · intro id hlook hart
    unfold find_what_p_points_to
    by_cases hai : env.have_alias_info
    · simp only [hai, not_true, if_false, hlook]
      by_cases ha : (s.varmap id).is_artificial_var
      · simp [ha]
      · by_cases hsz : (s.varmap id).size = (s.varmap id).fullsize
        · simp [ha, hsz, hart]
        · simp only [ha, if_false, hsz, ne_eq, not_false_iff, if_true]
          exact ite_self none
    · simp [hai]
  · intro id r hlook hsome
    unfold find_what_p_points_to at hsome
    by_cases hai : env.have_alias_info
    · simp only [hai, not_true, if_false, hlook] at hsome
      by_cases ha : (s.varmap id).is_artificial_var
      · simp [ha] at hsome
      · by_cases hsz : (s.varmap id).size = (s.varmap id).fullsize
        · simp only [ha, if_false, hsz, ne_eq, not_true, if_false] at hsome
          by_cases hart : ∃ i ∈ (s.varmap (s.varmap id).node).solution,
              (s.varmap i).is_artificial_var = true
          · simp [hart] at hsome
          · simp only [hart, if_false] at hsome
            push_neg at hart
            refine ⟨?_, ?_⟩
            · intro i hi
              have := hart i hi
              simpa using this
            · exact (Option.some.inj hsome).symm
        · simp only [ha, if_false, hsz, ne_eq, not_false_iff, if_true] at hsome
          rw [ite_self] at hsome
          exact absurd hsome (by simp)
    · simp [hai] at hsome

/-- Environment of the C8 witness. -/
def c8_env : QueryEnv :=
  { have_alias_info := true,
    lookup_id_for_tree := fun t => if t = 0 then some 0 else none,
    var_can_have_subvars := fun _ => false,
    subvars_for_var := fun _ => none,
    tree_code_var_or_parm := fun _ => true,
    decl_uid := fun d => d }

/-- State of the C8 witness: variable 0's solution contains the
artificial variable 1. -/
def c8_state : PTAState :=
  { emptyState 2 with varmap := fun i =>
      if i = 0 then { defaultVi with node := 0, solution := {1} }
      else { defaultVi with node := i, is_artificial_var := true } }

theorem query_unknown_and_success_conditions_witness :
    c8_env.lookup_id_for_tree 0 = some 0
    ∧ (∃ i ∈ (c8_state.varmap (c8_state.varmap 0).node).solution,
        (c8_state.varmap i).is_artificial_var = true)
    ∧ find_what_p_points_to c8_env c8_state 0 = none :=
  ⟨by decide, by decide,
   (query_unknown_and_success_conditions c8_env c8_state 0).2.2.1 0 (by decide) (by decide)⟩

/-- State of the C1 counterexample: the zero-weight edge 2 → 4 already
exists, and variable 4 (a well-typed 8-bit variable, its own
representative) has solution {0} while variable 2's solution is empty. -/
def c1_state : PTAState :=
  { nvars := 5,
    varmap := fun i =>
      if i = 4 then { defaultVi with node := 4, size := 8, fullsize := 8, solution := {0} }
      else { defaultVi with node := i },
    succs := fun i => if i = 4 then [⟨4, 2, 0⟩] else [],
    preds := fun i => if i = 2 then [⟨2, 4, 0⟩] else [],
    wstore := fun r => if r = 0 then {0} else ∅,
    nextRef := 1, changed := ∅, changed_count := 0, edge_added := false }

/-- Load constraint x := *y of the C1 counterexample (x is variable 2,
y is variable 3). -/
def c1_con : Constraint := { lhs := ⟨CEType.SCALAR, 2, 0⟩, rhs := ⟨CEType.DEREF, 3, 0⟩ }

/-- C1 counterexample: member 4 of the delta set is type-safe for the
constraint's rhs offset, its field node is its own representative 4, the
zero-weight edge from the lhs node 2 to 4 already exists, and processing
the load does not union solution(4) = {0} into solution(2), which stays
empty — refuting that the union happens for every such member. -/
theorem load_union_skipped_when_edge_exists :
    (type_safe c1_state 4 c1_con.rhs.offset).1 = true
    ∧ first_vi_for_offset c1_state 6 4
        ((c1_state.varmap 4).offset + (type_safe c1_state 4 c1_con.rhs.offset).2) = some 4
    ∧ (c1_state.varmap 4).node = 4
    ∧ (c1_state.varmap c1_con.lhs.var).node = 2
    ∧ get_graph_weights c1_state 2 4 = some 0
    ∧ 0 ∈ c1_state.wstore 0
    ∧ (c1_state.varmap 4).solution = {0}
    ∧ (do_sd_constraint c1_state c1_con [4]).map (fun s => (s.varmap 2).solution)
        = some ∅ := by decide

/-- State of the C2 counterexample: variable 5 has been pointed at
representative 4 by cycle detection and has solution {7}. -/
def c2_state : PTAState :=
  { emptyState 6 with varmap := fun i =>
      if i = 5 then { defaultVi with node := 4, solution := {7} }
      else { defaultVi with node := i } }

/-- C2 counterexample: processing the unification queue clears variable
5's solution (its element 7 is removed, reappearing only in its
representative's solution), refuting that no step ever removes an element
from any variable's solution set. -/
theorem unification_clears_folded_solution :
    (c2_state.varmap 5).solution = {7}
    ∧ (process_unification_queue c2_state [5] false).map
        (fun s => ((s.varmap 5).solution, (s.varmap 4).solution))
        = some (∅, {7}) := by decide

/-- State of the C5 counterexample: variable 1 is already folded into
variable 0. -/
def c5_state : PTAState :=
  { emptyState 2 with varmap := fun _ => { defaultVi with node := 0 } }

/-- C5 counterexample: after solve_graph initialization the folded
variable 1 still has its changed bit set (only changed_count accounts for
it), refuting that the bit is cleared for every folded node. -/
theorem solver_init_keeps_folded_bits_set :
    (c5_state.varmap 1).node ≠ 1
    ∧ 1 ∈ (solve_graph_init c5_state).changed
    ∧ (solve_graph_init c5_state).changed = {0, 1}
    ∧ (solve_graph_init c5_state).changed_count = 1 := by decide

/-- Load constraint ANYTHING := *y of the C6 counterexample (y is
variable 2). -/
def c6_con : Constraint := { lhs := ⟨CEType.SCALAR, 1, 0⟩, rhs := ⟨CEType.DEREF, 2, 0⟩ }

/-- C6 counterexample: the load constraint ANYTHING := *y is dropped by
the graph build — nothing is appended to complex(y) — refuting that
x := *y is attached to complex(y) for all variables x including the
special ones. -/
theorem build_skips_special_lhs_load :
    c6_con.lhs.type = CEType.SCALAR ∧ c6_con.rhs.type = CEType.DEREF
    ∧ c6_con.lhs.var = anything_id
    ∧ (build_constraint_graph (emptyState 3) [c6_con]).map
        (fun s => ((s.varmap 2).complex, (s.varmap 1).complex)) = some ([], []) := by
  decide

theorem cel_iff (a b : CEdge) :
    constraint_edge_less a b = true ↔ (a.dest < b.dest ∨ (a.dest = b.dest ∧ a.src < b.src)) := by
  unfold constraint_edge_less
  by_cases h1 : a.dest < b.dest
  · simp [h1]
  · by_cases h2 : a.dest = b.dest <;> simp [h1, h2]

theorem cel_irrefl (a : CEdge) : constraint_edge_less a a = false := by
  simp [constraint_edge_less]

theorem cel_congr_left {a b : CEdge} (h1 : a.dest = b.dest) (h2 : a.src = b.src)
    (c : CEdge) : constraint_edge_less a c = constraint_edge_less b c := by
  unfold constraint_edge_less
  rw [h1, h2]

theorem cel_congr_right {a b : CEdge} (h1 : a.dest = b.dest) (h2 : a.src = b.src)
    (c : CEdge) : constraint_edge_less c a = constraint_edge_less c b := by
  unfold constraint_edge_less
  rw [h1, h2]

theorem cel_trans {a b c : CEdge} (h1 : constraint_edge_less a b = true)
    (h2 : constraint_edge_less b c = true) : constraint_edge_less a c = true := by
  rw [cel_iff] at *
  omega

theorem cel_total (a b : CEdge) :
    constraint_edge_less a b = true ∨ constraint_edge_less b a = true
    ∨ (a.dest = b.dest ∧ a.src = b.src) := by
  by_cases h1 : constraint_edge_less a b = true
  · exact Or.inl h1
  · by_cases h2 : constraint_edge_less b a = true
    · exact Or.inr (Or.inl h2)
    · rw [cel_iff] at h1 h2
      exact Or.inr (Or.inr ⟨by omega, by omega⟩)

/-- Strictly sorted edge vector in the constraint_edge_less order. -/
def ESorted (l : List CEdge) : Prop :=
  l.Pairwise (fun a b => constraint_edge_less a b = true)

theorem esorted_cons {x : CEdge} {xs : List CEdge} (h : ESorted (x :: xs)) :
    ESorted xs ∧ ∀ e ∈ xs, constraint_edge_less x e = true := by
  rw [ESorted, List.pairwise_cons] at h
  exact ⟨h.2, h.1⟩

theorem mem_list_insert_at {α : Type} (l : List α) (n : Nat) (a x : α) :
    x ∈ list_insert_at l n a ↔ x = a ∨ x ∈ l := by
  induction l generalizing n with
  | nil =>
    cases n <;> simp [list_insert_at]
  | cons y ys ih =>
    cases n with
    | zero => simp [list_insert_at]
    | succ m =>
      simp only [list_insert_at, List.mem_cons, ih]
      tauto

theorem list_remove_at_sublist {α : Type} (l : List α) (n : Nat) :
    (list_remove_at l n).Sublist l := by
  induction l generalizing n with
  | nil => simp [list_remove_at]
  | cons y ys ih =>
    cases n with
    | zero => simp [list_remove_at]
    | succ m =>
      exact List.Sublist.cons₂ y (ih m)

theorem mem_list_remove_at {α : Type} {l : List α} {n : Nat} {x : α}
    (h : x ∈ list_remove_at l n) : x ∈ l :=
  (list_remove_at_sublist l n).mem h

theorem esorted_remove {l : List CEdge} (h : ESorted l) (n : Nat) :
    ESorted (list_remove_at l n) :=
  List.Pairwise.sublist (list_remove_at_sublist l n) h

theorem find_mem {l : List CEdge} {s d : Nat} {e : CEdge}
    (h : constraint_edge_vec_find l s d = some e) : e ∈ l ∧ e.src = s ∧ e.dest = d := by
  unfold constraint_edge_vec_find at h
  cases hx : l[lower_bound constraint_edge_less l ⟨s, d, 0⟩]? with
  | none =>
    simp only [hx] at h
    cases h
  | some f =>
    simp only [hx] at h
    split at h
    · cases h
      exact ⟨List.getElem?_mem hx, by assumption⟩
    · cases h

theorem find_some_of_mem {l : List CEdge} (hs : ESorted l) {e : CEdge} (he : e ∈ l)
    {s d : Nat} (hsrc : e.src = s) (hdst : e.dest = d) :
    constraint_edge_vec_find l s d = some e := by
  induction l with
  | nil => cases he
  | cons x xs ih =>
    obtain ⟨hstail, hless⟩ := esorted_cons hs
    have hed : e.dest = (⟨s, d, 0⟩ : CEdge).dest := hdst
    have hes : e.src = (⟨s, d, 0⟩ : CEdge).src := hsrc
    rcases List.mem_cons.mp he with rfl | hexs
    · have hx : constraint_edge_less e ⟨s, d, 0⟩ = false := by
        rw [cel_congr_left hed hes]
        exact cel_irrefl _
      unfold constraint_edge_vec_find lower_bound
      simp [hx, hsrc, hdst]
    · have hx : constraint_edge_less x ⟨s, d, 0⟩ = true := by
        rw [← cel_congr_right hed hes]
        exact hless e hexs
      have hrec := ih hstail hexs
      unfold constraint_edge_vec_find lower_bound
      rw [hx]
      simpa [constraint_edge_vec_find] using hrec

theorem find_none_of_not_mem {l : List CEdge} (hs : ESorted l) {s d : Nat}
    (h : ∀ e ∈ l, ¬ (e.src = s ∧ e.dest = d)) :
    constraint_edge_vec_find l s d = none := by
  induction l with
  | nil => rfl
  | cons x xs ih =>
    obtain ⟨hstail, _⟩ := esorted_cons hs
    unfold constraint_edge_vec_find lower_bound
    by_cases hx : constraint_edge_less x ⟨s, d, 0⟩ = true
    · rw [hx]
      simpa [constraint_edge_vec_find] using
        ih hstail (fun e he => h e (List.mem_cons_of_mem x he))
    · rw [Bool.not_eq_true] at hx
      rw [hx]
      simp only [Bool.false_eq_true, if_false, List.getElem?_cons_zero]
      rw [if_neg (h x (List.mem_cons_self x xs))]

theorem esorted_insert_lb {l : List CEdge} (hs : ESorted l) (a : CEdge)
    (hnew : ∀ e ∈ l, ¬ (e.dest = a.dest ∧ e.src = a.src)) :
    ESorted (list_insert_at l (lower_bound constraint_edge_less l a) a) := by
  induction l with
  | nil => simp [list_insert_at, lower_bound, ESorted]
  | cons x xs ih =>
    obtain ⟨hstail, hless⟩ := esorted_cons hs
    unfold lower_bound
    by_cases hx : constraint_edge_less x a = true
    · rw [hx]
      simp only [if_true, list_insert_at]
      rw [ESorted, List.pairwise_cons]
      refine ⟨?_, ih hstail (fun e he => hnew e (List.mem_cons_of_mem x he))⟩
      intro e he
      rcases (mem_list_insert_at _ _ _ _).mp he with rfl | hexs
      · exact hx
      · exact hless e hexs
    · rw [Bool.not_eq_true] at hx
      rw [hx]
      simp only [Bool.false_eq_true, if_false, list_insert_at]
      rw [ESorted, List.pairwise_cons]
      have hax : constraint_edge_less a x = true := by
        rcases cel_total x a with h1 | h2 | h3
        · rw [h1] at hx; cases hx
        · exact h2
        · exact absurd h3 (hnew x (List.mem_cons_self x xs))
      refine ⟨?_, hs⟩
      intro e he
      rcases List.mem_cons.mp he with rfl | hexs
      · exact hax
      · exact cel_trans hax (hless e hexs)

theorem remove_at_lb_mem_iff {l : List CEdge} (hs : ESorted l) {e : CEdge} (he : e ∈ l)
    {s d : Nat} (hsrc : e.src = s) (hdst : e.dest = d) (z : CEdge) :
    z ∈ list_remove_at l (lower_bound constraint_edge_less l ⟨s, d, 0⟩)
      ↔ z ∈ l ∧ z ≠ e := by
  induction l with
  | nil => cases he
  | cons y ys ih =>
    obtain ⟨hstail, hless⟩ := esorted_cons hs
    have hed : e.dest = (⟨s, d, 0⟩ : CEdge).dest := hdst
    have hes : e.src = (⟨s, d, 0⟩ : CEdge).src := hsrc
    unfold lower_bound
    by_cases hy : constraint_edge_less y ⟨s, d, 0⟩ = true
    · rw [hy]
      have heys : e ∈ ys := by
        rcases List.mem_cons.mp he with hey | hmem
        · exfalso
          rw [← hey] at hy
          rw [cel_congr_left hed hes, cel_irrefl] at hy
          cases hy
        · exact hmem
      have hyne : y ≠ e := by
        intro hcon
        rw [hcon] at hless
        exact absurd (hless e heys) (by simp [cel_irrefl])
      simp only [if_true, list_remove_at, List.mem_cons, ih hstail heys]
      constructor
      · rintro (rfl | ⟨hz, hne⟩)
        · exact ⟨Or.inl rfl, hyne⟩
        · exact ⟨Or.inr hz, hne⟩
      · rintro ⟨rfl | hz, hne⟩
        · exact Or.inl rfl
        · exact Or.inr ⟨hz, hne⟩
    · rw [Bool.not_eq_true] at hy
      rw [hy]
      simp only [Bool.false_eq_true, if_false, list_remove_at]
      have hye : y = e := by
        rcases List.mem_cons.mp he with hey | hmem
        · exact hey.symm
        · exfalso
          have hlt := hless e hmem
          rw [cel_congr_right hed hes y] at hlt
          rw [hlt] at hy
          cases hy
      have hynotys : y ∉ ys := by
        intro hcon
        exact absurd (hless y hcon) (by simp [cel_irrefl])
      constructor
      · intro hz
        refine ⟨List.mem_cons_of_mem y hz, ?_⟩
        intro hcon
        rw [hcon, ← hye] at hz
        exact hynotys hz
      · rintro ⟨hz, hne⟩
        rcases List.mem_cons.mp hz with rfl | hmem
        · exact absurd hye hne
        · exact hmem

/-- C6 (amended): the graph build inserts y directly into solution(x) for
x := &y, attaches *x := &y to complex(x) unconditionally, attaches
*x := y only when y's id exceeds ANYTHING's id, attaches x := *y to
complex(y) only when x's id exceeds ANYTHING's id, and drops the guarded
constraints otherwise. -/
theorem build_partition_with_special_var_guards (s : PTAState) (c : Constraint) :
    (c.lhs.type = CEType.DEREF →
      ((c.rhs.type = CEType.ADDRESSOF ∨ c.rhs.var > anything_id →
        ∃ s1, build_step s c = some s1 ∧ c ∈ (s1.varmap c.lhs.var).complex)
      ∧ (c.rhs.type ≠ CEType.ADDRESSOF → ¬ c.rhs.var > anything_id →
          build_step s c = some s)))
    ∧ (c.lhs.type ≠ CEType.DEREF → c.rhs.type = CEType.DEREF →
      ((c.lhs.var > anything_id →
        ∃ s1, build_step s c = some s1 ∧ c ∈ (s1.varmap c.rhs.var).complex)
      ∧ (¬ c.lhs.var > anything_id → build_step s c = some s)))
    ∧ (c.lhs.type ≠ CEType.DEREF → c.rhs.type = CEType.ADDRESSOF →
        ∃ s1, build_step s c = some s1 ∧ c.rhs.var ∈ (s1.varmap c.lhs.var).solution) := by
  refine ⟨?_, ?_, ?_⟩
  · intro hld
    constructor
    · intro hguard
      refine ⟨insert_into_complex s c.lhs.var c, ?_, ?_⟩
      · unfold build_step
        rw [if_pos hld, if_pos hguard]
      · unfold insert_into_complex
        simp only [setVi, upd_same]
        exact (mem_list_insert_at _ _ _ _).mpr (Or.inl rfl)
    · intro hna hnv
      unfold build_step
      rw [if_pos hld, if_neg (by tauto)]
  · intro hnl hrd
    constructor
    · intro hguard
      refine ⟨insert_into_complex s c.rhs.var c, ?_, ?_⟩
      · unfold build_step
        rw [if_neg hnl, if_pos hrd, if_pos hguard]
      · unfold insert_into_complex
        simp only [setVi, upd_same]
        exact (mem_list_insert_at _ _ _ _).mpr (Or.inl rfl)
    · intro hguard
      unfold build_step
      rw [if_neg hnl, if_pos hrd, if_neg hguard]
  · intro hnl hra
    refine ⟨setSolution s c.lhs.var (insert c.rhs.var (s.varmap c.lhs.var).solution),
      ?_, ?_⟩
    · unfold build_step
      have hnrd : ¬ c.rhs.type = CEType.DEREF := by rw [hra]; decide
      rw [if_neg hnl, if_neg hnrd, if_pos hra]
    · unfold setSolution setVi
      simp only [upd_same]
      exact Finset.mem_insert_self _ _

theorem build_partition_with_special_var_guards_witness :
    (⟨⟨CEType.DEREF, 2, 0⟩, ⟨CEType.SCALAR, 0, 0⟩⟩ : Constraint).lhs.type = CEType.DEREF
    ∧ build_step (emptyState 3) ⟨⟨CEType.DEREF, 2, 0⟩, ⟨CEType.SCALAR, 0, 0⟩⟩
        = some (emptyState 3) :=
  ⟨by decide,
   ((build_partition_with_special_var_guards (emptyState 3)
      ⟨⟨CEType.DEREF, 2, 0⟩, ⟨CEType.SCALAR, 0, 0⟩⟩).1 (by decide)).2
     (by decide) (by decide)⟩

theorem foldl_count_dec (P : Nat → Prop) [DecidablePred P] (l : List Nat) (acc : Nat) :
    l.foldl (fun a i => if P i then a - 1 else a) acc
      = acc - l.countP (fun i => decide (P i)) := by
  induction l generalizing acc with
  | nil => simp
  | cons x xs ih =>
    simp only [List.foldl_cons, List.countP_cons]
    rw [ih]
    by_cases hx : P x <;> simp [hx] <;> omega

/-- C5 (amended): after solve_graph initialization every bit of the id
range is set in the changed sbitmap (the bits of folded nodes are not
cleared), while changed_count equals the number of representatives; the
outer loop returns immediately when changed_count is zero and any normal
termination of the loop ends with changed_count zero. -/
theorem solver_changed_accounting_and_termination (s : PTAState) (fuel iter : Nat) :
    (solve_graph_init s).changed = Finset.range s.nvars
    ∧ (solve_graph_init s).changed_count
        = ((List.range s.nvars).filter (fun i => decide ((s.varmap i).node = i))).length
    ∧ (s.changed_count = 0 → solve_graph_loop (fuel + 1) iter s = some s)
    ∧ (∀ s1, solve_graph_loop fuel iter s = some s1 → s1.changed_count = 0) := by
  refine ⟨rfl, ?_, ?_, ?_⟩
  · show (List.range s.nvars).foldl
        (fun acc i => if (s.varmap i).node ≠ i then acc - 1 else acc) s.nvars = _
    rw [foldl_count_dec (fun i => (s.varmap i).node ≠ i) (List.range s.nvars) s.nvars]
    rw [← List.countP_eq_length_filter]
    have hsum := List.length_eq_countP_add_countP
      (fun i => decide ((s.varmap i).node = i)) (List.range s.nvars)
    have heq : (List.range s.nvars).countP
          (fun a => decide (¬ (decide ((s.varmap a).node = a)) = true))
        = (List.range s.nvars).countP (fun i => decide ((s.varmap i).node ≠ i)) := by
      apply List.countP_congr
      intro a _
      simp
    simp only [List.length_range] at hsum
    omega
  · intro h0
    unfold solve_graph_loop
    rw [if_pos h0]
  · induction fuel generalizing iter s with
    | zero => intro s1 h; cases h
    | succ n ih =>
      intro s1 h
      unfold solve_graph_loop at h
      by_cases h0 : s.changed_count = 0
      · rw [if_pos h0] at h
        cases h
        exact h0
      · rw [if_neg h0] at h
        simp only [Option.bind_eq_bind, bind, Option.bind] at h
        cases hit : solve_iteration s (iter + 1) with
        | none => rw [hit] at h; cases h
        | some s2 =>
          rw [hit] at h
          exact ih s2 (iter + 1) s1 h

theorem foldlM_option_induct {α β : Type} (step : α → β → Option α) (R : α → α → Prop)
    (htrans : ∀ {a b c}, R a b → R b c → R a c)
    (hrefl : ∀ a, R a a)
    (hstep : ∀ a b a2, step a b = some a2 → R a a2)
    (l : List β) : ∀ (a a2 : α), l.foldlM step a = some a2 → R a a2 := by
  induction l with
  | nil =>
    intro a a2 h
    simp only [List.foldlM_nil, pure, Option.some.injEq] at h
    rw [← h]
    exact hrefl a
  | cons x xs ih =>
    intro a a2 h
    rw [List.foldlM_cons] at h
    cases hs : step a x with
    | none => rw [hs] at h; cases h
    | some mid =>
      rw [hs] at h
      simp only [Option.bind_eq_bind, Option.some_bind] at h
      exact htrans (hstep a x mid hs) (ih mid a2 h)

theorem foldl_proj_preserve {β γ : Type} (f : PTAState → β → PTAState)
    (proj : PTAState → γ) (h : ∀ s b, proj (f s b) = proj s) (l : List β) :
    ∀ s, proj (l.foldl f s) = proj s := by
  induction l with
  | nil => intro s; rfl
  | cons x xs ih => intro s; rw [List.foldl_cons, ih, h]

/-- Projection of the parts of the state that graph-only operations leave
alone: the variable table and the changed accounting. -/
def vmProj (s : PTAState) : (Nat → VarInfo) × Finset Nat × Nat :=
  (s.varmap, s.changed, s.changed_count)

theorem add_graph_edge_vmProj (s : PTAState) (a b : Nat) :
    vmProj (add_graph_edge s a b).1 = vmProj s := by
  unfold add_graph_edge
  dsimp only
  split <;> rfl

theorem merge_edge_step_vmProj (fr to_ : Nat) (ps : Bool) (s s2 : PTAState) (c : CEdge)
    (h : merge_edge_step fr to_ ps s c = some s2) : vmProj s2 = vmProj s := by
  unfold merge_edge_step at h
  dsimp only at h
  split at h
  · cases h
    have h3 := add_graph_edge_vmProj s
      (if ps = true then to_ else if c.dest = fr then to_ else c.dest)
      (if ps = true then if c.dest = fr then to_ else c.dest else to_)
    simpa [vmProj] using h3
  · cases h

theorem clear_pred_entry_vmProj (n : Nat) (s : PTAState) (c : CEdge) :
    vmProj (clear_pred_entry n s c) = vmProj s := by
  unfold clear_pred_entry
  split <;> rfl

theorem clear_succ_entry_vmProj (n : Nat) (s : PTAState) (c : CEdge) :
    vmProj (clear_succ_entry n s c) = vmProj s := by
  unfold clear_succ_entry
  split <;> rfl

theorem clear_edges_for_node_vmProj (s : PTAState) (n : Nat) :
    vmProj (clear_edges_for_node s n) = vmProj s := by
  unfold clear_edges_for_node
  exact (foldl_proj_preserve (clear_succ_entry n) vmProj
      (fun a b => clear_succ_entry_vmProj n a b) (s.preds n) _).trans
    (foldl_proj_preserve (clear_pred_entry n) vmProj
      (fun a b => clear_pred_entry_vmProj n a b) (s.succs n) s)

theorem merge_graph_nodes_vmProj (s s2 : PTAState) (a b : Nat)
    (h : merge_graph_nodes s a b = some s2) : vmProj s2 = vmProj s := by
  unfold merge_graph_nodes at h
  simp only [Option.bind_eq_bind, bind] at h
  cases h1 : (s.preds b).foldlM (merge_edge_step b a true) s with
  | none => rw [h1] at h; cases h
  | some m1 =>
    rw [h1] at h
    simp only [Option.some_bind] at h
    cases h2 : (s.succs b).foldlM (merge_edge_step b a false) m1 with
    | none => rw [h2] at h; cases h
    | some m2 =>
      rw [h2] at h
      simp only [Option.some_bind, pure, Option.some.injEq] at h
      have e1 : vmProj m1 = vmProj s :=
        foldlM_option_induct (merge_edge_step b a true)
          (fun x y => vmProj y = vmProj x) (fun hab hbc => hbc.trans hab)
          (fun _ => rfl) (fun x c y hy => merge_edge_step_vmProj b a true x y c hy)
          (s.preds b) s m1 h1
      have e2 : vmProj m2 = vmProj m1 :=
        foldlM_option_induct (merge_edge_step b a false)
          (fun x y => vmProj y = vmProj x) (fun hab hbc => hbc.trans hab)
          (fun _ => rfl) (fun x c y hy => merge_edge_step_vmProj b a false x y c hy)
          (s.succs b) m1 m2 h2
      rw [← h]
      rw [clear_edges_for_node_vmProj, e2, e1]

theorem erase_graph_self_edge_vmProj (s : PTAState) (n : Nat) :
    vmProj (erase_graph_self_edge s n) = vmProj s := rfl

theorem clear_zero_weight_self_edge_vmProj (s : PTAState) (n : Nat) :
    vmProj (clear_zero_weight_self_edge s n) = vmProj s := by
  unfold clear_zero_weight_self_edge
  split
  · split
    · rfl
    · dsimp only
      split
      · rfl
      · rfl
  · rfl

theorem setVi_solution_eq (s : PTAState) (i : Nat) (nv : VarInfo)
    (hsol : nv.solution = (s.varmap i).solution) (v : Nat) :
    ((setVi s i nv).varmap v).solution = (s.varmap v).solution := by
  unfold setVi
  by_cases h : v = i <;> simp [upd, h, hsol]

theorem condense_solution (s : PTAState) (to_ src v : Nat) :
    ((condense_varmap_nodes s to_ src).varmap v).solution = (s.varmap v).solution := by
  unfold condense_varmap_nodes
  dsimp only
  rw [setVi_solution_eq, setVi_solution_eq, setVi_solution_eq, setVi_solution_eq]
  any_goals rfl
  dsimp only
  by_cases h1 : v = src
  · simp [h1]
  · by_cases h2 : v ∈ (s.varmap src).varids <;> simp [h1, h2]

theorem condense_changed (s : PTAState) (to_ src : Nat) :
    (condense_varmap_nodes s to_ src).changed = s.changed
    ∧ (condense_varmap_nodes s to_ src).changed_count = s.changed_count :=
  ⟨rfl, rfl⟩

theorem setSolution_varmap (s : PTAState) (t : Nat) (b : Finset Nat) (v : Nat) :
    ((setSolution s t b).varmap v)
      = if v = t then { s.varmap t with solution := b } else s.varmap v := by
  unfold setSolution setVi
  by_cases h : v = t <;> simp [upd, h]

theorem setSolution_grow (s : PTAState) (t : Nat) (b : Finset Nat)
    (hb : (s.varmap t).solution ⊆ b) (v : Nat) :
    (s.varmap v).solution ⊆ ((setSolution s t b).varmap v).solution := by
  rw [setSolution_varmap]
  by_cases h : v = t
  · subst h; simp [hb]
  · simp [h]

theorem do_da_step_mono (rhs : Nat) (p p2 : PTAState × Nat) (j : Nat)
    (h : do_da_step rhs p j = some p2) (v : Nat) :
    (p.1.varmap v).solution ⊆ (p2.1.varmap v).solution := by
  obtain ⟨s, off⟩ := p
  unfold do_da_step at h
  dsimp only at h
  split at h
  · split at h
    · cases h
    · split at h
      · split at h <;>
          (cases h
           exact setSolution_grow s _ _ (Finset.subset_insert _ _) v)
      · cases h
        exact Finset.Subset.refl _
  · cases h
    exact Finset.Subset.refl _

theorem vmProj_varmap {s s2 : PTAState} (h : vmProj s2 = vmProj s) (v : Nat) :
    s2.varmap v = s.varmap v := by
  have h1 := congrArg Prod.fst h
  simp only [vmProj] at h1
  rw [h1]

theorem vmProj_changed {s s2 : PTAState} (h : vmProj s2 = vmProj s) :
    s2.changed = s.changed ∧ s2.changed_count = s.changed_count := by
  have h1 := congrArg Prod.snd h
  simp only [vmProj] at h1
  exact ⟨congrArg Prod.fst h1, congrArg Prod.snd h1⟩

theorem int_add_graph_edge_vmProj (s : PTAState) (a b w : Nat) (s2 : PTAState) (fl : Bool)
    (h : int_add_graph_edge s a b w = some (s2, fl)) : vmProj s2 = vmProj s := by
  unfold int_add_graph_edge at h
  split at h
  · cases h; rfl
  · dsimp only at h
    split at h
    · cases h
    · cases h
      have h3 := add_graph_edge_vmProj s a b
      simpa [vmProj] using h3

theorem set_union_with_increment_sup (s : PTAState) (a b : Finset Nat) (k : Nat)
    (r : Finset Nat × Bool) (h : set_union_with_increment s a b k = some r) :
    a ⊆ r.1 := by
  unfold set_union_with_increment at h
  split at h
  · cases h
    exact Finset.subset_union_left
  · cases hadd : solution_set_add s b k with
    | none => rw [hadd] at h; cases h
    | some tmp =>
      rw [hadd] at h
      cases h
      exact Finset.subset_union_left

theorem do_sd_step_mono (lhs : Nat) (p p2 : PTAState × Bool × Nat) (j : Nat)
    (h : do_sd_step lhs p j = some p2) (v : Nat) :
    (p.1.varmap v).solution ⊆ (p2.1.varmap v).solution := by
  obtain ⟨s, flag, roff⟩ := p
  unfold do_sd_step at h
  dsimp only at h
  split at h
  · split at h
    · cases h
    · rw [Option.bind_eq_bind, Option.bind_eq_some] at h
      obtain ⟨⟨s1, added⟩, hia, h⟩ := h
      have hvm := int_add_graph_edge_vmProj s lhs _ 0 s1 added hia
      have hvv := vmProj_varmap hvm
      split at h
      · cases h
        dsimp only
        calc (s.varmap v).solution = (s1.varmap v).solution := by rw [hvv]
          _ ⊆ _ := setSolution_grow s1 lhs _ Finset.subset_union_left v
      · cases h
        dsimp only
        rw [hvv]
  · cases h
    exact Finset.Subset.refl _

theorem do_ds_step_mono (rhs roff : Nat) (p p2 : PTAState × Nat) (j : Nat)
    (h : do_ds_step rhs roff p j = some p2) (v : Nat) :
    (p.1.varmap v).solution ⊆ (p2.1.varmap v).solution := by
  obtain ⟨s, loff⟩ := p
  unfold do_ds_step at h
  dsimp only at h
  split at h
  · split at h
    · cases h
    · rw [Option.bind_eq_bind, Option.bind_eq_some] at h
      obtain ⟨⟨s1, added⟩, hia, h⟩ := h
      have hvm := int_add_graph_edge_vmProj s _ rhs roff s1 added hia
      have hvv := vmProj_varmap hvm
      split at h
      · rw [Option.bind_eq_bind, Option.bind_eq_some] at h
        obtain ⟨⟨tmp1, grew⟩, hsu, h⟩ := h
        have hsup := set_union_with_increment_sup s1 _ _ roff _ hsu
        split at h
        · split at h <;>
            (cases h
             dsimp only
             calc (s.varmap v).solution = (s1.varmap v).solution := by rw [hvv]
               _ ⊆ _ := setSolution_grow s1 _ tmp1 hsup v)
        · cases h
          dsimp only
          rw [hvv]
      · cases h
        dsimp only
        rw [hvv]
  · cases h
    exact Finset.Subset.refl _

/-- Relation used for the solution-monotonicity inductions over paired
fold states. -/
def RSolMono {γ : Type} (p q : PTAState × γ) : Prop :=
  ∀ v, (p.1.varmap v).solution ⊆ (q.1.varmap v).solution

theorem do_da_mono (s : PTAState) (c : Constraint) (delta : List Nat) (s1 : PTAState)
    (h : do_da_constraint s c delta = some s1) (v : Nat) :
    (s.varmap v).solution ⊆ (s1.varmap v).solution := by
  unfold do_da_constraint at h
  cases hf : delta.foldlM (do_da_step c.rhs.var) (s, c.lhs.offset) with
  | none => rw [hf] at h; cases h
  | some pr =>
    rw [hf] at h
    cases h
    exact foldlM_option_induct (do_da_step c.rhs.var) RSolMono
      (fun hab hbc v => (hab v).trans (hbc v)) (fun a v => Finset.Subset.refl _)
      (fun a b a2 ha v => do_da_step_mono c.rhs.var a a2 b ha v)
      delta (s, c.lhs.offset) pr hf v

theorem do_sd_mono (s : PTAState) (c : Constraint) (delta : List Nat) (s1 : PTAState)
    (h : do_sd_constraint s c delta = some s1) (v : Nat) :
    (s.varmap v).solution ⊆ (s1.varmap v).solution := by
  unfold do_sd_constraint at h
  dsimp only at h
  rw [Option.bind_eq_bind, Option.bind_eq_some] at h
  obtain ⟨⟨sm, flag, offm⟩, hf, h⟩ := h
  have hm : RSolMono (s, false, c.rhs.offset) (sm, flag, offm) :=
    foldlM_option_induct (do_sd_step (s.varmap c.lhs.var).node) RSolMono
      (fun hab hbc v => (hab v).trans (hbc v)) (fun a v => Finset.Subset.refl _)
      (fun a b a2 ha v => do_sd_step_mono (s.varmap c.lhs.var).node a a2 b ha v)
      delta (s, false, c.rhs.offset) (sm, flag, offm) hf
  dsimp only at h
  split at h
  · split at h
    · cases h
      exact hm v
    · cases h
      exact hm v
  · cases h
    exact hm v

theorem do_ds_mono (s : PTAState) (c : Constraint) (delta : List Nat) (s1 : PTAState)
    (h : do_ds_constraint s c delta = some s1) (v : Nat) :
    (s.varmap v).solution ⊆ (s1.varmap v).solution := by
  unfold do_ds_constraint at h
  cases hf : delta.foldlM (do_ds_step (s.varmap c.rhs.var).node c.rhs.offset)
      (s, c.lhs.offset) with
  | none => rw [hf] at h; cases h
  | some pr =>
    rw [hf] at h
    cases h
    exact foldlM_option_induct (do_ds_step (s.varmap c.rhs.var).node c.rhs.offset) RSolMono
      (fun hab hbc v => (hab v).trans (hbc v)) (fun a v => Finset.Subset.refl _)
      (fun a b a2 ha v => do_ds_step_mono (s.varmap c.rhs.var).node c.rhs.offset a a2 b ha v)
      delta (s, c.lhs.offset) pr hf v

theorem do_complex_mono (s : PTAState) (c : Constraint) (delta : List Nat) (s1 : PTAState)
    (h : do_complex_constraint s c delta = some s1) (v : Nat) :
    (s.varmap v).solution ⊆ (s1.varmap v).solution := by
  unfold do_complex_constraint at h
  split at h
  · split at h
    · exact do_da_mono s c delta s1 h v
    · exact do_ds_mono s c delta s1 h v
  · exact do_sd_mono s c delta s1 h v

theorem insert_into_complex_solution (s : PTAState) (x : Nat) (c : Constraint) (v : Nat) :
    ((insert_into_complex s x c).varmap v).solution = (s.varmap v).solution := by
  unfold insert_into_complex
  dsimp only
  rw [setVi_solution_eq]
  rfl

theorem build_step_mono (s : PTAState) (c : Constraint) (s1 : PTAState)
    (h : build_step s c = some s1) (v : Nat) :
    (s.varmap v).solution ⊆ (s1.varmap v).solution := by
  unfold build_step at h
  dsimp only at h
  split at h
  · split at h <;>
      (cases h
       first
       | (rw [insert_into_complex_solution])
       | exact Finset.Subset.refl _)
  · split at h
    · split at h <;>
        (cases h
         first
         | (rw [insert_into_complex_solution])
         | exact Finset.Subset.refl _)
    · split at h
      · cases h
        exact setSolution_grow s _ _ (Finset.subset_insert _ _) v
      · split at h
        · split at h
          · split at h
            · cases h
            · cases h
              have h3 := add_graph_edge_vmProj s c.lhs.var c.rhs.var
              have h4 := vmProj_varmap (by simpa [vmProj] using h3) v
              rw [h4]
          · cases h
            exact Finset.Subset.refl _
        · cases h
          exact Finset.Subset.refl _

theorem setNode_solution (s : PTAState) (i n v : Nat) :
    ((setNode s i n).varmap v).solution = (s.varmap v).solution := by
  unfold setNode
  dsimp only
  rw [setVi_solution_eq]
  rfl

theorem scc_pop_loop_solution (n t : Nat) :
    ∀ (stack : List Nat) (s : PTAState) (si : SccInfo) (v : Nat),
      (((scc_pop_loop n t s si stack).1.varmap v).solution) = (s.varmap v).solution := by
  intro stack
  induction stack with
  | nil => intro s si v; rfl
  | cons w rest ih =>
    intro s si v
    unfold scc_pop_loop
    split
    · rw [ih, setNode_solution]
    · rfl

theorem scc_visit_solution (fuel : Nat) :
    ∀ (s : PTAState) (si : SccInfo) (n : Nat) (out : PTAState × SccInfo),
      scc_visit fuel s si n = some out →
      ∀ v, ((out.1.varmap v).solution) = (s.varmap v).solution := by
  induction fuel with
  | zero => intro s si n out h; cases h
  | succ f ih =>
    intro s si n out h v
    unfold scc_visit at h
    split at h
    · cases h
    · rw [Option.bind_eq_bind, Option.bind_eq_some] at h
      obtain ⟨⟨s1, si1⟩, hf, h⟩ := h
      have hfold : ∀ v, ((s1.varmap v).solution) = (s.varmap v).solution := by
        have hrel := foldlM_option_induct _
          (fun (p q : PTAState × SccInfo) => ∀ v,
            ((q.1.varmap v).solution) = ((p.1.varmap v).solution))
          (fun hab hbc v => (hbc v).trans (hab v)) (fun a v => rfl)
          ?hstep (s.succs n) _ _ hf
        · exact hrel
        · intro a c a2 ha
          obtain ⟨sa, sia⟩ := a
          dsimp only at ha
          split at ha
          · split at ha
            · rw [Option.bind_eq_some] at ha
              obtain ⟨⟨sm, sim⟩, hm, ha⟩ := ha
              have h1 : ∀ v, ((sm.varmap v).solution) = ((sa.varmap v).solution) :=
                fun v => ih sa sia c.dest (sm, sim) hm v
              dsimp only at ha
              split at ha
              · split at ha
                · cases ha
                  intro v
                  rw [setNode_solution]
                  exact h1 v
                · cases ha
                  intro v
                  exact h1 v
              · cases ha
                intro v
                exact h1 v
            · simp only [pure, Option.some_bind] at ha
              split at ha
              · split at ha
                · cases ha
                  intro v
                  rw [setNode_solution]
                · cases ha
                  intro v
                  rfl
              · cases ha
                intro v
                rfl
          · cases ha
            intro v
            rfl
      dsimp only at h
      split at h
      · cases h
        rw [scc_pop_loop_solution, hfold]
      · cases h
        exact hfold v

theorem puq_unify_one_solution (ugc : Bool) (s : PTAState) (tounify n : Nat)
    (s4 : PTAState) (h : puq_unify_one ugc s tounify n = some s4) :
    ∀ v, v ≠ tounify → (s4.varmap v).solution = (s.varmap v).solution := by
  unfold puq_unify_one at h
  rw [Option.bind_eq_bind, Option.bind_eq_some] at h
  obtain ⟨sm, hmerge, h⟩ := h
  cases h
  intro v hv
  have hmv := vmProj_varmap (merge_graph_nodes_vmProj s sm n tounify hmerge) v
  rw [setSolution_varmap]
  rw [if_neg hv]
  have hcond := condense_solution sm n tounify v
  split
  · dsimp only
    split <;> (dsimp only; rw [hcond, hmv])
  · rw [hcond, hmv]

theorem puq_flush_solution_mono (ugc : Bool) (s : PTAState) (n : Nat)
    (tmp1 : Finset Nat) (v : Nat) :
    (s.varmap v).solution ⊆ ((puq_flush ugc s n tmp1).varmap v).solution := by
  unfold puq_flush
  dsimp only
  have hcz := vmProj_varmap (clear_zero_weight_self_edge_vmProj
    (if decide (¬ tmp1 ⊆ (s.varmap n).solution) = true
        ∧ ugc = true ∧ n ∉ (setSolution s n ((s.varmap n).solution ∪ tmp1)).changed then
      { setSolution s n ((s.varmap n).solution ∪ tmp1) with
        changed := insert n (setSolution s n ((s.varmap n).solution ∪ tmp1)).changed,
        changed_count :=
          (setSolution s n ((s.varmap n).solution ∪ tmp1)).changed_count + 1 }
    else setSolution s n ((s.varmap n).solution ∪ tmp1)) n) v
  rw [hcz]
  split
  · exact setSolution_grow s n _ Finset.subset_union_left v
  · exact setSolution_grow s n _ Finset.subset_union_left v

theorem puq_go_solution_mono (ugc : Bool) :
    ∀ (q : List Nat) (s : PTAState) (tmp : Finset Nat) (s1 : PTAState),
      process_unification_queue_go ugc s tmp q = some s1 →
      ∀ v, v ∉ q → (s.varmap v).solution ⊆ (s1.varmap v).solution := by
  intro q
  induction q with
  | nil =>
    intro s tmp s1 h v _
    cases h
    exact Finset.Subset.refl _
  | cons tounify rest ih =>
    intro s tmp s1 h v hv
    have hvt : v ≠ tounify := fun hc => hv (hc ▸ List.mem_cons_self _ _)
    have hvr : v ∉ rest := fun hc => hv (List.mem_cons_of_mem _ hc)
    unfold process_unification_queue_go at h
    rw [Option.bind_eq_bind, Option.bind_eq_some] at h
    obtain ⟨s4, hone, h⟩ := h
    have h4 := puq_unify_one_solution ugc s tounify _ s4 hone v hvt
    dsimp only at h
    split at h
    · calc (s.varmap v).solution = (s4.varmap v).solution := h4.symm
        _ ⊆ ((puq_flush ugc s4 (s.varmap tounify).node
              (tmp ∪ (s.varmap tounify).solution)).varmap v).solution :=
          puq_flush_solution_mono ugc s4 _ _ v
        _ ⊆ (s1.varmap v).solution := ih _ _ s1 h v hvr
    · calc (s.varmap v).solution = (s4.varmap v).solution := h4.symm
        _ ⊆ (s1.varmap v).solution := ih _ _ s1 h v hvr

theorem condense_node_src (s : PTAState) (to_ src : Nat) (hne : src ≠ to_) :
    ((condense_varmap_nodes s to_ src).varmap src).node = to_ := by
  unfold condense_varmap_nodes
  dsimp only
  simp only [setVi, upd, if_pos rfl, if_neg hne]
  simp [hne]

theorem setSolution_changed (s : PTAState) (t : Nat) (b : Finset Nat) :
    (setSolution s t b).changed = s.changed
    ∧ (setSolution s t b).changed_count = s.changed_count :=
  ⟨rfl, rfl⟩

theorem setVi_flags_solution (s : PTAState) (i v : Nat) (a b : Bool) :
    ((setVi s i
        { s.varmap i with address_taken := a, indirect_target := b }).varmap v).solution
      = (s.varmap v).solution := by
  by_cases h : v = i <;> simp [setVi, upd, h]

theorem setVi_flags_node (s : PTAState) (i v : Nat) (a b : Bool) :
    ((setVi s i
        { s.varmap i with address_taken := a, indirect_target := b }).varmap v).node
      = (s.varmap v).node := by
  by_cases h : v = i <;> simp [setVi, upd, h]

theorem setVi_changed (s : PTAState) (i : Nat) (nv : VarInfo) :
    (setVi s i nv).changed = s.changed
    ∧ (setVi s i nv).changed_count = s.changed_count :=
  ⟨rfl, rfl⟩

theorem setSolution_node (s : PTAState) (t : Nat) (b : Finset Nat) (v : Nat) :
    ((setSolution s t b).varmap v).node = (s.varmap v).node := by
  rw [setSolution_varmap]
  by_cases h : v = t <;> simp [h]

theorem collapse_nodes_effects (s : PTAState) (to_ fr : Nat) (s1 : PTAState)
    (h : collapse_nodes s to_ fr = some s1) (hne : fr ≠ to_) :
    (∀ v, v ≠ to_ → v ≠ fr → (s1.varmap v).solution = (s.varmap v).solution)
    ∧ (s1.varmap to_).solution = (s.varmap to_).solution ∪ (s.varmap fr).solution
    ∧ (s1.varmap fr).solution = ∅
    ∧ (s1.varmap fr).node = to_
    ∧ s1.changed = s.changed ∧ s1.changed_count = s.changed_count := by
  unfold collapse_nodes at h
  rw [Option.bind_eq_bind, Option.bind_eq_some] at h
  obtain ⟨sm, hmerge, h⟩ := h
  cases h
  have hmv := vmProj_varmap (merge_graph_nodes_vmProj _ sm to_ fr hmerge)
  have hmc := vmProj_changed (merge_graph_nodes_vmProj _ sm to_ fr hmerge)
  have hczv := fun v => vmProj_varmap (clear_zero_weight_self_edge_vmProj sm to_) v
  have hczc := vmProj_changed (clear_zero_weight_self_edge_vmProj sm to_)
  refine ⟨?_, ?_, ?_, ?_, ?_, ?_⟩
  · intro v hvt hvf
    rw [setVi_flags_solution, setSolution_varmap, if_neg hvf, hczv, hmv,
      setSolution_varmap, if_neg hvt, condense_solution]
  · rw [setVi_flags_solution, setSolution_varmap, if_neg (Ne.symm hne), hczv, hmv,
      setSolution_varmap, if_pos rfl]
    dsimp only
    rw [condense_solution, condense_solution]
  · rw [setVi_flags_solution, setSolution_varmap, if_pos rfl]
  · rw [setVi_flags_node, setSolution_node, hczv fr, hmv fr, setSolution_node,
      condense_node_src _ to_ fr hne]
  · rw [(setVi_changed _ to_ _).1, (setSolution_changed _ fr ∅).1, hczc.1, hmc.1,
      (setSolution_changed _ to_ _).1, (condense_changed s to_ fr).1]
  · rw [(setVi_changed _ to_ _).2, (setSolution_changed _ fr ∅).2, hczc.2, hmc.2,
      (setSolution_changed _ to_ _).2, (condense_changed s to_ fr).2]

theorem var_subst_step_solution (s : PTAState) (i : Nat) (s1 : PTAState)
    (hrep : (s.varmap i).node = i)
    (h : var_subst_step s i = some s1) :
    (∀ v, v ≠ i → (s.varmap v).solution ⊆ (s1.varmap v).solution)
    ∧ ((s.varmap i).solution ⊆ (s1.varmap i).solution
        ∨ (s.varmap i).solution ⊆ (s1.varmap ((s1.varmap i).node)).solution) := by
  unfold var_subst_step at h
  dsimp only at h
  split at h
  · cases h
    exact ⟨fun v _ => Finset.Subset.refl _, Or.inl (Finset.Subset.refl _)⟩
  · rw [Option.bind_eq_bind, Option.bind_eq_some] at h
    obtain ⟨⟨okay, root⟩, hscan, h⟩ := h
    dsimp only at h
    split at h
    · rename_i hcond
      have hroot_ne : root ≠ i := by
        intro hc
        rw [hc, hrep] at hcond
        exact hcond.1 rfl
      have hsn : ∀ v, ((setNode s i root).varmap v).solution = (s.varmap v).solution :=
        fun v => setNode_solution s i root v
      have heff := collapse_nodes_effects (setNode s i root) root i s1 h (Ne.symm hroot_ne)
      refine ⟨?_, ?_⟩
      · intro v hvi
        by_cases hvr : v = root
        · subst hvr
          rw [heff.2.1, hsn, hsn]
          exact Finset.subset_union_left
        · rw [heff.1 v hvr hvi, hsn]
      · right
        rw [heff.2.2.2.1, heff.2.1, hsn, hsn]
        exact Finset.subset_union_right
    · cases h
      exact ⟨fun v _ => Finset.Subset.refl _, Or.inl (Finset.Subset.refl _)⟩

theorem solve_node_mono (s : PTAState) (i : Nat) (s1 : PTAState)
    (h : solve_node s i = some s1) (v : Nat) :
    (s.varmap v).solution ⊆ (s1.varmap v).solution := by
  unfold solve_node at h
  split at h
  · cases h
  · split at h
    · rw [Option.bind_eq_bind, Option.bind_eq_some] at h
      obtain ⟨sc, hcf, h⟩ := h
      have h1 : ∀ v, (s.varmap v).solution ⊆ (sc.varmap v).solution := by
        intro v
        exact foldlM_option_induct _
          (fun (p q : PTAState) => ∀ v, (p.varmap v).solution ⊆ (q.varmap v).solution)
          (fun hab hbc v => (hab v).trans (hbc v)) (fun a v => Finset.Subset.refl _)
          (fun a c a2 ha v => do_complex_mono a c _ a2 ha v) _ _ _ hcf v
      have h2 : ∀ v, (sc.varmap v).solution ⊆ (s1.varmap v).solution := by
        intro v
        refine foldlM_option_induct _
          (fun (p q : PTAState) => ∀ v, (p.varmap v).solution ⊆ (q.varmap v).solution)
          (fun hab hbc v => (hab v).trans (hbc v)) (fun a v => Finset.Subset.refl _)
          ?_ _ _ _ h v
        intro a e a2 ha v
        split at ha
        · cases ha
        · rw [Option.bind_eq_bind, Option.bind_eq_some] at ha
          obtain ⟨⟨sw, fl⟩, hwf, ha⟩ := ha
          have h3 : ∀ v, (a.varmap v).solution ⊆ (sw.varmap v).solution := by
            intro v
            refine foldlM_option_induct _
              (fun (p q : PTAState × Bool) => ∀ v,
                (p.1.varmap v).solution ⊆ (q.1.varmap v).solution)
              (fun hab hbc v => (hab v).trans (hbc v)) (fun a v => Finset.Subset.refl _)
              ?_ _ _ _ hwf v
            intro b k b2 hb v
            obtain ⟨sb, flb⟩ := b
            dsimp only at hb
            rw [Option.bind_eq_bind, Option.bind_eq_some] at hb
            obtain ⟨⟨tmp1, g⟩, hsu, hb⟩ := hb
            cases hb
            dsimp only
            exact setSolution_grow sb e.dest tmp1
              (set_union_with_increment_sup sb _ _ k _ hsu) v
          dsimp only at ha
          split at ha
          · split at ha
            · cases ha
              exact h3 v
            · cases ha
              exact h3 v
          · cases ha
            exact h3 v
      exact (h1 v).trans (h2 v)
    · cases h
      exact Finset.Subset.refl _

/-- C2 (amended): solutions never lose elements through the graph build,
cycle detection, or any worklist-solver node step; cycle unification and
offline substitution preserve every variable's solution except the ones
being folded away, whose solutions are cleared after being merged into
their representative's solution. -/
theorem solution_monotonicity_with_unification_clearing :
    (∀ s c s1 v, build_step s c = some s1 →
        (s.varmap v).solution ⊆ (s1.varmap v).solution)
    ∧ (∀ fuel s si n out, scc_visit fuel s si n = some out →
        ∀ v, ((out.1.varmap v).solution) = (s.varmap v).solution)
    ∧ (∀ ugc q s tmp s1, process_unification_queue_go ugc s tmp q = some s1 →
        ∀ v, v ∉ q → (s.varmap v).solution ⊆ (s1.varmap v).solution)
    ∧ (∀ s i s1, (s.varmap i).node = i → var_subst_step s i = some s1 →
        (∀ v, v ≠ i → (s.varmap v).solution ⊆ (s1.varmap v).solution)
        ∧ ((s.varmap i).solution ⊆ (s1.varmap i).solution
            ∨ (s.varmap i).solution ⊆ (s1.varmap ((s1.varmap i).node)).solution))
    ∧ (∀ s i s1 v, solve_node s i = some s1 →
        (s.varmap v).solution ⊆ (s1.varmap v).solution) :=
  ⟨fun s c s1 v h => build_step_mono s c s1 h v,
   fun fuel s si n out h v => scc_visit_solution fuel s si n out h v,
   fun ugc q s tmp s1 h v hv => puq_go_solution_mono ugc q s tmp s1 h v hv,
   fun s i s1 hrep h => var_subst_step_solution s i s1 hrep h,
   fun s i s1 v h => solve_node_mono s i s1 h v⟩

theorem solution_monotonicity_with_unification_clearing_witness :
    build_step (emptyState 1)
        ⟨⟨CEType.DEREF, 0, 0⟩, ⟨CEType.SCALAR, 0, 0⟩⟩ = some (emptyState 1)
    ∧ (((emptyState 1).varmap 0).solution ⊆ ((emptyState 1).varmap 0).solution) :=
  ⟨rfl,
   solution_monotonicity_with_unification_clearing.1 (emptyState 1)
     ⟨⟨CEType.DEREF, 0, 0⟩, ⟨CEType.SCALAR, 0, 0⟩⟩ (emptyState 1) 0 rfl⟩

theorem solver_changed_accounting_and_termination_witness :
    (emptyState 0).changed_count = 0
    ∧ solve_graph_loop 1 0 (emptyState 0) = some (emptyState 0) :=
  ⟨rfl, (solver_changed_accounting_and_termination (emptyState 0) 0 0).2.2.1 rfl⟩

theorem bitmap_other_than_zero_bit_set_false_iff (b : Finset Nat) :
    bitmap_other_than_zero_bit_set b = false ↔ b ⊆ {0} := by
  unfold bitmap_other_than_zero_bit_set
  split
  · rename_i hb
    subst hb
    simp
  · simp only [decide_eq_false_iff_not, not_exists, not_and, Finset.subset_iff,
      Finset.mem_singleton]
    constructor
    · intro h x hx
      have := h x hx
      omega
    · intro h x hx
      have := h hx
      omega

/-- Predecessor edge acceptable to offline substitution: its weights
lookup succeeds and carries at most the zero bit. -/
def pred_ok (s : PTAState) (ce : CEdge) : Prop :=
  ∃ r, get_graph_weights s ce.src ce.dest = some r ∧ s.wstore r ⊆ {0}

/-- Eligibility of node i for offline variable substitution, as the claim
states it: no address taken, not an indirect target, at least one
predecessor, every predecessor edge carrying only the zero-weight bit,
every predecessor sharing the representative w of the first one,
solution(i) contained in solution(w), and w different from i's current
node. -/
def subst_eligible (s : PTAState) (i : Nat) : Prop :=
  (s.varmap i).address_taken = false ∧ (s.varmap i).indirect_target = false
  ∧ ∃ hd rest, s.preds i = hd :: rest
      ∧ (∀ ce ∈ s.preds i, pred_ok s ce)
      ∧ (∀ ce ∈ s.preds i, (s.varmap ce.dest).node = (s.varmap hd.dest).node)
      ∧ (s.varmap i).solution ⊆ (s.varmap ((s.varmap hd.dest).node)).solution
      ∧ (s.varmap hd.dest).node ≠ (s.varmap i).node

theorem subst_scan_true_elim (s : PTAState) (i : Nat) :
    ∀ (l : List CEdge) (root res : Nat),
      subst_scan s i l true root = some (true, res) →
      res = root ∧ ∀ ce ∈ l, pred_ok s ce ∧ (s.varmap ce.dest).node = root := by
  intro l
  induction l with
  | nil =>
    intro root res h
    cases h
    exact ⟨rfl, by simp⟩
  | cons ce rest ih =>
    intro root res h
    unfold subst_scan at h
    cases hgw : get_graph_weights s ce.src ce.dest with
    | none => rw [hgw] at h; cases h
    | some r =>
      simp only [hgw] at h
      by_cases hz : bitmap_other_than_zero_bit_set (s.wstore r) = true
      · rw [if_pos hz] at h; cases h
      · rw [if_neg hz] at h
        rw [Bool.not_eq_true] at hz
        rw [if_neg (not_not_intro trivial)] at h
        by_cases hw : (s.varmap ce.dest).node ≠ root
        · rw [if_pos hw] at h; cases h
        · rw [if_neg hw] at h
          push_neg at hw
          by_cases hsub : ¬ (s.varmap i).solution
              \ (s.varmap ((s.varmap ce.dest).node)).solution = ∅
          · rw [if_pos hsub] at h; cases h
          · rw [if_neg hsub] at h
            obtain ⟨hres, hall⟩ := ih root res h
            have hok : pred_ok s ce := by
              refine ⟨r, hgw, ?_⟩
              rw [← bitmap_other_than_zero_bit_set_false_iff]
              exact hz
            refine ⟨hres, ?_⟩
            intro e he
            rcases List.mem_cons.mp he with rfl | hmem
            · exact ⟨hok, hw⟩
            · exact hall e hmem

theorem subst_scan_true_intro (s : PTAState) (i : Nat) :
    ∀ (l : List CEdge) (root : Nat),
      (∀ ce ∈ l, pred_ok s ce ∧ (s.varmap ce.dest).node = root) →
      (s.varmap i).solution ⊆ (s.varmap root).solution →
      subst_scan s i l true root = some (true, root) := by
  intro l
  induction l with
  | nil => intro root _ _; rfl
  | cons ce rest ih =>
    intro root hall hsub
    obtain ⟨⟨r, hgw, hr⟩, hw⟩ := hall ce (List.mem_cons_self ce rest)
    have hz : bitmap_other_than_zero_bit_set (s.wstore r) = false :=
      (bitmap_other_than_zero_bit_set_false_iff _).mpr hr
    unfold subst_scan
    simp only [hgw, hz]
    rw [if_neg (by simp)]
    rw [if_neg (not_not_intro trivial)]
    rw [if_neg (by simp [hw])]
    rw [if_neg (not_not_intro (by
      rw [Finset.sdiff_eq_empty_iff_subset, hw]
      exact hsub))]
    exact ih root (fun e he => hall e (List.mem_cons_of_mem ce he)) hsub

theorem subst_scan_start_elim (s : PTAState) (i : Nat) (hd : CEdge)
    (rest : List CEdge) (root0 res : Nat)
    (h : subst_scan s i (hd :: rest) false root0 = some (true, res)) :
    res = (s.varmap hd.dest).node
    ∧ (∀ ce ∈ hd :: rest, pred_ok s ce ∧ (s.varmap ce.dest).node = res)
    ∧ (s.varmap i).solution ⊆ (s.varmap res).solution := by
  unfold subst_scan at h
  cases hgw : get_graph_weights s hd.src hd.dest with
  | none => rw [hgw] at h; cases h
  | some r =>
    simp only [hgw] at h
    by_cases hz : bitmap_other_than_zero_bit_set (s.wstore r) = true
    · rw [if_pos hz] at h; cases h
    · rw [if_neg hz] at h
      rw [Bool.not_eq_true] at hz
      rw [if_pos (by simp)] at h
      by_cases hsub : ¬ (s.varmap i).solution
          \ (s.varmap ((s.varmap hd.dest).node)).solution = ∅
      · rw [if_pos hsub] at h; cases h
      · rw [if_neg hsub] at h
        push_neg at hsub
        obtain ⟨hres, hall⟩ := subst_scan_true_elim s i rest ((s.varmap hd.dest).node) res h
        have hsubset : (s.varmap i).solution ⊆ (s.varmap ((s.varmap hd.dest).node)).solution :=
          Finset.sdiff_eq_empty_iff_subset.mp hsub
        refine ⟨hres, ?_, hres ▸ hsubset⟩
        intro ce he
        rcases List.mem_cons.mp he with rfl | hmem
        · exact ⟨⟨r, hgw, (bitmap_other_than_zero_bit_set_false_iff _).mp hz⟩, hres.symm⟩
        · rw [hres]
          exact hall ce hmem

theorem subst_scan_start_intro (s : PTAState) (i : Nat) (hd : CEdge)
    (rest : List CEdge) (root0 : Nat)
    (hall : ∀ ce ∈ hd :: rest, pred_ok s ce ∧ (s.varmap ce.dest).node = (s.varmap hd.dest).node)
    (hsub : (s.varmap i).solution ⊆ (s.varmap ((s.varmap hd.dest).node)).solution) :
    subst_scan s i (hd :: rest) false root0 = some (true, (s.varmap hd.dest).node) := by
  obtain ⟨⟨r, hgw, hr⟩, _⟩ := hall hd (List.mem_cons_self hd rest)
  have hz : bitmap_other_than_zero_bit_set (s.wstore r) = false :=
    (bitmap_other_than_zero_bit_set_false_iff _).mpr hr
  unfold subst_scan
  simp only [hgw, hz]
  rw [if_neg (by simp)]
  rw [if_pos (by simp)]
  rw [if_neg (not_not_intro (Finset.sdiff_eq_empty_iff_subset.mpr hsub))]
  exact subst_scan_true_intro s i rest ((s.varmap hd.dest).node)
    (fun e he => hall e (List.mem_cons_of_mem hd he)) hsub

theorem setSolution_complex (s : PTAState) (t : Nat) (b : Finset Nat) (v : Nat) :
    ((setSolution s t b).varmap v).complex = (s.varmap v).complex := by
  rw [setSolution_varmap]
  by_cases h : v = t <;> simp [h]

theorem setVi_flags_complex (s : PTAState) (i v : Nat) (a b : Bool) :
    ((setVi s i
        { s.varmap i with address_taken := a, indirect_target := b }).varmap v).complex
      = (s.varmap v).complex := by
  by_cases h : v = i <;> simp [setVi, upd, h]

theorem condense_complex (s : PTAState) (to_ src : Nat) (hne : src ≠ to_) :
    ((condense_varmap_nodes s to_ src).varmap to_).complex
      = constraint_set_union ((s.varmap to_).complex)
          ((s.varmap src).complex.map (complex_rewrite to_))
    ∧ ((condense_varmap_nodes s to_ src).varmap src).complex = [] := by
  constructor
  · by_cases hv : to_ ∈ (s.varmap src).varids <;>
      simp [condense_varmap_nodes, setVi, upd, hne, Ne.symm hne, hv]
  · simp [condense_varmap_nodes, setVi, upd, hne, Ne.symm hne]

theorem clear_edges_for_node_self (s : PTAState) (n : Nat) :
    (clear_edges_for_node s n).preds n = [] ∧ (clear_edges_for_node s n).succs n = [] := by
  unfold clear_edges_for_node
  exact ⟨upd_same _ _ _, upd_same _ _ _⟩

theorem merge_graph_nodes_clears (s s2 : PTAState) (a b : Nat)
    (h : merge_graph_nodes s a b = some s2) : s2.preds b = [] ∧ s2.succs b = [] := by
  unfold merge_graph_nodes at h
  simp only [Option.bind_eq_bind, bind] at h
  cases h1 : (s.preds b).foldlM (merge_edge_step b a true) s with
  | none => rw [h1] at h; cases h
  | some m1 =>
    rw [h1] at h
    simp only [Option.some_bind] at h
    cases h2 : (s.succs b).foldlM (merge_edge_step b a false) m1 with
    | none => rw [h2] at h; cases h
    | some m2 =>
      rw [h2] at h
      simp only [Option.some_bind, pure, Option.some.injEq] at h
      rw [← h]
      exact clear_edges_for_node_self m2 b

theorem erase_graph_self_edge_other (s : PTAState) (n i : Nat) (hne : i ≠ n) :
    (erase_graph_self_edge s n).preds i = s.preds i
    ∧ (erase_graph_self_edge s n).succs i = s.succs i := by
  unfold erase_graph_self_edge
  dsimp only
  rw [upd_other _ _ _ _ hne, upd_other _ _ _ _ hne]
  exact ⟨rfl, rfl⟩

theorem clear_zero_edges_other (s : PTAState) (n i : Nat) (hne : i ≠ n) :
    (clear_zero_weight_self_edge s n).preds i = s.preds i
    ∧ (clear_zero_weight_self_edge s n).succs i = s.succs i := by
  unfold clear_zero_weight_self_edge
  split
  · split
    · exact ⟨rfl, rfl⟩
    · dsimp only
      split
      · exact erase_graph_self_edge_other _ n i hne
      · exact ⟨rfl, rfl⟩
  · exact ⟨rfl, rfl⟩

theorem collapse_nodes_complex_edges (s : PTAState) (to_ fr : Nat) (s1 : PTAState)
    (h : collapse_nodes s to_ fr = some s1) (hne : fr ≠ to_) :
    (s1.varmap to_).complex
      = constraint_set_union ((s.varmap to_).complex)
          ((s.varmap fr).complex.map (complex_rewrite to_))
    ∧ (s1.varmap fr).complex = []
    ∧ s1.preds fr = [] ∧ s1.succs fr = [] := by
  unfold collapse_nodes at h
  rw [Option.bind_eq_bind, Option.bind_eq_some] at h
  obtain ⟨sm, hmerge, h⟩ := h
  cases h
  have hmv := vmProj_varmap (merge_graph_nodes_vmProj _ sm to_ fr hmerge)
  have hczv := fun v => vmProj_varmap (clear_zero_weight_self_edge_vmProj sm to_) v
  have hclears := merge_graph_nodes_clears _ sm to_ fr hmerge
  have hcze := clear_zero_edges_other sm to_ fr hne
  refine ⟨?_, ?_, ?_, ?_⟩
  · rw [setVi_flags_complex, setSolution_complex, hczv, hmv, setSolution_complex]
    exact (condense_complex s to_ fr hne).1
  · rw [setVi_flags_complex, setSolution_complex, hczv, hmv, setSolution_complex]
    exact (condense_complex s to_ fr hne).2
  · show ((setVi _ to_ _)).preds fr = []
    rw [show ∀ (x : PTAState) (nv : VarInfo), (setVi x to_ nv).preds = x.preds
        from fun x nv => rfl]
    show ((setSolution _ fr ∅)).preds fr = []
    rw [show ∀ (x : PTAState) (b : Finset Nat), (setSolution x fr b).preds = x.preds
        from fun x b => rfl]
    rw [hcze.1]
    exact hclears.1
  · show ((setVi _ to_ _)).succs fr = []
    rw [show ∀ (x : PTAState) (nv : VarInfo), (setVi x to_ nv).succs = x.succs
        from fun x nv => rfl]
    show ((setSolution _ fr ∅)).succs fr = []
    rw [show ∀ (x : PTAState) (b : Finset Nat), (setSolution x fr b).succs = x.succs
        from fun x b => rfl]
    rw [hcze.2]
    exact hclears.2

theorem setNode_complex (s : PTAState) (i n v : Nat) :
    ((setNode s i n).varmap v).complex = (s.varmap v).complex := by
  by_cases h : v = i <;> simp [setNode, setVi, upd, h]

/-- C3: offline variable substitution collapses node i into the shared
predecessor representative w exactly when i is eligible: address_taken and
indirect_target clear, a nonempty predecessor list whose edges all carry
only the zero-weight bit and agree on the representative w of the first
predecessor, solution(i) a subset of solution(w), and w different from i's
node.  When ineligible the step returns the state unchanged; when eligible
node(i) becomes w, solution(i) is merged into solution(w) and cleared, i's
complex constraints are rewritten onto w and removed from i, i's adjacency
lists are emptied, and the changed set and changed count are untouched. -/
theorem offline_substitution_collapse_characterization
    (s : PTAState) (i : Nat) (s1 : PTAState)
    (hrep : (s.varmap i).node = i)
    (h : var_subst_step s i = some s1) :
    (¬ subst_eligible s i → s1 = s)
    ∧ (subst_eligible s i →
        ∀ hd rest, s.preds i = hd :: rest →
          (s1.varmap i).node = (s.varmap hd.dest).node
          ∧ (s1.varmap ((s.varmap hd.dest).node)).solution
              = (s.varmap ((s.varmap hd.dest).node)).solution ∪ (s.varmap i).solution
          ∧ (s1.varmap i).solution = ∅
          ∧ (∀ v, v ≠ (s.varmap hd.dest).node → v ≠ i →
              (s1.varmap v).solution = (s.varmap v).solution)
          ∧ (s1.varmap ((s.varmap hd.dest).node)).complex
              = constraint_set_union ((s.varmap ((s.varmap hd.dest).node)).complex)
                  ((s.varmap i).complex.map (complex_rewrite ((s.varmap hd.dest).node)))
          ∧ (s1.varmap i).complex = []
          ∧ s1.preds i = [] ∧ s1.succs i = []
          ∧ s1.changed = s.changed ∧ s1.changed_count = s.changed_count) := by
  constructor
  · intro hne
    unfold var_subst_step at h
    dsimp only at h
    by_cases hflag : ((s.varmap i).address_taken || (s.varmap i).indirect_target) = true
    · rw [if_pos hflag] at h
      exact (Option.some.inj h).symm
    · rw [if_neg hflag] at h
      rw [Option.bind_eq_bind, Option.bind_eq_some] at h
      obtain ⟨⟨okay, root⟩, hscan, hrest⟩ := h
      dsimp only at hrest
      by_cases hcond : root ≠ (s.varmap i).node ∧ okay = true
      · exfalso
        apply hne
        obtain ⟨hroot, hok⟩ := hcond
        subst hok
        cases hp : s.preds i with
        | nil =>
          rw [hp] at hscan
          unfold subst_scan at hscan
          simp at hscan
        | cons hd rest =>
          rw [hp] at hscan
          obtain ⟨hres, hall, hsub⟩ := subst_scan_start_elim s i hd rest s.nvars root hscan
          simp only [Bool.or_eq_true, not_or, Bool.not_eq_true] at hflag
          refine ⟨hflag.1, hflag.2, hd, rest, hp, ?_, ?_, ?_, ?_⟩
          · intro ce he
            rw [hp] at he
            exact (hall ce he).1
          · intro ce he
            rw [hp] at he
            rw [(hall ce he).2, ← hres]
          · rw [← hres]
            exact hsub
          · rw [← hres]
            exact hroot
      · rw [if_neg hcond] at hrest
        exact (Option.some.inj hrest).symm
  · intro helig hd rest hp
    obtain ⟨ha, hi, hd', rest', hp', hallp, hallnode, hsub, hwne⟩ := helig
    rw [hp] at hp'
    injection hp' with h1 h2
    subst h1
    subst h2
    unfold var_subst_step at h
    dsimp only at h
    rw [if_neg (by simp [ha, hi])] at h
    have hallc : ∀ ce ∈ hd :: rest,
        pred_ok s ce ∧ (s.varmap ce.dest).node = (s.varmap hd.dest).node := by
      intro ce he
      rw [← hp] at he
      exact ⟨hallp ce he, hallnode ce he⟩
    have hscan := subst_scan_start_intro s i hd rest s.nvars hallc hsub
    rw [hp, hscan, Option.bind_eq_bind, Option.some_bind] at h
    dsimp only at h
    rw [if_pos ⟨hwne, rfl⟩] at h
    have hwi : (s.varmap hd.dest).node ≠ i := by
      rw [hrep] at hwne
      exact hwne
    have heff := collapse_nodes_effects (setNode s i ((s.varmap hd.dest).node))
      ((s.varmap hd.dest).node) i s1 h (Ne.symm hwi)
    have hcx := collapse_nodes_complex_edges (setNode s i ((s.varmap hd.dest).node))
      ((s.varmap hd.dest).node) i s1 h (Ne.symm hwi)
    refine ⟨heff.2.2.2.1, ?_, heff.2.2.1, ?_, ?_, hcx.2.1, hcx.2.2.1, hcx.2.2.2, ?_, ?_⟩
    · rw [heff.2.1, setNode_solution, setNode_solution]
    · intro v hv hvi
      rw [heff.1 v hv hvi, setNode_solution]
    · rw [hcx.1, setNode_complex, setNode_complex]
    · exact heff.2.2.2.2.1
    · exact heff.2.2.2.2.2

/-- State of the C3 witness: variable 3 has a single zero-weight
predecessor edge from variable 2, an empty solution and one complex
constraint; variable 2 is its own representative with solution {7}. -/
def c3w_state : PTAState :=
  { emptyState 4 with
    varmap := fun i =>
      if i = 2 then { defaultVi with node := 2, solution := {7} }
      else if i = 3 then
        { defaultVi with
            node := 3
            complex := [⟨⟨CEType.DEREF, 3, 0⟩, ⟨CEType.SCALAR, 1, 0⟩⟩] }
      else { defaultVi with node := i },
    succs := fun n => if n = 2 then [⟨2, 3, 0⟩] else [],
    preds := fun n => if n = 3 then [⟨3, 2, 0⟩] else [],
    wstore := fun r => if r = 0 then {0} else ∅,
    nextRef := 1 }

def c3w_s1 : PTAState := (var_subst_step c3w_state 3).getD c3w_state

theorem offline_substitution_collapse_characterization_witness :
    (c3w_state.varmap 3).node = 3
    ∧ var_subst_step c3w_state 3 = some c3w_s1
    ∧ (c3w_s1.varmap 3).node = (c3w_state.varmap 2).node
    ∧ (c3w_s1.varmap 2).solution
        = (c3w_state.varmap 2).solution ∪ (c3w_state.varmap 3).solution
    ∧ (c3w_s1.varmap 3).solution = ∅
    ∧ (c3w_s1.varmap 2).complex
        = constraint_set_union ((c3w_state.varmap 2).complex)
            ((c3w_state.varmap 3).complex.map (complex_rewrite 2))
    ∧ c3w_s1.preds 3 = [] ∧ c3w_s1.changed_count = c3w_state.changed_count := by
  have hstep : var_subst_step c3w_state 3 = some c3w_s1 := rfl
  have hp : c3w_state.preds 3 = [⟨3, 2, 0⟩] := rfl
  have helig : subst_eligible c3w_state 3 := by
    refine ⟨rfl, rfl, ⟨3, 2, 0⟩, [], hp, ?_, ?_, ?_, ?_⟩
    · intro ce he
      rw [hp] at he
      simp only [List.mem_singleton] at he
      subst he
      exact ⟨0, rfl, by decide⟩
    · intro ce he
      rw [hp] at he
      simp only [List.mem_singleton] at he
      subst he
      rfl
    · decide
    · decide
  have hmain := (offline_substitution_collapse_characterization c3w_state 3 c3w_s1
      rfl hstep).2 helig ⟨3, 2, 0⟩ [] hp
  exact ⟨rfl, hstep, hmain.1, hmain.2.1, hmain.2.2.1, hmain.2.2.2.2.1,
    hmain.2.2.2.2.2.2.1, hmain.2.2.2.2.2.2.2.2.2⟩

theorem esorted_key_unique {l : List CEdge} (hs : ESorted l) {z e : CEdge}
    (hz : z ∈ l) (he : e ∈ l) (hd : z.dest = e.dest) (hsr : z.src = e.src) : z = e := by
  induction l with
  | nil => cases hz
  | cons x xs ih =>
    obtain ⟨hstail, hless⟩ := esorted_cons hs
    rcases List.mem_cons.mp hz with rfl | hz'
    · rcases List.mem_cons.mp he with rfl | he'
      · rfl
      · have h1 := hless e he'
        rw [cel_iff] at h1
        omega
    · rcases List.mem_cons.mp he with rfl | he'
      · have h1 := hless z hz'
        rw [cel_iff] at h1
        omega
      · exact ih hstail hz' he'

theorem esorted_same_src_dest_ne {l : List CEdge} (hs : ESorted l) {n : Nat}
    (hsrc : ∀ e ∈ l, e.src = n) : l.Pairwise (fun a b => a.dest ≠ b.dest) := by
  induction l with
  | nil => exact List.Pairwise.nil
  | cons x xs ih =>
    obtain ⟨hstail, hless⟩ := esorted_cons hs
    refine List.Pairwise.cons ?_ (ih hstail (fun e he => hsrc e (List.mem_cons_of_mem x he)))
    intro b hb
    have h1 := hless b hb
    rw [cel_iff] at h1
    have h2 := hsrc x (List.mem_cons_self x xs)
    have h3 := hsrc b (List.mem_cons_of_mem x hb)
    omega

theorem find_getElem {vec : List CEdge} {src dest : Nat} {e : CEdge}
    (h : constraint_edge_vec_find vec src dest = some e) :
    vec[lower_bound constraint_edge_less vec ⟨src, dest, 0⟩]? = some e := by
  unfold constraint_edge_vec_find at h
  cases hx : vec[lower_bound constraint_edge_less vec ⟨src, dest, 0⟩]? with
  | none =>
    simp only [hx] at h
    exact h
  | some f =>
    simp only [hx] at h
    split at h
    · exact h
    · cases h

theorem add_graph_edge_hit (s : PTAState) (src dest : Nat)
    (hs : ESorted (s.preds src))
    (hex : ∃ w, (⟨src, dest, w⟩ : CEdge) ∈ s.preds src) :
    add_graph_edge s src dest = (s, false) := by
  obtain ⟨w, hw⟩ := hex
  have hfind := find_some_of_mem hs hw rfl rfl
  have hget := find_getElem hfind
  unfold add_graph_edge
  dsimp only
  rw [hget]
  simp

theorem add_graph_edge_miss (s : PTAState) (src dest : Nat)
    (hs : ESorted (s.preds src)) (hsrc : ∀ e ∈ s.preds src, e.src = src)
    (hnot : ¬ ∃ w, (⟨src, dest, w⟩ : CEdge) ∈ s.preds src) :
    (add_graph_edge s src dest).2 = true
    ∧ (add_graph_edge s src dest).1.preds
        = upd s.preds src (list_insert_at (s.preds src)
            (lower_bound constraint_edge_less (s.preds src) ⟨src, dest, 0⟩)
            ⟨src, dest, s.nextRef⟩)
    ∧ (add_graph_edge s src dest).1.succs
        = upd s.succs dest (list_insert_at (s.succs dest)
            (lower_bound constraint_edge_less (s.succs dest) ⟨dest, src, s.nextRef⟩)
            ⟨dest, src, s.nextRef⟩)
    ∧ (add_graph_edge s src dest).1.wstore = upd s.wstore s.nextRef ∅
    ∧ (add_graph_edge s src dest).1.nextRef = s.nextRef + 1 := by
  have hhit : ∀ f, (s.preds src)[lower_bound constraint_edge_less (s.preds src)
      ⟨src, dest, 0⟩]? = some f → f.dest ≠ dest := by
    intro f hf hfd
    have hfm := List.getElem?_mem hf
    have hfs := hsrc f hfm
    apply hnot
    refine ⟨f.wref, ?_⟩
    have : f = (⟨src, dest, f.wref⟩ : CEdge) := by
      cases f
      simp_all
    rw [← this]
    exact hfm
  unfold add_graph_edge
  dsimp only
  cases hx : (s.preds src)[lower_bound constraint_edge_less (s.preds src)
      ⟨src, dest, 0⟩]? with
  | none =>
    dsimp only
    rw [if_neg (by simp)]
    exact ⟨rfl, rfl, rfl, rfl, rfl⟩
  | some f =>
    dsimp only
    rw [if_neg (by simp [hhit f hx])]
    exact ⟨rfl, rfl, rfl, rfl, rfl⟩

/-- Canonical form of the constraint graph adjacency structure: every
preds and succs vector is strictly sorted by constraint_edge_less, an
entry of node n's vector carries src = n, an edge appears in preds of its
destination exactly when its mirror appears in succs of its source with
the same weights reference (the shared bitmap of add_graph_edge), weight
references are below the allocation counter, and no two distinct edges
share a weights reference. -/
structure EdgesWF (s : PTAState) : Prop where
  psorted : ∀ n, ESorted (s.preds n)
  ssorted : ∀ n, ESorted (s.succs n)
  psrc : ∀ n, ∀ e ∈ s.preds n, e.src = n
  ssrc : ∀ n, ∀ e ∈ s.succs n, e.src = n
  mirror : ∀ t f r, (⟨t, f, r⟩ : CEdge) ∈ s.preds t ↔ (⟨f, t, r⟩ : CEdge) ∈ s.succs f
  fresh : ∀ n, ∀ e ∈ s.preds n, e.wref < s.nextRef
  runiq : ∀ t1 f1 t2 f2 r, (⟨t1, f1, r⟩ : CEdge) ∈ s.preds t1 →
      (⟨t2, f2, r⟩ : CEdge) ∈ s.preds t2 → t1 = t2 ∧ f1 = f2

/-- Every live edge's weights bitmap is non-empty. -/
def weights_nonempty (s : PTAState) : Prop :=
  ∀ n, ∀ e ∈ s.preds n, s.wstore e.wref ≠ ∅

theorem lower_bound_cel_congr (l : List CEdge) {a b : CEdge}
    (hd : a.dest = b.dest) (hs : a.src = b.src) :
    lower_bound constraint_edge_less l a = lower_bound constraint_edge_less l b := by
  induction l with
  | nil => rfl
  | cons x xs ih =>
    unfold lower_bound
    rw [cel_congr_right hd hs x, ih]

theorem add_graph_edge_wf (s : PTAState) (src dest : Nat) (hw : EdgesWF s) :
    EdgesWF (add_graph_edge s src dest).1
    ∧ (∀ n z, z ∈ (add_graph_edge s src dest).1.preds n →
        (z ∈ s.preds n ∧ (add_graph_edge s src dest).1.wstore z.wref = s.wstore z.wref)
        ∨ (n = src ∧ z = ⟨src, dest, s.nextRef⟩))
    ∧ (∃ r, get_graph_weights (add_graph_edge s src dest).1 src dest = some r
        ∧ (⟨src, dest, r⟩ : CEdge) ∈ (add_graph_edge s src dest).1.preds src) := by
  by_cases hex : ∃ w, (⟨src, dest, w⟩ : CEdge) ∈ s.preds src
  · have heq := add_graph_edge_hit s src dest (hw.psorted src) hex
    rw [heq]
    obtain ⟨w, hwmem⟩ := hex
    refine ⟨hw, fun n z hz => Or.inl ⟨hz, rfl⟩, w, ?_, hwmem⟩
    unfold get_graph_weights
    rw [find_some_of_mem (hw.psorted src) hwmem rfl rfl]
  · obtain ⟨hflag, hpredseq, hsuccseq, hwstoreeq, hnexteq⟩ :=
      add_graph_edge_miss s src dest (hw.psorted src) (hw.psrc src) hex
    have hnewp : ∀ e ∈ s.preds src,
        ¬ (e.dest = (⟨src, dest, s.nextRef⟩ : CEdge).dest
           ∧ e.src = (⟨src, dest, s.nextRef⟩ : CEdge).src) := by
      intro e he hc
      apply hex
      refine ⟨e.wref, ?_⟩
      have : e = (⟨src, dest, e.wref⟩ : CEdge) := by
        cases e
        simp_all
      rw [← this]
      exact he
    have hnews : ∀ e ∈ s.succs dest,
        ¬ (e.dest = (⟨dest, src, s.nextRef⟩ : CEdge).dest
           ∧ e.src = (⟨dest, src, s.nextRef⟩ : CEdge).src) := by
      intro e he hc
      apply hex
      refine ⟨e.wref, ?_⟩
      have he' : e = (⟨dest, src, e.wref⟩ : CEdge) := by
        cases e
        simp_all
      rw [he'] at he
      exact (hw.mirror src dest e.wref).mpr he
    have hpmem : ∀ n z, z ∈ (add_graph_edge s src dest).1.preds n ↔
        ((n = src ∧ z = ⟨src, dest, s.nextRef⟩) ∨ z ∈ s.preds n) := by
      intro n z
      rw [hpredseq]
      by_cases hn : n = src
      · subst hn
        rw [upd_same, mem_list_insert_at]
        constructor
        · rintro (rfl | hm)
          · exact Or.inl ⟨rfl, rfl⟩
          · exact Or.inr hm
        · rintro (⟨_, rfl⟩ | hm)
          · exact Or.inl rfl
          · exact Or.inr hm
      · rw [upd_other _ _ _ _ hn]
        constructor
        · exact Or.inr
        · rintro (⟨rfl, _⟩ | hm)
          · exact absurd rfl hn
          · exact hm
    have hsmem : ∀ n z, z ∈ (add_graph_edge s src dest).1.succs n ↔
        ((n = dest ∧ z = ⟨dest, src, s.nextRef⟩) ∨ z ∈ s.succs n) := by
      intro n z
      rw [hsuccseq]
      by_cases hn : n = dest
      · subst hn
        rw [upd_same, mem_list_insert_at]
        constructor
        · rintro (rfl | hm)
          · exact Or.inl ⟨rfl, rfl⟩
          · exact Or.inr hm
        · rintro (⟨_, rfl⟩ | hm)
          · exact Or.inl rfl
          · exact Or.inr hm
      · rw [upd_other _ _ _ _ hn]
        constructor
        · exact Or.inr
        · rintro (⟨rfl, _⟩ | hm)
          · exact absurd rfl hn
          · exact hm
    have hps : ∀ n, ESorted ((add_graph_edge s src dest).1.preds n) := by
      intro n
      rw [hpredseq]
      by_cases hn : n = src
      · subst hn
        rw [upd_same]
        rw [show lower_bound constraint_edge_less (s.preds n) ⟨n, dest, 0⟩
            = lower_bound constraint_edge_less (s.preds n) ⟨n, dest, s.nextRef⟩
          from lower_bound_cel_congr _ rfl rfl]
        exact esorted_insert_lb (hw.psorted _) _ hnewp
      · rw [upd_other _ _ _ _ hn]
        exact hw.psorted n
    have hss : ∀ n, ESorted ((add_graph_edge s src dest).1.succs n) := by
      intro n
      rw [hsuccseq]
      by_cases hn : n = dest
      · subst hn
        rw [upd_same]
        exact esorted_insert_lb (hw.ssorted _) _ hnews
      · rw [upd_other _ _ _ _ hn]
        exact hw.ssorted n
    have hwfnew : EdgesWF (add_graph_edge s src dest).1 := by
      refine ⟨hps, hss, ?_, ?_, ?_, ?_, ?_⟩
      · intro n e he
        rcases (hpmem n e).mp he with ⟨rfl, rfl⟩ | hm
        · rfl
        · exact hw.psrc n e hm
      · intro n e he
        rcases (hsmem n e).mp he with ⟨rfl, rfl⟩ | hm
        · rfl
        · exact hw.ssrc n e hm
      · intro t f r
        rw [hpmem, hsmem]
        simp only [CEdge.mk.injEq]
        constructor
        · rintro (⟨h1, h2, h3, h4⟩ | hm)
          · subst h2; subst h3; subst h4
            exact Or.inl ⟨rfl, rfl, rfl, rfl⟩
          · exact Or.inr ((hw.mirror t f r).mp hm)
        · rintro (⟨h1, h2, h3, h4⟩ | hm)
          · subst h2; subst h3; subst h4
            exact Or.inl ⟨rfl, rfl, rfl, rfl⟩
          · exact Or.inr ((hw.mirror t f r).mpr hm)
      · intro n e he
        rw [hnexteq]
        rcases (hpmem n e).mp he with ⟨rfl, rfl⟩ | hm
        · dsimp only
          omega
        · have := hw.fresh n e hm
          omega
      · intro t1 f1 t2 f2 r h1 h2
        rcases (hpmem t1 _).mp h1 with ⟨he1, hz1⟩ | hm1 <;>
          rcases (hpmem t2 _).mp h2 with ⟨he2, hz2⟩ | hm2
        · simp only [CEdge.mk.injEq] at hz1 hz2
          exact ⟨by omega, by omega⟩
        · simp only [CEdge.mk.injEq] at hz1
          have := hw.fresh t2 _ hm2
          simp only at this
          omega
        · simp only [CEdge.mk.injEq] at hz2
          have := hw.fresh t1 _ hm1
          simp only at this
          omega
        · exact hw.runiq t1 f1 t2 f2 r hm1 hm2
    refine ⟨hwfnew, ?_, ?_⟩
    · intro n z hz
      rcases (hpmem n z).mp hz with ⟨rfl, rfl⟩ | hm
      · exact Or.inr ⟨rfl, rfl⟩
      · refine Or.inl ⟨hm, ?_⟩
        rw [hwstoreeq]
        have := hw.fresh n z hm
        exact upd_other _ _ _ _ (by omega)
    · refine ⟨s.nextRef, ?_, ?_⟩
      · unfold get_graph_weights
        rw [find_some_of_mem (hps src) ((hpmem src _).mpr (Or.inl ⟨rfl, rfl⟩)) rfl rfl]
      · exact (hpmem src _).mpr (Or.inl ⟨rfl, rfl⟩)

theorem int_add_graph_edge_wf (s : PTAState) (to_ from_ w : Nat) (s2 : PTAState) (fl : Bool)
    (hw : EdgesWF s) (hne : weights_nonempty s)
    (h : int_add_graph_edge s to_ from_ w = some (s2, fl)) :
    EdgesWF s2 ∧ weights_nonempty s2 := by
  unfold int_add_graph_edge at h
  split at h
  · injection h with h1
    injection h1 with ha hb
    subst ha
    exact ⟨hw, hne⟩
  · obtain ⟨hwf1, hmemb, ref0, hget, hrefmem⟩ := add_graph_edge_wf s to_ from_ hw
    dsimp only at h
    cases hp : add_graph_edge s to_ from_ with
    | mk s1 rr =>
      rw [hp] at h hwf1 hmemb hget hrefmem
      dsimp only at h hwf1 hmemb hget hrefmem
      rw [hget] at h
      dsimp only at h
      injection h with h1
      injection h1 with ha hb
      subst ha
      refine ⟨⟨hwf1.psorted, hwf1.ssorted, hwf1.psrc, hwf1.ssrc, hwf1.mirror,
        hwf1.fresh, hwf1.runiq⟩, ?_⟩
      intro n e he
      by_cases heref : e.wref = ref0
      · show upd s1.wstore ref0 _ e.wref ≠ ∅
        rw [heref, upd_same]
        simp
      · show upd s1.wstore ref0 _ e.wref ≠ ∅
        rw [upd_other _ _ _ _ heref]
        rcases hmemb n e he with ⟨hold, hstore⟩ | ⟨hn, hnew⟩
        · rw [hstore]
          exact hne n e hold
        · exfalso
          apply heref
          subst hn
          have hkey := esorted_key_unique (hwf1.psorted n) hrefmem he
            (by rw [hnew]) (by rw [hnew])
          rw [hnew] at hkey
          injection hkey with h1 h2 h3
          rw [hnew]
          dsimp only
          omega

theorem get_graph_weights_mem {s : PTAState} {a b r : Nat}
    (h : get_graph_weights s a b = some r) :
    (⟨a, b, r⟩ : CEdge) ∈ s.preds a := by
  unfold get_graph_weights at h
  cases hf : constraint_edge_vec_find (s.preds a) a b with
  | none =>
    rw [hf] at h
    cases h
  | some e =>
    rw [hf] at h
    injection h with h1
    obtain ⟨hm, hs, hd⟩ := find_mem hf
    cases e
    dsimp only at h1 hs hd
    subst h1
    subst hs
    subst hd
    exact hm

theorem merge_weights_wf (s s1 : PTAState) (nsrc ndst osrc odst : Nat) (rr : Bool)
    (hp : add_graph_edge s nsrc ndst = (s1, rr))
    (hdiff : osrc ≠ nsrc ∨ odst ≠ ndst)
    (hw : EdgesWF s) (hne : weights_nonempty s) (rold rnew : Nat)
    (hgold : get_graph_weights s1 osrc odst = some rold)
    (hgnew : get_graph_weights s1 nsrc ndst = some rnew) :
    EdgesWF { s1 with wstore := upd s1.wstore rnew (s1.wstore rnew ∪ s1.wstore rold) }
    ∧ weights_nonempty
        { s1 with wstore := upd s1.wstore rnew (s1.wstore rnew ∪ s1.wstore rold) } := by
  obtain ⟨hwf1, hmemb, ref0, hget0, hrefmem0⟩ := add_graph_edge_wf s nsrc ndst hw
  rw [hp] at hwf1 hmemb hget0 hrefmem0
  dsimp only at hwf1 hmemb hget0 hrefmem0
  have holdmem := get_graph_weights_mem hgold
  have hnewmem := get_graph_weights_mem hgnew
  have holdne : s1.wstore rold ≠ ∅ := by
    rcases hmemb osrc _ holdmem with ⟨hold, hstore⟩ | ⟨hn, hnew⟩
    · rw [show (⟨osrc, odst, rold⟩ : CEdge).wref = rold from rfl] at hstore
      rw [hstore]
      have := hne osrc _ hold
      exact this
    · exfalso
      injection hnew with e1 e2 e3
      rcases hdiff with hd | hd
      · exact hd e1
      · exact hd e2
  refine ⟨⟨hwf1.psorted, hwf1.ssorted, hwf1.psrc, hwf1.ssrc, hwf1.mirror,
    hwf1.fresh, hwf1.runiq⟩, ?_⟩
  intro n e he
  by_cases heref : e.wref = rnew
  · show upd s1.wstore rnew _ e.wref ≠ ∅
    rw [heref, upd_same]
    intro hcon
    rw [Finset.union_eq_empty] at hcon
    exact holdne hcon.2
  · show upd s1.wstore rnew _ e.wref ≠ ∅
    rw [upd_other _ _ _ _ heref]
    rcases hmemb n e he with ⟨hold, hstore⟩ | ⟨hn, hnew⟩
    · rw [hstore]
      exact hne n e hold
    · exfalso
      apply heref
      subst hn
      have hkey := esorted_key_unique (hwf1.psorted n) hnewmem he
        (by rw [hnew]) (by rw [hnew])
      rw [hnew] at hkey
      injection hkey with k1 k2 k3
      rw [hnew]
      dsimp only
      omega

theorem merge_edge_step_wf (from_ to_ : Nat) (pside : Bool) (s : PTAState) (c : CEdge)
    (s2 : PTAState) (hto : to_ ≠ from_) (hw : EdgesWF s) (hne : weights_nonempty s)
    (h : merge_edge_step from_ to_ pside s c = some s2) :
    EdgesWF s2 ∧ weights_nonempty s2 := by
  unfold merge_edge_step at h
  dsimp only at h
  cases pside with
  | true =>
    simp only [if_true] at h
    generalize hD : (if c.dest = from_ then to_ else c.dest) = D at h
    cases hp : add_graph_edge s to_ D with
    | mk s1 rr =>
      rw [hp] at h
      dsimp only at h
      cases hgold : get_graph_weights s1 from_ c.dest with
      | none =>
        rw [hgold] at h
        cases hgnew : get_graph_weights s1 to_ D with
        | none => rw [hgnew] at h; cases h
        | some rnew => rw [hgnew] at h; cases h
      | some rold =>
        rw [hgold] at h
        cases hgnew : get_graph_weights s1 to_ D with
        | none => rw [hgnew] at h; cases h
        | some rnew =>
          rw [hgnew] at h
          injection h with h1
          subst h1
          exact merge_weights_wf s s1 to_ D from_ c.dest rr hp
            (Or.inl (Ne.symm hto)) hw hne rold rnew hgold hgnew
  | false =>
    simp only [Bool.false_eq_true, if_false] at h
    generalize hD : (if c.dest = from_ then to_ else c.dest) = D at h
    cases hp : add_graph_edge s D to_ with
    | mk s1 rr =>
      rw [hp] at h
      dsimp only at h
      cases hgold : get_graph_weights s1 c.dest from_ with
      | none =>
        rw [hgold] at h
        cases hgnew : get_graph_weights s1 D to_ with
        | none => rw [hgnew] at h; cases h
        | some rnew => rw [hgnew] at h; cases h
      | some rold =>
        rw [hgold] at h
        cases hgnew : get_graph_weights s1 D to_ with
        | none => rw [hgnew] at h; cases h
        | some rnew =>
          rw [hgnew] at h
          injection h with h1
          subst h1
          exact merge_weights_wf s s1 D to_ c.dest from_ rr hp
            (Or.inr (Ne.symm hto)) hw hne rold rnew hgold hgnew

/-- The list where clear_edges_for_node drops the mirror entry keyed
(d, k): removal at the key's lower bound. -/
def remove_key (l : List CEdge) (d k : Nat) : List CEdge :=
  list_remove_at l (lower_bound constraint_edge_less l ⟨d, k, 0⟩)

theorem clear_pred_fold (k : Nat) :
    ∀ (L : List CEdge) (acc : PTAState),
      (∀ n, ESorted (acc.preds n)) →
      (∀ n, ∀ e ∈ acc.preds n, e.src = n) →
      L.Pairwise (fun a b => a.dest ≠ b.dest) →
      (∀ c ∈ L, c.dest ≠ k → ∃ w, (⟨c.dest, k, w⟩ : CEdge) ∈ acc.preds c.dest) →
      (L.foldl (clear_pred_entry k) acc).succs = acc.succs
      ∧ (L.foldl (clear_pred_entry k) acc).wstore = acc.wstore
      ∧ (L.foldl (clear_pred_entry k) acc).nextRef = acc.nextRef
      ∧ (∀ n, ESorted ((L.foldl (clear_pred_entry k) acc).preds n))
      ∧ (∀ n z, z ∈ (L.foldl (clear_pred_entry k) acc).preds n ↔
          (z ∈ acc.preds n ∧ ¬(z.dest = k ∧ ∃ c ∈ L, c.dest = n ∧ c.dest ≠ k))) := by
  intro L
  induction L with
  | nil =>
    intro acc hsort hsrc _ _
    refine ⟨rfl, rfl, rfl, hsort, ?_⟩
    intro n z
    simp
  | cons c L' ih =>
    intro acc hsort hsrc hpw hpres
    rw [List.pairwise_cons] at hpw
    simp only [List.foldl_cons]
    by_cases hck : c.dest = k
    · have hstep : clear_pred_entry k acc c = acc := by
        unfold clear_pred_entry
        rw [if_neg (not_not_intro hck)]
      rw [hstep]
      obtain ⟨h1, h2, h3, h4, h5⟩ := ih acc hsort hsrc hpw.2
        (fun c' hc' => hpres c' (List.mem_cons_of_mem c hc'))
      refine ⟨h1, h2, h3, h4, ?_⟩
      intro n z
      rw [h5 n z]
      constructor
      · rintro ⟨hm, hnot⟩
        refine ⟨hm, ?_⟩
        rintro ⟨hzd, c'', hc'', hd, hdk⟩
        rcases List.mem_cons.mp hc'' with rfl | hmem
        · exact hdk hck
        · exact hnot ⟨hzd, c'', hmem, hd, hdk⟩
      · rintro ⟨hm, hnot⟩
        refine ⟨hm, ?_⟩
        rintro ⟨hzd, c'', hc'', hd, hdk⟩
        exact hnot ⟨hzd, c'', List.mem_cons_of_mem c hc'', hd, hdk⟩
    · obtain ⟨w, hwmem⟩ := hpres c (List.mem_cons_self c L') hck
      have hstep : clear_pred_entry k acc c
          = { acc with preds := upd acc.preds c.dest (remove_key (acc.preds c.dest) c.dest k) } := by
        unfold clear_pred_entry remove_key
        rw [if_pos hck]
      rw [hstep]
      have hsort' : ∀ n, ESorted ((upd acc.preds c.dest (remove_key (acc.preds c.dest) c.dest k)) n) := by
        intro n
        by_cases hn : n = c.dest
        · subst hn
          rw [upd_same]
          exact esorted_remove (hsort _) _
        · rw [upd_other _ _ _ _ hn]
          exact hsort n
      have hmem' : ∀ n z, z ∈ (upd acc.preds c.dest (remove_key (acc.preds c.dest) c.dest k)) n
          ↔ (z ∈ acc.preds n ∧ (n = c.dest → z ≠ ⟨c.dest, k, w⟩)) := by
        intro n z
        by_cases hn : n = c.dest
        · subst hn
          rw [upd_same]
          unfold remove_key
          rw [remove_at_lb_mem_iff (hsort _) hwmem rfl rfl]
          constructor
          · rintro ⟨hm, hne⟩
            exact ⟨hm, fun _ => hne⟩
          · rintro ⟨hm, hne⟩
            exact ⟨hm, hne rfl⟩
        · rw [upd_other _ _ _ _ hn]
          constructor
          · intro hm
            exact ⟨hm, fun hc => absurd hc hn⟩
          · exact fun hp => hp.1
      have hsrc' : ∀ n, ∀ e ∈ (upd acc.preds c.dest (remove_key (acc.preds c.dest) c.dest k)) n,
          e.src = n := by
        intro n e he
        exact hsrc n e ((hmem' n e).mp he).1
      have hpres' : ∀ c' ∈ L', c'.dest ≠ k → ∃ w',
          (⟨c'.dest, k, w'⟩ : CEdge)
            ∈ (upd acc.preds c.dest (remove_key (acc.preds c.dest) c.dest k)) c'.dest := by
        intro c' hc' hck'
        obtain ⟨w', hw'⟩ := hpres c' (List.mem_cons_of_mem c hc') hck'
        refine ⟨w', (hmem' _ _).mpr ⟨hw', ?_⟩⟩
        intro hd
        exact absurd hd.symm (hpw.1 c' hc')
      obtain ⟨h1, h2, h3, h4, h5⟩ :=
        ih { acc with preds := upd acc.preds c.dest (remove_key (acc.preds c.dest) c.dest k) }
          hsort' hsrc' hpw.2 hpres'
      refine ⟨h1, h2, h3, h4, ?_⟩
      intro n z
      rw [h5 n z]
      show (z ∈ (upd acc.preds c.dest (remove_key (acc.preds c.dest) c.dest k)) n ∧ _) ↔ _
      rw [hmem' n z]
      constructor
      · rintro ⟨⟨hm, hnc⟩, hnot⟩
        refine ⟨hm, ?_⟩
        rintro ⟨hzd, c'', hc'', hd, hdk⟩
        rcases List.mem_cons.mp hc'' with heq | hmemc
        · rw [heq] at hd
          have hdn : c.dest = n := hd
          apply hnc hdn.symm
          have hwmem2 : (⟨c.dest, k, w⟩ : CEdge) ∈ acc.preds n := hdn ▸ hwmem
          exact esorted_key_unique (hsort n) hm hwmem2 (by rw [hzd]) (by
            rw [hsrc n z hm]
            exact hdn.symm)
        · exact hnot ⟨hzd, c'', hmemc, hd, hdk⟩
      · rintro ⟨hm, hnot⟩
        refine ⟨⟨hm, ?_⟩, ?_⟩
        · intro hnc hze
          apply hnot
          refine ⟨by rw [hze], c, List.mem_cons_self c L', hnc.symm, hck⟩
        · rintro ⟨hzd, c'', hc'', hd, hdk⟩
          exact hnot ⟨hzd, c'', List.mem_cons_of_mem c hc'', hd, hdk⟩

theorem clear_succ_fold (k : Nat) :
    ∀ (L : List CEdge) (acc : PTAState),
      (∀ n, ESorted (acc.succs n)) →
      (∀ n, ∀ e ∈ acc.succs n, e.src = n) →
      L.Pairwise (fun a b => a.dest ≠ b.dest) →
      (∀ c ∈ L, c.dest ≠ k → ∃ w, (⟨c.dest, k, w⟩ : CEdge) ∈ acc.succs c.dest) →
      (L.foldl (clear_succ_entry k) acc).preds = acc.preds
      ∧ (L.foldl (clear_succ_entry k) acc).wstore = acc.wstore
      ∧ (L.foldl (clear_succ_entry k) acc).nextRef = acc.nextRef
      ∧ (∀ n, ESorted ((L.foldl (clear_succ_entry k) acc).succs n))
      ∧ (∀ n z, z ∈ (L.foldl (clear_succ_entry k) acc).succs n ↔
          (z ∈ acc.succs n ∧ ¬(z.dest = k ∧ ∃ c ∈ L, c.dest = n ∧ c.dest ≠ k))) := by
  intro L
  induction L with
  | nil =>
    intro acc hsort hsrc _ _
    refine ⟨rfl, rfl, rfl, hsort, ?_⟩
    intro n z
    simp
  | cons c L' ih =>
    intro acc hsort hsrc hpw hpres
    rw [List.pairwise_cons] at hpw
    simp only [List.foldl_cons]
    by_cases hck : c.dest = k
    · have hstep : clear_succ_entry k acc c = acc := by
        unfold clear_succ_entry
        rw [if_neg (not_not_intro hck)]
      rw [hstep]
      obtain ⟨h1, h2, h3, h4, h5⟩ := ih acc hsort hsrc hpw.2
        (fun c' hc' => hpres c' (List.mem_cons_of_mem c hc'))
      refine ⟨h1, h2, h3, h4, ?_⟩
      intro n z
      rw [h5 n z]
      constructor
      · rintro ⟨hm, hnot⟩
        refine ⟨hm, ?_⟩
        rintro ⟨hzd, c'', hc'', hd, hdk⟩
        rcases List.mem_cons.mp hc'' with rfl | hmem
        · exact hdk hck
        · exact hnot ⟨hzd, c'', hmem, hd, hdk⟩
      · rintro ⟨hm, hnot⟩
        refine ⟨hm, ?_⟩
        rintro ⟨hzd, c'', hc'', hd, hdk⟩
        exact hnot ⟨hzd, c'', List.mem_cons_of_mem c hc'', hd, hdk⟩
    · obtain ⟨w, hwmem⟩ := hpres c (List.mem_cons_self c L') hck
      have hstep : clear_succ_entry k acc c
          = { acc with succs := upd acc.succs c.dest (remove_key (acc.succs c.dest) c.dest k) } := by
        unfold clear_succ_entry remove_key
        rw [if_pos hck]
      rw [hstep]
      have hsort' : ∀ n, ESorted ((upd acc.succs c.dest (remove_key (acc.succs c.dest) c.dest k)) n) := by
        intro n
        by_cases hn : n = c.dest
        · subst hn
          rw [upd_same]
          exact esorted_remove (hsort _) _
        · rw [upd_other _ _ _ _ hn]
          exact hsort n
      have hmem' : ∀ n z, z ∈ (upd acc.succs c.dest (remove_key (acc.succs c.dest) c.dest k)) n
          ↔ (z ∈ acc.succs n ∧ (n = c.dest → z ≠ ⟨c.dest, k, w⟩)) := by
        intro n z
        by_cases hn : n = c.dest
        · subst hn
          rw [upd_same]
          unfold remove_key
          rw [remove_at_lb_mem_iff (hsort _) hwmem rfl rfl]
          constructor
          · rintro ⟨hm, hne⟩
            exact ⟨hm, fun _ => hne⟩
          · rintro ⟨hm, hne⟩
            exact ⟨hm, hne rfl⟩
        · rw [upd_other _ _ _ _ hn]
          constructor
          · intro hm
            exact ⟨hm, fun hc => absurd hc hn⟩
          · exact fun hp => hp.1
      have hsrc' : ∀ n, ∀ e ∈ (upd acc.succs c.dest (remove_key (acc.succs c.dest) c.dest k)) n,
          e.src = n := by
        intro n e he
        exact hsrc n e ((hmem' n e).mp he).1
      have hpres' : ∀ c' ∈ L', c'.dest ≠ k → ∃ w',
          (⟨c'.dest, k, w'⟩ : CEdge)
            ∈ (upd acc.succs c.dest (remove_key (acc.succs c.dest) c.dest k)) c'.dest := by
        intro c' hc' hck'
        obtain ⟨w', hw'⟩ := hpres c' (List.mem_cons_of_mem c hc') hck'
        refine ⟨w', (hmem' _ _).mpr ⟨hw', ?_⟩⟩
        intro hd
        exact absurd hd.symm (hpw.1 c' hc')
      obtain ⟨h1, h2, h3, h4, h5⟩ :=
        ih { acc with succs := upd acc.succs c.dest (remove_key (acc.succs c.dest) c.dest k) }
          hsort' hsrc' hpw.2 hpres'
      refine ⟨h1, h2, h3, h4, ?_⟩
      intro n z
      rw [h5 n z]
      show (z ∈ (upd acc.succs c.dest (remove_key (acc.succs c.dest) c.dest k)) n ∧ _) ↔ _
      rw [hmem' n z]
      constructor
      · rintro ⟨⟨hm, hnc⟩, hnot⟩
        refine ⟨hm, ?_⟩
        rintro ⟨hzd, c'', hc'', hd, hdk⟩
        rcases List.mem_cons.mp hc'' with heq | hmemc
        · rw [heq] at hd
          have hdn : c.dest = n := hd
          apply hnc hdn.symm
          have hwmem2 : (⟨c.dest, k, w⟩ : CEdge) ∈ acc.succs n := hdn ▸ hwmem
          exact esorted_key_unique (hsort n) hm hwmem2 (by rw [hzd]) (by
            rw [hsrc n z hm]
            exact hdn.symm)
        · exact hnot ⟨hzd, c'', hmemc, hd, hdk⟩
      · rintro ⟨hm, hnot⟩
        refine ⟨⟨hm, ?_⟩, ?_⟩
        · intro hnc hze
          apply hnot
          refine ⟨by rw [hze], c, List.mem_cons_self c L', hnc.symm, hck⟩
        · rintro ⟨hzd, c'', hc'', hd, hdk⟩
          exact hnot ⟨hzd, c'', List.mem_cons_of_mem c hc'', hd, hdk⟩

theorem clear_edges_for_node_wf (s : PTAState) (k : Nat) (hw : EdgesWF s) :
    EdgesWF (clear_edges_for_node s k)
    ∧ (weights_nonempty s → weights_nonempty (clear_edges_for_node s k))
    ∧ (clear_edges_for_node s k).wstore = s.wstore
    ∧ (clear_edges_for_node s k).nextRef = s.nextRef
    ∧ (clear_edges_for_node s k).preds k = [] ∧ (clear_edges_for_node s k).succs k = []
    ∧ (∀ n, n ≠ k → ∀ z, z ∈ (clear_edges_for_node s k).preds n ↔
        (z ∈ s.preds n ∧ z.dest ≠ k))
    ∧ (∀ n, n ≠ k → ∀ z, z ∈ (clear_edges_for_node s k).succs n ↔
        (z ∈ s.succs n ∧ z.dest ≠ k)) := by
  have pw1 : (s.succs k).Pairwise (fun a b => a.dest ≠ b.dest) :=
    esorted_same_src_dest_ne (hw.ssorted k) (hw.ssrc k)
  have pres1 : ∀ c ∈ s.succs k, c.dest ≠ k →
      ∃ w, (⟨c.dest, k, w⟩ : CEdge) ∈ s.preds c.dest := by
    intro c hc hck
    refine ⟨c.wref, ?_⟩
    have hcs := hw.ssrc k c hc
    have hc2 : (⟨k, c.dest, c.wref⟩ : CEdge) ∈ s.succs k := by
      cases c
      dsimp only at hcs ⊢
      subst hcs
      exact hc
    exact (hw.mirror c.dest k c.wref).mpr hc2
  obtain ⟨p1, p2, p3, p4, p5⟩ := clear_pred_fold k (s.succs k) s hw.psorted hw.psrc pw1 pres1
  have hsort2 : ∀ n, ESorted (((s.succs k).foldl (clear_pred_entry k) s).succs n) := by
    intro n
    rw [p1]
    exact hw.ssorted n
  have hsrc2 : ∀ n, ∀ e ∈ ((s.succs k).foldl (clear_pred_entry k) s).succs n, e.src = n := by
    intro n
    rw [p1]
    exact hw.ssrc n
  have pw2 : (s.preds k).Pairwise (fun a b => a.dest ≠ b.dest) :=
    esorted_same_src_dest_ne (hw.psorted k) (hw.psrc k)
  have pres2 : ∀ c ∈ s.preds k, c.dest ≠ k →
      ∃ w, (⟨c.dest, k, w⟩ : CEdge) ∈ ((s.succs k).foldl (clear_pred_entry k) s).succs c.dest := by
    intro c hc hck
    refine ⟨c.wref, ?_⟩
    rw [p1]
    have hcs := hw.psrc k c hc
    have hc2 : (⟨k, c.dest, c.wref⟩ : CEdge) ∈ s.preds k := by
      cases c
      dsimp only at hcs ⊢
      subst hcs
      exact hc
    exact (hw.mirror k c.dest c.wref).mp hc2
  obtain ⟨q1, q2, q3, q4, q5⟩ := clear_succ_fold k (s.preds k) _ hsort2 hsrc2 pw2 pres2
  have hrp : (clear_edges_for_node s k).preds
      = upd ((s.preds k).foldl (clear_succ_entry k)
          ((s.succs k).foldl (clear_pred_entry k) s)).preds k [] := rfl
  have hrs : (clear_edges_for_node s k).succs
      = upd ((s.preds k).foldl (clear_succ_entry k)
          ((s.succs k).foldl (clear_pred_entry k) s)).succs k [] := rfl
  have hrw : (clear_edges_for_node s k).wstore = s.wstore := by
    rw [show (clear_edges_for_node s k).wstore
        = ((s.preds k).foldl (clear_succ_entry k)
            ((s.succs k).foldl (clear_pred_entry k) s)).wstore from rfl, q2, p2]
  have hrn : (clear_edges_for_node s k).nextRef = s.nextRef := by
    rw [show (clear_edges_for_node s k).nextRef
        = ((s.preds k).foldl (clear_succ_entry k)
            ((s.succs k).foldl (clear_pred_entry k) s)).nextRef from rfl, q3, p3]
  have hpm : ∀ n, n ≠ k → ∀ z, z ∈ (clear_edges_for_node s k).preds n ↔
      (z ∈ s.preds n ∧ z.dest ≠ k) := by
    intro n hn z
    rw [hrp, upd_other _ _ _ _ hn, q1, p5 n z]
    constructor
    · rintro ⟨hm, hnot⟩
      refine ⟨hm, ?_⟩
      intro hzd
      apply hnot
      refine ⟨hzd, ⟨k, n, z.wref⟩, ?_, rfl, hn⟩
      have hzs := hw.psrc n z hm
      have hz2 : (⟨n, k, z.wref⟩ : CEdge) ∈ s.preds n := by
        cases z
        dsimp only at hzs hzd ⊢
        subst hzs
        subst hzd
        exact hm
      exact (hw.mirror n k z.wref).mp hz2
    · rintro ⟨hm, hzd⟩
      refine ⟨hm, ?_⟩
      rintro ⟨hzk, _⟩
      exact hzd hzk
  have hsm : ∀ n, n ≠ k → ∀ z, z ∈ (clear_edges_for_node s k).succs n ↔
      (z ∈ s.succs n ∧ z.dest ≠ k) := by
    intro n hn z
    rw [hrs, upd_other _ _ _ _ hn, q5 n z, p1]
    constructor
    · rintro ⟨hm, hnot⟩
      refine ⟨hm, ?_⟩
      intro hzd
      apply hnot
      refine ⟨hzd, ⟨k, n, z.wref⟩, ?_, rfl, hn⟩
      have hzs := hw.ssrc n z hm
      have hz2 : (⟨n, k, z.wref⟩ : CEdge) ∈ s.succs n := by
        cases z
        dsimp only at hzs hzd ⊢
        subst hzs
        subst hzd
        exact hm
      exact (hw.mirror k n z.wref).mpr hz2
    · rintro ⟨hm, hzd⟩
      refine ⟨hm, ?_⟩
      rintro ⟨hzk, _⟩
      exact hzd hzk
  have hpk : (clear_edges_for_node s k).preds k = [] := by
    rw [hrp, upd_same]
  have hsk : (clear_edges_for_node s k).succs k = [] := by
    rw [hrs, upd_same]
  have hwf : EdgesWF (clear_edges_for_node s k) := by
    refine ⟨?_, ?_, ?_, ?_, ?_, ?_, ?_⟩
    · intro n
      by_cases hn : n = k
      · rw [hn, hpk]
        exact List.Pairwise.nil
      · rw [hrp, upd_other _ _ _ _ hn, q1]
        exact p4 n
    · intro n
      by_cases hn : n = k
      · rw [hn, hsk]
        exact List.Pairwise.nil
      · rw [hrs, upd_other _ _ _ _ hn]
        exact q4 n
    · intro n e he
      by_cases hn : n = k
      · rw [hn, hpk] at he
        cases he
      · exact hw.psrc n e ((hpm n hn e).mp he).1
    · intro n e he
      by_cases hn : n = k
      · rw [hn, hsk] at he
        cases he
      · exact hw.ssrc n e ((hsm n hn e).mp he).1
    · intro t f r
      by_cases ht : t = k
      · constructor
        · intro h
          rw [ht, hpk] at h
          cases h
        · intro h
          by_cases hf : f = k
          · rw [hf, hsk] at h
            cases h
          · exact absurd ht (((hsm f hf _).mp h).2)
      · by_cases hf : f = k
        · constructor
          · intro h
            exact absurd hf (((hpm t ht _).mp h).2)
          · intro h
            rw [hf, hsk] at h
            cases h
        · constructor
          · intro h
            obtain ⟨hm, _⟩ := (hpm t ht _).mp h
            exact (hsm f hf _).mpr ⟨(hw.mirror t f r).mp hm, ht⟩
          · intro h
            obtain ⟨hm, _⟩ := (hsm f hf _).mp h
            exact (hpm t ht _).mpr ⟨(hw.mirror t f r).mpr hm, hf⟩
    · intro n e he
      rw [hrn]
      by_cases hn : n = k
      · rw [hn, hpk] at he
        cases he
      · exact hw.fresh n e ((hpm n hn e).mp he).1
    · intro t1 f1 t2 f2 r h1 h2
      by_cases h1k : t1 = k
      · rw [h1k, hpk] at h1
        cases h1
      · by_cases h2k : t2 = k
        · rw [h2k, hpk] at h2
          cases h2
        · exact hw.runiq t1 f1 t2 f2 r ((hpm t1 h1k _).mp h1).1 ((hpm t2 h2k _).mp h2).1
  refine ⟨hwf, ?_, hrw, hrn, hpk, hsk, hpm, hsm⟩
  intro hne n e he
  rw [hrw]
  by_cases hn : n = k
  · rw [hn, hpk] at he
    cases he
  · exact hne n e ((hpm n hn e).mp he).1

theorem merge_graph_nodes_wf (s : PTAState) (to_ from_ : Nat) (s2 : PTAState)
    (hto : to_ ≠ from_) (hw : EdgesWF s) (hne : weights_nonempty s)
    (h : merge_graph_nodes s to_ from_ = some s2) :
    EdgesWF s2 ∧ weights_nonempty s2 := by
  unfold merge_graph_nodes at h
  dsimp only at h
  rw [Option.bind_eq_bind, Option.bind_eq_some] at h
  obtain ⟨m1, hm1, h⟩ := h
  rw [Option.bind_eq_some] at h
  obtain ⟨m2, hm2, h⟩ := h
  simp only [pure, Option.some.injEq] at h
  have e1 : EdgesWF m1 ∧ weights_nonempty m1 :=
    foldlM_option_induct (merge_edge_step from_ to_ true)
      (fun a b => (EdgesWF a ∧ weights_nonempty a) → (EdgesWF b ∧ weights_nonempty b))
      (fun hab hbc hha => hbc (hab hha)) (fun a hha => hha)
      (fun a c a2 hs hha => merge_edge_step_wf from_ to_ true a c a2 hto hha.1 hha.2 hs)
      (s.preds from_) s m1 hm1 ⟨hw, hne⟩
  have e2 : EdgesWF m2 ∧ weights_nonempty m2 :=
    foldlM_option_induct (merge_edge_step from_ to_ false)
      (fun a b => (EdgesWF a ∧ weights_nonempty a) → (EdgesWF b ∧ weights_nonempty b))
      (fun hab hbc hha => hbc (hab hha)) (fun a hha => hha)
      (fun a c a2 hs hha => merge_edge_step_wf from_ to_ false a c a2 hto hha.1 hha.2 hs)
      (s.succs from_) m1 m2 hm2 e1
  obtain ⟨hwf2, hne2, _⟩ := clear_edges_for_node_wf m2 from_ e2.1
  rw [← h]
  exact ⟨hwf2, hne2 e2.2⟩

theorem erase_graph_self_edge_wf (s : PTAState) (n r : Nat)
    (hw : EdgesWF s) (hmem : (⟨n, n, r⟩ : CEdge) ∈ s.preds n) :
    EdgesWF (erase_graph_self_edge s n)
    ∧ (∀ m z, z ∈ (erase_graph_self_edge s n).preds m ↔
        (z ∈ s.preds m ∧ z ≠ ⟨n, n, r⟩))
    ∧ (∀ m z, z ∈ (erase_graph_self_edge s n).succs m ↔
        (z ∈ s.succs m ∧ z ≠ ⟨n, n, r⟩))
    ∧ (erase_graph_self_edge s n).wstore = s.wstore
    ∧ (erase_graph_self_edge s n).nextRef = s.nextRef := by
  have hsmem : (⟨n, n, r⟩ : CEdge) ∈ s.succs n := (hw.mirror n n r).mp hmem
  have hrp : (erase_graph_self_edge s n).preds
      = upd s.preds n (remove_key (s.preds n) n n) := rfl
  have hrs : (erase_graph_self_edge s n).succs
      = upd s.succs n (remove_key (s.succs n) n n) := rfl
  have hpm : ∀ m z, z ∈ (erase_graph_self_edge s n).preds m ↔
      (z ∈ s.preds m ∧ z ≠ ⟨n, n, r⟩) := by
    intro m z
    rw [hrp]
    by_cases hm : m = n
    · subst hm
      rw [upd_same]
      unfold remove_key
      exact remove_at_lb_mem_iff (hw.psorted m) hmem rfl rfl z
    · rw [upd_other _ _ _ _ hm]
      constructor
      · intro hz
        refine ⟨hz, ?_⟩
        intro hze
        apply hm
        have := hw.psrc m z hz
        rw [hze] at this
        exact this.symm
      · exact fun hp => hp.1
  have hsm : ∀ m z, z ∈ (erase_graph_self_edge s n).succs m ↔
      (z ∈ s.succs m ∧ z ≠ ⟨n, n, r⟩) := by
    intro m z
    rw [hrs]
    by_cases hm : m = n
    · subst hm
      rw [upd_same]
      unfold remove_key
      exact remove_at_lb_mem_iff (hw.ssorted m) hsmem rfl rfl z
    · rw [upd_other _ _ _ _ hm]
      constructor
      · intro hz
        refine ⟨hz, ?_⟩
        intro hze
        apply hm
        have := hw.ssrc m z hz
        rw [hze] at this
        exact this.symm
      · exact fun hp => hp.1
  refine ⟨⟨?_, ?_, ?_, ?_, ?_, ?_, ?_⟩, hpm, hsm, rfl, rfl⟩
  · intro m
    rw [hrp]
    by_cases hm : m = n
    · subst hm
      rw [upd_same]
      exact esorted_remove (hw.psorted m) _
    · rw [upd_other _ _ _ _ hm]
      exact hw.psorted m
  · intro m
    rw [hrs]
    by_cases hm : m = n
    · subst hm
      rw [upd_same]
      exact esorted_remove (hw.ssorted m) _
    · rw [upd_other _ _ _ _ hm]
      exact hw.ssorted m
  · intro m e he
    exact hw.psrc m e ((hpm m e).mp he).1
  · intro m e he
    exact hw.ssrc m e ((hsm m e).mp he).1
  · intro t f r'
    rw [hpm, hsm]
    constructor
    · rintro ⟨hm, hne⟩
      refine ⟨(hw.mirror t f r').mp hm, ?_⟩
      intro hze
      apply hne
      injection hze with e1 e2 e3
      subst e1
      subst e2
      subst e3
      rfl
    · rintro ⟨hm, hne⟩
      refine ⟨(hw.mirror t f r').mpr hm, ?_⟩
      intro hze
      apply hne
      injection hze with e1 e2 e3
      subst e1
      subst e2
      subst e3
      rfl
  · intro m e he
    exact hw.fresh m e ((hpm m e).mp he).1
  · intro t1 f1 t2 f2 r' h1 h2
    exact hw.runiq t1 f1 t2 f2 r' ((hpm t1 _).mp h1).1 ((hpm t2 _).mp h2).1

theorem clear_zero_weight_self_edge_wf (s : PTAState) (n : Nat)
    (hw : EdgesWF s) (hne : weights_nonempty s) :
    EdgesWF (clear_zero_weight_self_edge s n)
    ∧ weights_nonempty (clear_zero_weight_self_edge s n) := by
  unfold clear_zero_weight_self_edge
  split
  · cases hg : get_graph_weights s n n with
    | none => exact ⟨hw, hne⟩
    | some r =>
      dsimp only
      have hmem := get_graph_weights_mem hg
      have hw1 : EdgesWF { s with wstore := upd s.wstore r ((s.wstore r).erase 0) } :=
        ⟨hw.psorted, hw.ssorted, hw.psrc, hw.ssrc, hw.mirror, hw.fresh, hw.runiq⟩
      by_cases hwe : (s.wstore r).erase 0 = ∅
      · rw [if_pos hwe]
        have hmem1 : (⟨n, n, r⟩ : CEdge)
            ∈ ({ s with wstore := upd s.wstore r ((s.wstore r).erase 0) } : PTAState).preds n :=
          hmem
        obtain ⟨hwf, hpm, hsmm, hwse, hnre⟩ :=
          erase_graph_self_edge_wf _ n r hw1 hmem1
        refine ⟨hwf, ?_⟩
        intro m e he
        rw [hwse]
        show upd s.wstore r _ e.wref ≠ ∅
        obtain ⟨hms, hner⟩ := (hpm m e).mp he
        have hrne : e.wref ≠ r := by
          intro hr
          apply hner
          have hes := hw.psrc m e hms
          cases e
          dsimp only at hes hr ⊢
          subst hes
          subst hr
          rename_i edest _
          obtain ⟨hm1, hm2⟩ := hw.runiq _ edest n n _ hms hmem
          rw [hm1, hm2]
        rw [upd_other _ _ _ _ hrne]
        exact hne m e hms
      · rw [if_neg hwe]
        refine ⟨hw1, ?_⟩
        intro m e he
        show upd s.wstore r _ e.wref ≠ ∅
        by_cases hr : e.wref = r
        · rw [hr, upd_same]
          exact hwe
        · rw [upd_other _ _ _ _ hr]
          exact hne m e he
  · exact ⟨hw, hne⟩

/-- C7: edge canonicality.  Under the canonical-form invariant with
non-empty weights, every live edge (valid_graph_edge) appears in the preds
vector of its source-end and mirrored in the succs vector of the other
endpoint, both entries carrying the same weights reference (so a mutation
of the shared bitmap in wstore is observed through either entry), and the
referenced weights bitmap is non-empty.  The invariant holds of the empty
graph and is preserved by int_add_graph_edge, by merge_graph_nodes of two
distinct nodes, and by the zero-weight self-edge clearing step. -/
theorem edge_canonicality_invariant :
    (∀ s t f, EdgesWF s → weights_nonempty s → valid_graph_edge s t f = true →
      ∃ r, get_graph_weights s t f = some r
        ∧ (⟨t, f, r⟩ : CEdge) ∈ s.preds t ∧ (⟨f, t, r⟩ : CEdge) ∈ s.succs f
        ∧ s.wstore r ≠ ∅)
    ∧ (∀ n, EdgesWF (emptyState n) ∧ weights_nonempty (emptyState n))
    ∧ (∀ s t f w s2 fl, EdgesWF s → weights_nonempty s →
        int_add_graph_edge s t f w = some (s2, fl) → EdgesWF s2 ∧ weights_nonempty s2)
    ∧ (∀ s t f s2, t ≠ f → EdgesWF s → weights_nonempty s →
        merge_graph_nodes s t f = some s2 → EdgesWF s2 ∧ weights_nonempty s2)
    ∧ (∀ s n, EdgesWF s → weights_nonempty s →
        EdgesWF (clear_zero_weight_self_edge s n)
        ∧ weights_nonempty (clear_zero_weight_self_edge s n)) := by
  refine ⟨?_, ?_, ?_, ?_, ?_⟩
  · intro s t f hw hne hv
    unfold valid_graph_edge at hv
    cases hf : constraint_edge_vec_find (s.preds t) t f with
    | none =>
      rw [hf] at hv
      cases hv
    | some e =>
      obtain ⟨hm, hes, hed⟩ := find_mem hf
      refine ⟨e.wref, ?_, ?_, ?_, ?_⟩
      · unfold get_graph_weights
        rw [hf]
      · cases e
        dsimp only at hes hed ⊢
        subst hes
        subst hed
        exact hm
      · apply (hw.mirror t f e.wref).mp
        cases e
        dsimp only at hes hed ⊢
        subst hes
        subst hed
        exact hm
      · exact hne t e hm
  · intro n
    constructor
    · refine ⟨?_, ?_, ?_, ?_, ?_, ?_, ?_⟩
      · intro m
        exact List.Pairwise.nil
      · intro m
        exact List.Pairwise.nil
      · intro m e he
        cases he
      · intro m e he
        cases he
      · intro t f r
        constructor
        · intro h
          cases h
        · intro h
          cases h
      · intro m e he
        cases he
      · intro t1 f1 t2 f2 r h1 h2
        cases h1
    · intro m e he
      cases he
  · intro s t f w s2 fl hw hne h
    exact int_add_graph_edge_wf s t f w s2 fl hw hne h
  · intro s t f s2 htf hw hne h
    exact merge_graph_nodes_wf s t f s2 htf hw hne h
  · intro s n hw hne
    exact clear_zero_weight_self_edge_wf s n hw hne

/-- State of the C7 witness: a single live edge to := from between
variables 1 and 0, mirrored in preds[1] and succs[0] with the shared
weights reference 0 whose bitmap is {0}. -/
def c7_state : PTAState :=
  { emptyState 2 with
    preds := fun n => if n = 1 then [⟨1, 0, 0⟩] else [],
    succs := fun n => if n = 0 then [⟨0, 1, 0⟩] else [],
    wstore := fun r => if r = 0 then {0} else ∅,
    nextRef := 1 }

theorem c7_pred_eq (m : Nat) :
    c7_state.preds m = (if m = 1 then [(⟨1, 0, 0⟩ : CEdge)] else []) := rfl

theorem c7_succ_eq (m : Nat) :
    c7_state.succs m = (if m = 0 then [(⟨0, 1, 0⟩ : CEdge)] else []) := rfl

theorem c7_state_wf : EdgesWF c7_state := by
  refine ⟨?_, ?_, ?_, ?_, ?_, ?_, ?_⟩
  · intro m
    rw [c7_pred_eq]
    split
    · exact List.pairwise_singleton _ _
    · exact List.Pairwise.nil
  · intro m
    rw [c7_succ_eq]
    split
    · exact List.pairwise_singleton _ _
    · exact List.Pairwise.nil
  · intro m e he
    rw [c7_pred_eq] at he
    by_cases hm : m = 1
    · rw [if_pos hm] at he
      rw [List.mem_singleton] at he
      subst he
      exact hm.symm
    · rw [if_neg hm] at he
      cases he
  · intro m e he
    rw [c7_succ_eq] at he
    by_cases hm : m = 0
    · rw [if_pos hm] at he
      rw [List.mem_singleton] at he
      subst he
      exact hm.symm
    · rw [if_neg hm] at he
      cases he
  · intro t f r
    constructor
    · intro h
      rw [c7_pred_eq] at h
      by_cases ht : t = 1
      · rw [if_pos ht] at h
        rw [List.mem_singleton] at h
        injection h with e1 e2 e3
        subst e2
        subst e3
        rw [c7_succ_eq, if_pos rfl]
        rw [e1]
        exact List.mem_singleton.mpr rfl
      · rw [if_neg ht] at h
        cases h
    · intro h
      rw [c7_succ_eq] at h
      by_cases hf : f = 0
      · rw [if_pos hf] at h
        rw [List.mem_singleton] at h
        injection h with e1 e2 e3
        subst e2
        subst e3
        rw [c7_pred_eq, if_pos rfl]
        rw [e1]
        exact List.mem_singleton.mpr rfl
      · rw [if_neg hf] at h
        cases h
  · intro m e he
    rw [c7_pred_eq] at he
    by_cases hm : m = 1
    · rw [if_pos hm] at he
      rw [List.mem_singleton] at he
      subst he
      show (0 : Nat) < c7_state.nextRef
      decide
    · rw [if_neg hm] at he
      cases he
  · intro t1 f1 t2 f2 r h1 h2
    rw [c7_pred_eq] at h1 h2
    by_cases h1m : t1 = 1
    · by_cases h2m : t2 = 1
      · rw [if_pos h1m] at h1
        rw [if_pos h2m] at h2
        rw [List.mem_singleton] at h1 h2
        injection h1 with a1 a2 a3
        injection h2 with b1 b2 b3
        subst a2
        subst b2
        exact ⟨h1m.trans h2m.symm, rfl⟩
      · rw [if_neg h2m] at h2
        cases h2
    · rw [if_neg h1m] at h1
      cases h1

theorem c7_state_ne : weights_nonempty c7_state := by
  intro m e he
  rw [c7_pred_eq] at he
  by_cases hm : m = 1
  · rw [if_pos hm] at he
    rw [List.mem_singleton] at he
    subst he
    decide
  · rw [if_neg hm] at he
    cases he

theorem edge_canonicality_invariant_witness :
    valid_graph_edge c7_state 1 0 = true
    ∧ ∃ r, get_graph_weights c7_state 1 0 = some r
        ∧ (⟨1, 0, r⟩ : CEdge) ∈ c7_state.preds 1 ∧ (⟨0, 1, r⟩ : CEdge) ∈ c7_state.succs 0
        ∧ c7_state.wstore r ≠ ∅ :=
  ⟨rfl, edge_canonicality_invariant.1 c7_state 1 0 c7_state_wf c7_state_ne rfl⟩

/-- C1 (amended): processing one member j of delta in a load x := *y
calls int_add_graph_edge(lhs, t, 0) for the representative t of the field
at offset(j)+roff when j is type-safe, and unions solution(t) into
solution(lhs) exactly when that call reports a new edge or weight bit;
when the zero-weight edge was already present the step returns the state
unchanged; a type-unsafe member is skipped.  After the loop,
do_sd_constraint marks lhs changed (incrementing changed_count when lhs
was unmarked) exactly when some performed union found solution(t) not yet
contained in solution(lhs), and then lhs is in the final changed set. -/
theorem load_union_exactly_on_new_edge :
    (∀ lhs s flag ro j out, do_sd_step lhs (s, flag, ro) j = some out →
      ((type_safe s j ro).1 = false → out = (s, flag, (type_safe s j ro).2))
      ∧ ((type_safe s j ro).1 = true →
          ∃ v, first_vi_for_offset s (s.nvars + 1) j
              ((s.varmap j).offset + (type_safe s j ro).2) = some v
          ∧ ∃ s1 added, int_add_graph_edge s lhs ((s.varmap v).node) 0 = some (s1, added)
          ∧ (added = true →
              out = (setSolution s1 lhs
                       ((s1.varmap lhs).solution
                         ∪ (s1.varmap ((s.varmap v).node)).solution),
                     flag || decide (¬ (s1.varmap ((s.varmap v).node)).solution
                         ⊆ (s1.varmap lhs).solution),
                     (type_safe s j ro).2))
          ∧ (added = false → out = (s1, flag, (type_safe s j ro).2))))
    ∧ (∀ s c delta s2, do_sd_constraint s c delta = some s2 →
        ∃ s1 flag ro,
          delta.foldlM (do_sd_step ((s.varmap c.lhs.var).node)) (s, false, c.rhs.offset)
            = some (s1, flag, ro)
          ∧ (flag = false → s2 = s1)
          ∧ (flag = true →
              ((s.varmap c.lhs.var).node ∉ s1.changed →
                s2 = { s1 with changed := insert ((s.varmap c.lhs.var).node) s1.changed,
                               changed_count := s1.changed_count + 1 })
              ∧ ((s.varmap c.lhs.var).node ∈ s1.changed → s2 = s1)
              ∧ (s.varmap c.lhs.var).node ∈ s2.changed)) := by
  constructor
  · intro lhs s flag ro j out h
    unfold do_sd_step at h
    dsimp only at h
    cases hts : type_safe s j ro with
    | mk ok ro1 =>
      rw [hts] at h
      dsimp only at h
      cases ok with
      | false =>
        rw [if_neg (by simp)] at h
        simp only [pure, Option.some.injEq] at h
        constructor
        · intro _
          exact h.symm
        · intro hcon
          simp at hcon
      | true =>
        rw [if_pos rfl] at h
        constructor
        · intro hcon
          simp at hcon
        · intro _
          cases hfv : first_vi_for_offset s (s.nvars + 1) j ((s.varmap j).offset + ro1) with
          | none =>
            rw [hfv] at h
            cases h
          | some v =>
            rw [hfv] at h
            dsimp only at h
            rw [Option.bind_eq_bind, Option.bind_eq_some] at h
            obtain ⟨⟨s1, added⟩, hadd, hrest⟩ := h
            dsimp only at hrest
            refine ⟨v, rfl, s1, added, hadd, ?_, ?_⟩
            · intro ha
              subst ha
              rw [if_pos rfl] at hrest
              simp only [pure, Option.some.injEq] at hrest
              exact hrest.symm
            · intro ha
              subst ha
              rw [if_neg (by simp)] at hrest
              simp only [pure, Option.some.injEq] at hrest
              exact hrest.symm
  · intro s c delta s2 h
    unfold do_sd_constraint at h
    dsimp only at h
    rw [Option.bind_eq_bind, Option.bind_eq_some] at h
    obtain ⟨⟨s1, flag, ro⟩, hfold, hrest⟩ := h
    dsimp only at hrest
    refine ⟨s1, flag, ro, hfold, ?_, ?_⟩
    · intro hf
      subst hf
      rw [if_neg (by simp)] at hrest
      simp only [pure, Option.some.injEq] at hrest
      exact hrest.symm
    · intro hf
      subst hf
      rw [if_pos rfl] at hrest
      by_cases hc : (s.varmap c.lhs.var).node ∈ s1.changed
      · rw [if_neg (not_not_intro hc)] at hrest
        simp only [pure, Option.some.injEq] at hrest
        refine ⟨fun hcon => absurd hc hcon, fun _ => hrest.symm, ?_⟩
        rw [← hrest]
        exact hc
      · rw [if_pos hc] at hrest
        simp only [pure, Option.some.injEq] at hrest
        refine ⟨fun _ => hrest.symm, fun hcon => absurd hcon hc, ?_⟩
        rw [← hrest]
        exact Finset.mem_insert_self _ _

def c1_out : PTAState × Bool × Nat :=
  (do_sd_step 2 (c1_state, false, c1_con.rhs.offset) 4).getD (c1_state, false, 0)

theorem load_union_exactly_on_new_edge_witness :
    do_sd_step 2 (c1_state, false, c1_con.rhs.offset) 4 = some c1_out
    ∧ ((type_safe c1_state 4 c1_con.rhs.offset).1 = true →
        ∃ v, first_vi_for_offset c1_state (c1_state.nvars + 1) 4
            ((c1_state.varmap 4).offset + (type_safe c1_state 4 c1_con.rhs.offset).2) = some v
        ∧ ∃ s1 added, int_add_graph_edge c1_state 2 ((c1_state.varmap v).node) 0
            = some (s1, added)
        ∧ (added = true →
            c1_out = (setSolution s1 2
                ((s1.varmap 2).solution ∪ (s1.varmap ((c1_state.varmap v).node)).solution),
              false || decide (¬ (s1.varmap ((c1_state.varmap v).node)).solution
                  ⊆ (s1.varmap 2).solution),
              (type_safe c1_state 4 c1_con.rhs.offset).2))
        ∧ (added = false → c1_out = (s1, false, (type_safe c1_state 4 c1_con.rhs.offset).2))) :=
  ⟨rfl, (load_union_exactly_on_new_edge.1 2 c1_state false c1_con.rhs.offset 4 c1_out rfl).2⟩

theorem scc_pop_loop_graph (n t : Nat) :
    ∀ (stack : List Nat) (s : PTAState) (si : SccInfo),
      (scc_pop_loop n t s si stack).1.succs = s.succs
      ∧ (scc_pop_loop n t s si stack).1.preds = s.preds
      ∧ (scc_pop_loop n t s si stack).1.wstore = s.wstore
      ∧ (scc_pop_loop n t s si stack).1.nvars = s.nvars := by
  intro stack
  induction stack with
  | nil =>
    intro s si
    exact ⟨rfl, rfl, rfl, rfl⟩
  | cons w rest ih =>
    intro s si
    unfold scc_pop_loop
    split
    · exact ih _ _
    · exact ⟨rfl, rfl, rfl, rfl⟩

theorem scc_visit_graph (fuel : Nat) :
    ∀ (s : PTAState) (si : SccInfo) (n : Nat) (out : PTAState × SccInfo),
      scc_visit fuel s si n = some out →
      out.1.succs = s.succs ∧ out.1.preds = s.preds
      ∧ out.1.wstore = s.wstore ∧ out.1.nvars = s.nvars := by
  induction fuel with
  | zero =>
    intro s si n out h
    cases h
  | succ f ih =>
    intro s si n out h
    unfold scc_visit at h
    split at h
    · cases h
    · rw [Option.bind_eq_bind, Option.bind_eq_some] at h
      obtain ⟨⟨s1, si1⟩, hf, h⟩ := h
      have hfold : s1.succs = s.succs ∧ s1.preds = s.preds
          ∧ s1.wstore = s.wstore ∧ s1.nvars = s.nvars := by
        have hrel := foldlM_option_induct _
          (fun (p q : PTAState × SccInfo) =>
            q.1.succs = p.1.succs ∧ q.1.preds = p.1.preds
            ∧ q.1.wstore = p.1.wstore ∧ q.1.nvars = p.1.nvars)
          (fun hab hbc => ⟨hbc.1.trans hab.1, hbc.2.1.trans hab.2.1,
            hbc.2.2.1.trans hab.2.2.1, hbc.2.2.2.trans hab.2.2.2⟩)
          (fun a => ⟨rfl, rfl, rfl, rfl⟩)
          ?hstep (s.succs n) _ _ hf
        · exact hrel
        · intro a c a2 ha
          obtain ⟨sa, sia⟩ := a
          dsimp only at ha
          split at ha
          · split at ha
            · rw [Option.bind_eq_some] at ha
              obtain ⟨⟨sm, sim⟩, hm, ha⟩ := ha
              have h1 := ih sa sia c.dest (sm, sim) hm
              dsimp only at ha h1
              split at ha
              · split at ha
                · cases ha
                  exact h1
                · cases ha
                  exact h1
              · cases ha
                exact h1
            · simp only [pure, Option.some_bind] at ha
              split at ha
              · split at ha
                · cases ha
                  exact ⟨rfl, rfl, rfl, rfl⟩
                · cases ha
                  exact ⟨rfl, rfl, rfl, rfl⟩
              · cases ha
                exact ⟨rfl, rfl, rfl, rfl⟩
          · cases ha
            exact ⟨rfl, rfl, rfl, rfl⟩
      dsimp only at h
      split at h
      · cases h
        obtain ⟨g1, g2, g3, g4⟩ := scc_pop_loop_graph n (si1.visited_index n) si1.scc_stack s1
          { si1 with in_component := insert n si1.in_component }
        exact ⟨g1.trans hfold.1, g2.trans hfold.2.1, g3.trans hfold.2.2.1,
          g4.trans hfold.2.2.2⟩
      · cases h
        exact hfold

theorem setNode_varmap_congr {s s' : PTAState} (h : s.varmap = s'.varmap) (n t : Nat) :
    (setNode s n t).varmap = (setNode s' n t).varmap := by
  show upd s.varmap n { s.varmap n with node := t }
      = upd s'.varmap n { s'.varmap n with node := t }
  rw [h]

theorem scc_pop_loop_congr (n t : Nat) :
    ∀ (stack : List Nat) (s s' : PTAState) (si : SccInfo), s.varmap = s'.varmap →
      (scc_pop_loop n t s si stack).1.varmap = (scc_pop_loop n t s' si stack).1.varmap
      ∧ (scc_pop_loop n t s si stack).2 = (scc_pop_loop n t s' si stack).2 := by
  intro stack
  induction stack with
  | nil =>
    intro s s' si h
    exact ⟨h, rfl⟩
  | cons w rest ih =>
    intro s s' si h
    unfold scc_pop_loop
    split
    · exact ih _ _ _ (setNode_varmap_congr h w n)
    · exact ⟨h, rfl⟩

/-- The constraint graph with every successor edge whose weights bitmap
lacks the zero bit removed. -/
def zero_succ_filter (s : PTAState) : PTAState :=
  { s with succs := fun m => (s.succs m).filter (fun c => decide (0 ∈ s.wstore c.wref)) }

theorem option_map_bind_congr {α β : Type} (F : α → β)
    (oL oR : Option α) (tL tR : α → Option α)
    (h : Option.map F oL = Option.map F oR)
    (ht : ∀ a b, oL = some a → oR = some b → F a = F b →
        Option.map F (tL a) = Option.map F (tR b)) :
    Option.map F (oL >>= tL) = Option.map F (oR >>= tR) := by
  cases oL with
  | none =>
    cases oR with
    | none => rfl
    | some b =>
      simp only [Option.map_none', Option.map_some'] at h
      cases h
  | some a =>
    cases oR with
    | none =>
      simp only [Option.map_none', Option.map_some'] at h
      cases h
    | some b =>
      simp only [Option.map_some', Option.some.injEq] at h
      simp only [Option.bind_eq_bind, Option.some_bind]
      exact ht a b rfl rfl h

theorem scc_visit_zero_filter :
    ∀ (fuel : Nat) (si : SccInfo) (n : Nat) (s s' : PTAState),
      s'.nvars = s.nvars → s'.varmap = s.varmap → s'.wstore = s.wstore →
      (∀ m, s'.succs m = (s.succs m).filter (fun c => decide (0 ∈ s.wstore c.wref))) →
      Option.map (fun (p : PTAState × SccInfo) => (p.1.varmap, p.2)) (scc_visit fuel s si n)
        = Option.map (fun (p : PTAState × SccInfo) => (p.1.varmap, p.2))
            (scc_visit fuel s' si n) := by
  intro fuel
  induction fuel with
  | zero =>
    intro si n s s' _ _ _ _
    rfl
  | succ f ih =>
    intro si n s s' hn hv hw hs
    unfold scc_visit
    rw [hv]
    by_cases hroot : (s.varmap n).node ≠ n
    · rw [if_pos hroot, if_pos hroot]
    · rw [if_neg hroot, if_neg hroot]
      dsimp only
      rw [hs n]
      have hgen : ∀ (l : List CEdge) (sa sa' : PTAState) (sia : SccInfo),
          sa'.nvars = sa.nvars → sa'.varmap = sa.varmap → sa'.wstore = sa.wstore →
          sa.wstore = s.wstore → sa.succs = s.succs → sa'.succs = s'.succs →
          Option.map (fun (p : PTAState × SccInfo) => (p.1.varmap, p.2))
            (l.foldlM
              (fun (p : PTAState × SccInfo) c => do
                let (s, si) := p
                if 0 ∈ s.wstore c.wref then do
                  let w := c.dest
                  let (s, si) ←
                    if w ∉ si.visited then scc_visit f s si w else pure (s, si)
                  if w ∉ si.in_component then
                    let t := (s.varmap w).node
                    let nnode := (s.varmap n).node
                    if si.visited_index t < si.visited_index nnode then
                      pure (setNode s n t, si)
                    else pure (s, si)
                  else pure (s, si)
                else pure (s, si))
              (sa, sia))
          = Option.map (fun (p : PTAState × SccInfo) => (p.1.varmap, p.2))
              ((l.filter (fun c => decide (0 ∈ s.wstore c.wref))).foldlM
                (fun (p : PTAState × SccInfo) c => do
                  let (s, si) := p
                  if 0 ∈ s.wstore c.wref then do
                    let w := c.dest
                    let (s, si) ←
                      if w ∉ si.visited then scc_visit f s si w else pure (s, si)
                    if w ∉ si.in_component then
                      let t := (s.varmap w).node
                      let nnode := (s.varmap n).node
                      if si.visited_index t < si.visited_index nnode then
                        pure (setNode s n t, si)
                      else pure (s, si)
                    else pure (s, si)
                  else pure (s, si))
                (sa', sia)) := by
        intro l
        induction l with
        | nil =>
          intro sa sa' sia _ hvm _ _ _ _
          simp only [List.filter_nil, List.foldlM_nil]
          show some (sa.varmap, sia) = some (sa'.varmap, sia)
          rw [hvm]
        | cons c l' ihl =>
          intro sa sa' sia hn' hvm hw' hws hsc hsc'
          rw [List.filter_cons]
          by_cases hp : 0 ∈ s.wstore c.wref
          · rw [if_pos (by simp [hp]), List.foldlM_cons, List.foldlM_cons]
            have hcondL : 0 ∈ sa.wstore c.wref := by
              rw [hws]
              exact hp
            have hcondR : 0 ∈ sa'.wstore c.wref := by
              rw [hw', hws]
              exact hp
            dsimp only
            rw [if_pos hcondL, if_pos hcondR]
            by_cases hvis : c.dest ∉ sia.visited
            · rw [if_pos hvis, if_pos hvis]
              simp only [bind_assoc]
              refine option_map_bind_congr _ _ _ _ _
                (ih sia c.dest sa sa' hn' hvm hw'
                  (fun m => by rw [hsc', hsc, hws]; exact hs m)) ?_
              intro a b hLa hRb hFab
              obtain ⟨sm, sim⟩ := a
              obtain ⟨sm', sim'⟩ := b
              obtain ⟨gm1, gm2, gm3, gm4⟩ := scc_visit_graph f sa sia c.dest _ hLa
              obtain ⟨gr1, gr2, gr3, gr4⟩ := scc_visit_graph f sa' sia c.dest _ hRb
              simp only [Prod.mk.injEq] at hFab
              obtain ⟨hvm2, hsi2⟩ := hFab
              subst hsi2
              dsimp only
              rw [hvm2]
              by_cases hic : c.dest ∉ sim.in_component
              · rw [if_pos hic, if_pos hic]
                by_cases hlt : sim.visited_index ((sm'.varmap c.dest).node)
                    < sim.visited_index ((sm'.varmap n).node)
                · rw [if_pos hlt, if_pos hlt]
                  simp only [pure, Option.bind_eq_bind, Option.some_bind]
                  exact ihl (setNode sm n ((sm'.varmap c.dest).node))
                    (setNode sm' n ((sm'.varmap c.dest).node)) sim
                    (by show sm'.nvars = sm.nvars
                        rw [gm4, gr4, hn'])
                    (setNode_varmap_congr hvm2.symm n _)
                    (by show sm'.wstore = sm.wstore
                        rw [gm3, gr3, hw'])
                    (by show sm.wstore = s.wstore
                        rw [gm3, hws])
                    (by show sm.succs = s.succs
                        rw [gm1, hsc])
                    (by show sm'.succs = s'.succs
                        rw [gr1, hsc'])
                · rw [if_neg hlt, if_neg hlt]
                  simp only [pure, Option.bind_eq_bind, Option.some_bind]
                  exact ihl sm sm' sim
                    (by rw [gm4, gr4, hn']) hvm2.symm
                    (by rw [gm3, gr3, hw'])
                    (by rw [gm3, hws])
                    (by rw [gm1, hsc])
                    (by rw [gr1, hsc'])
              · rw [if_neg hic, if_neg hic]
                simp only [pure, Option.bind_eq_bind, Option.some_bind]
                exact ihl sm sm' sim
                  (by rw [gm4, gr4, hn']) hvm2.symm
                  (by rw [gm3, gr3, hw'])
                  (by rw [gm3, hws])
                  (by rw [gm1, hsc])
                  (by rw [gr1, hsc'])
            · rw [if_neg hvis, if_neg hvis]
              simp only [bind_assoc, pure, Option.bind_eq_bind, Option.some_bind]
              rw [hvm]
              by_cases hic : c.dest ∉ sia.in_component
              · rw [if_pos hic, if_pos hic]
                by_cases hlt : sia.visited_index ((sa.varmap c.dest).node)
                    < sia.visited_index ((sa.varmap n).node)
                · rw [if_pos hlt, if_pos hlt]
                  simp only [Option.some_bind]
                  exact ihl (setNode sa n ((sa.varmap c.dest).node))
                    (setNode sa' n ((sa.varmap c.dest).node)) sia
                    hn' (setNode_varmap_congr hvm n _) hw' hws hsc hsc'
                · rw [if_neg hlt, if_neg hlt]
                  simp only [Option.some_bind]
                  exact ihl sa sa' sia hn' hvm hw' hws hsc hsc'
              · rw [if_neg hic, if_neg hic]
                simp only [Option.some_bind]
                exact ihl sa sa' sia hn' hvm hw' hws hsc hsc'
          · rw [if_neg (by simp [hp]), List.foldlM_cons]
            have hcondL : 0 ∉ sa.wstore c.wref := by
              rw [hws]
              exact hp
            dsimp only
            rw [if_neg hcondL]
            simp only [pure, Option.bind_eq_bind, Option.some_bind]
            exact ihl sa sa' sia hn' hvm hw' hws hsc hsc'
      refine option_map_bind_congr _ _ _ _ _
        (hgen (s.succs n) s s'
          { si with visited := insert n si.visited,
                    in_component := si.in_component.erase n,
                    visited_index := upd si.visited_index n si.current_index,
                    current_index := si.current_index + 1 }
          hn hv hw rfl rfl rfl) ?_
      intro a b hLa hRb hFab
      obtain ⟨s1, si1⟩ := a
      obtain ⟨s1', si1'⟩ := b
      simp only [Prod.mk.injEq] at hFab
      obtain ⟨hvm1, hsi1⟩ := hFab
      subst hsi1
      dsimp only
      rw [hvm1]
      by_cases hroot2 : (s1'.varmap n).node = n
      · rw [if_pos hroot2, if_pos hroot2]
        obtain ⟨hpv, hps⟩ := scc_pop_loop_congr n (si1.visited_index n)
          si1.scc_stack s1 s1' { si1 with in_component := insert n si1.in_component }
          hvm1
        simp only [pure, Option.map_some', Option.some.injEq, Prod.mk.injEq]
        exact ⟨hpv, hps⟩
      · rw [if_neg hroot2, if_neg hroot2]
        simp only [pure, Option.map_some', Option.some.injEq, Prod.mk.injEq]
        exact ⟨hvm1, trivial⟩

theorem zero_succ_filter_empty (s : PTAState)
    (hnz : ∀ m, ∀ c ∈ s.succs m, 0 ∉ s.wstore c.wref) :
    ∀ m, (zero_succ_filter s).succs m = [] := by
  intro m
  show (s.succs m).filter (fun c => decide (0 ∈ s.wstore c.wref)) = []
  rw [List.filter_eq_nil_iff]
  intro c hc
  simp only [decide_eq_true_eq]
  exact hnz m c hc

theorem scc_visit_no_zero (f : Nat) (s : PTAState) (si : SccInfo) (n : Nat)
    (out : PTAState × SccInfo)
    (hnz : ∀ m, ∀ c ∈ s.succs m, 0 ∉ s.wstore c.wref)
    (hstack : si.scc_stack = [])
    (h : scc_visit (f + 1) s si n = some out) :
    out.1.varmap = s.varmap ∧ out.2.unification_queue = si.unification_queue
    ∧ out.2.scc_stack = [] := by
  have hroot : (s.varmap n).node = n := by
    by_contra hcon
    unfold scc_visit at h
    rw [if_pos hcon] at h
    cases h
  have hfilter : scc_visit (f + 1) (zero_succ_filter s) si n
      = some (zero_succ_filter s,
          { si with visited := insert n si.visited,
                    in_component := insert n (si.in_component.erase n),
                    visited_index := upd si.visited_index n si.current_index,
                    current_index := si.current_index + 1,
                    scc_stack := [] }) := by
    unfold scc_visit
    have hroot' : ¬ ((zero_succ_filter s).varmap n).node ≠ n := not_not_intro hroot
    rw [if_neg hroot']
    dsimp only
    rw [zero_succ_filter_empty s hnz n]
    simp only [List.foldlM_nil, pure, Option.bind_eq_bind, Option.some_bind]
    rw [if_pos (show ((zero_succ_filter s).varmap n).node = n from hroot)]
    rw [hstack]
    rfl
  have hbi := scc_visit_zero_filter (f + 1) si n s (zero_succ_filter s) rfl rfl rfl
    (fun m => rfl)
  rw [h, hfilter] at hbi
  simp only [Option.map_some', Option.some.injEq, Prod.mk.injEq] at hbi
  obtain ⟨h1, h2⟩ := hbi
  refine ⟨h1, ?_, ?_⟩
  · rw [h2]
  · rw [h2]

theorem find_and_collapse_no_zero (s : PTAState) (u : Bool) (s2 : PTAState)
    (hnz : ∀ m, ∀ c ∈ s.succs m, 0 ∉ s.wstore c.wref)
    (h : find_and_collapse_graph_cycles s u = some s2) :
    s2.varmap = s.varmap := by
  unfold find_and_collapse_graph_cycles at h
  dsimp only at h
  rw [Option.bind_eq_bind, Option.bind_eq_some] at h
  obtain ⟨⟨s1, si1⟩, hfold, hpuq⟩ := h
  have hINV := foldlM_option_induct _
    (fun (p q : PTAState × SccInfo) =>
      (p.1.varmap = s.varmap ∧ p.1.succs = s.succs ∧ p.1.wstore = s.wstore
        ∧ p.2.unification_queue = [] ∧ p.2.scc_stack = []) →
      (q.1.varmap = s.varmap ∧ q.1.succs = s.succs ∧ q.1.wstore = s.wstore
        ∧ q.2.unification_queue = [] ∧ q.2.scc_stack = []))
    (fun hab hbc hp => hbc (hab hp)) (fun a hp => hp)
    ?hstep (List.range s.nvars) _ _ hfold ⟨rfl, rfl, rfl, rfl, rfl⟩
  case hstep =>
    intro a i a2 hs2
    intro hinv
    obtain ⟨ta, sia⟩ := a
    dsimp only at hs2
    split at hs2
    · obtain ⟨hv, hsc, hw, hq, hst⟩ := hinv
      have hnz' : ∀ m, ∀ c ∈ ta.succs m, 0 ∉ ta.wstore c.wref := by
        rw [hsc, hw]
        exact hnz
      have hres := scc_visit_no_zero s.nvars ta sia i a2 hnz' hst hs2
      obtain ⟨g1, g2, g3, g4⟩ := scc_visit_graph (s.nvars + 1) ta sia i a2 hs2
      exact ⟨hres.1.trans hv, g1.trans hsc, g3.trans hw, hres.2.1.trans hq, hres.2.2⟩
    · simp only [pure, Option.some.injEq] at hs2
      rw [← hs2]
      exact hinv
  obtain ⟨hv1, _, _, hq1, _⟩ := hINV
  rw [hq1] at hpuq
  unfold process_unification_queue process_unification_queue_go at hpuq
  injection hpuq with h1
  rw [← h1]
  exact hv1

/-- One zero-weight successor edge of the constraint graph. -/
def zstep (g : PTAState) (a b : Nat) : Prop :=
  ∃ c ∈ g.succs a, c.dest = b ∧ 0 ∈ g.wstore c.wref

/-- Reachability along zero-weight successor edges. -/
def zreach (g : PTAState) : Nat → Nat → Prop := Relation.ReflTransGen (zstep g)

/-- Two nodes on a common cycle of zero-weight edges. -/
def mutualz (g : PTAState) (a b : Nat) : Prop := zreach g a b ∧ zreach g b a

/-- A node currently active in the SCC walk: visited and with its
in_component bit still cleared. -/
def sccActive (si : SccInfo) (v : Nat) : Prop :=
  v ∈ si.visited ∧ v ∉ si.in_component

/-- Working invariant of the Nuutila SCC walk, relative to the fixed
graph g and the set P of nodes on the current recursion path. -/
structure SccW (g : PTAState) (P : Finset Nat) (s : PTAState) (si : SccInfo) : Prop where
  graph_s : s.succs = g.succs
  graph_w : s.wstore = g.wstore
  idx_lt : ∀ v ∈ si.visited, si.visited_index v < si.current_index
  idx_inj : ∀ v ∈ si.visited, ∀ w ∈ si.visited, si.visited_index v = si.visited_index w → v = w
  stack_active : ∀ w ∈ si.scc_stack, sccActive si w
  stack_nonself : ∀ w ∈ si.scc_stack, (s.varmap w).node ≠ w
  active_cover : ∀ v, sccActive si v → v ∈ si.scc_stack ∨ v ∈ P
  path_active : ∀ p ∈ P, sccActive si p
  evid : ∀ v ∈ si.visited, sccActive si v →
      (s.varmap v).node = v
      ∨ (zreach g v ((s.varmap v).node) ∧ sccActive si ((s.varmap v).node)
         ∧ si.visited_index ((s.varmap v).node) < si.visited_index v)
  done_mutual : ∀ v ∈ si.visited, ¬ sccActive si v →
      (s.varmap v).node = v ∨ mutualz g v ((s.varmap v).node)

/-- Guarantees of one completed scc_visit call, relating entry and exit. -/
structure SccPost (g : PTAState) (P : Finset Nat) (n : Nat)
    (s : PTAState) (si : SccInfo) (s' : PTAState) (si' : SccInfo) : Prop where
  winv : SccW g P s' si'
  vis_mono : si.visited ⊆ si'.visited
  n_vis : n ∈ si'.visited
  n_idx : si'.visited_index n = si.current_index
  idx_pres : ∀ v ∈ si.visited, si'.visited_index v = si.visited_index v
  ci_mono : si.current_index < si'.current_index
  new_reach : ∀ v ∈ si'.visited, v ∉ si.visited → zreach g n v
  old_status : ∀ v ∈ si.visited, (sccActive si' v ↔ sccActive si v)
  node_chg : ∀ v, (s'.varmap v).node ≠ (s.varmap v).node →
      (v ∈ si'.visited ∧ v ∉ si.visited) ∨ v = n
  stack_tail : ∃ new, si'.scc_stack = new ++ si.scc_stack
      ∧ ∀ w ∈ new, w ∈ si'.visited ∧ w ∉ si.visited
          ∧ si.current_index ≤ si'.visited_index w
          ∧ si'.visited_index ((s'.varmap n).node)
              ≤ si'.visited_index ((s'.varmap w).node)
  n_status : ((s'.varmap n).node = n ∧ ¬ sccActive si' n ∧ si'.scc_stack = si.scc_stack)
      ∨ ((s'.varmap n).node ≠ n ∧ sccActive si' n ∧ si'.scc_stack ≠ si.scc_stack)

theorem zreach_refl (g : PTAState) (a : Nat) : zreach g a a := Relation.ReflTransGen.refl

theorem zreach_single {g : PTAState} {a b : Nat} (h : zstep g a b) : zreach g a b :=
  Relation.ReflTransGen.single h

theorem zreach_trans {g : PTAState} {a b c : Nat} (h1 : zreach g a b) (h2 : zreach g b c) :
    zreach g a c := Relation.ReflTransGen.trans h1 h2

theorem scc_pop_spec (n t : Nat) :
    ∀ (new old : List Nat) (s : PTAState) (si : SccInfo),
      (∀ w ∈ new, t < si.visited_index w) →
      (∀ h tl, old = h :: tl → ¬ t < si.visited_index h) →
      (scc_pop_loop n t s si (new ++ old)).2.scc_stack = old
      ∧ (scc_pop_loop n t s si (new ++ old)).2.visited = si.visited
      ∧ (scc_pop_loop n t s si (new ++ old)).2.current_index = si.current_index
      ∧ (scc_pop_loop n t s si (new ++ old)).2.visited_index = si.visited_index
      ∧ (∀ v, v ∈ (scc_pop_loop n t s si (new ++ old)).2.in_component
          ↔ (v ∈ si.in_component ∨ v ∈ new))
      ∧ (∀ v, (scc_pop_loop n t s si (new ++ old)).1.varmap v
          = if v ∈ new then { s.varmap v with node := n } else s.varmap v) := by
  intro new
  induction new with
  | nil =>
    intro old s si _ hstop
    cases old with
    | nil =>
      refine ⟨rfl, rfl, rfl, rfl, ?_, ?_⟩
      · intro v
        simp [scc_pop_loop]
      · intro v
        simp [scc_pop_loop]
    | cons h tl =>
      rw [List.nil_append]
      unfold scc_pop_loop
      rw [if_neg (hstop h tl rfl)]
      refine ⟨rfl, rfl, rfl, rfl, ?_, ?_⟩
      · intro v
        simp
      · intro v
        simp
  | cons w new' ih =>
    intro old s si hnew hstop
    rw [List.cons_append]
    unfold scc_pop_loop
    rw [if_pos (hnew w (List.mem_cons_self w new'))]
    have hih := ih old (setNode s w n)
      { si with in_component := insert w si.in_component,
                unification_queue := si.unification_queue ++ [w] }
      (fun x hx => hnew x (List.mem_cons_of_mem w hx)) (fun h tl he => hstop h tl he)
    obtain ⟨h1, h2, h3, h4, h5, h6⟩ := hih
    refine ⟨h1, h2, h3, h4, ?_, ?_⟩
    · intro v
      rw [h5 v]
      simp only [Finset.mem_insert, List.mem_cons]
      tauto
    · intro v
      rw [h6 v]
      by_cases hv : v ∈ new'
      · rw [if_pos hv, if_pos (List.mem_cons_of_mem w hv)]
        by_cases hvw : v = w
        · subst hvw
          simp [setNode, setVi, upd]
        · simp [setNode, setVi, upd, hvw]
      · rw [if_neg hv]
        by_cases hvw : v = w
        · subst hvw
          rw [if_pos (List.mem_cons_self v new')]
          simp [setNode, setVi, upd]
        · rw [if_neg (by simp [hvw, hv])]
          simp [setNode, setVi, upd, hvw]

theorem chain_to_root (g : PTAState) (P : Finset Nat) (s1 : PTAState) (si1 : SccInfo)
    (n t : Nat) (new old : List Nat)
    (hW : SccW g P s1 si1)
    (hstack : si1.scc_stack = new ++ old)
    (hnvis : n ∈ si1.visited)
    (hnidx : si1.visited_index n = t)
    (hPidx : ∀ p ∈ P, si1.visited_index p ≤ t)
    (holdidx : ∀ w ∈ old, si1.visited_index w ≤ t)
    (hp7 : ∀ w ∈ new, t ≤ si1.visited_index ((s1.varmap w).node)) :
    ∀ w ∈ new, zreach g w n := by
  have main : ∀ k w, w ∈ new → si1.visited_index w = k → zreach g w n := by
    intro k
    induction k using Nat.strong_induction_on with
    | _ k ihk =>
      intro w hw hk
      have hwstack : w ∈ si1.scc_stack := by
        rw [hstack]
        exact List.mem_append_left _ hw
      have hwact : sccActive si1 w := hW.stack_active w hwstack
      have hwns : (s1.varmap w).node ≠ w := hW.stack_nonself w hwstack
      rcases hW.evid w hwact.1 hwact with he | ⟨hre, hact, hidx⟩
      · exact absurd he hwns
      · have het : t ≤ si1.visited_index ((s1.varmap w).node) := hp7 w hw
        rcases Nat.eq_or_lt_of_le het with heq | hlt
        · have hen : (s1.varmap w).node = n :=
            hW.idx_inj _ hact.1 n hnvis (heq.symm.trans hnidx.symm)
          rw [hen] at hre
          exact hre
        · have henew : (s1.varmap w).node ∈ new := by
            rcases hW.active_cover _ hact with hst | hp
            · rw [hstack] at hst
              rcases List.mem_append.mp hst with h1 | h2
              · exact h1
              · exact absurd hlt (by have := holdidx _ h2; omega)
            · exact absurd hlt (by have := hPidx _ hp; omega)
          have hrec := ihk (si1.visited_index ((s1.varmap w).node))
            (by rw [← hk]; exact hidx) _ henew rfl
          exact zreach_trans hre hrec
  exact fun w hw => main (si1.visited_index w) w hw rfl

/-- Invariant carried along the successor fold inside one scc_visit call
on node n; si is the SccInfo at entry of the call, s its state, and
(sa, sia) the running accumulator. -/
structure FoldInv (g : PTAState) (P : Finset Nat) (n : Nat) (s : PTAState)
    (si : SccInfo) (sa : PTAState) (sia : SccInfo) : Prop where
  winv : SccW g (insert n P) sa sia
  nvis : n ∈ sia.visited
  nact : sccActive sia n
  nidx : sia.visited_index n = si.current_index
  vis_mono : si.visited ⊆ sia.visited
  idx_pres : ∀ v ∈ si.visited, sia.visited_index v = si.visited_index v
  ci_mono : si.current_index < sia.current_index
  new_reach : ∀ v ∈ sia.visited, v ∉ si.visited → zreach g n v
  old_status : ∀ v ∈ si.visited, (sccActive sia v ↔ sccActive si v)
  node_chg : ∀ v, (sa.varmap v).node ≠ (s.varmap v).node →
      (v ∈ sia.visited ∧ v ∉ si.visited) ∨ v = n
  stack_tail : ∃ new, sia.scc_stack = new ++ si.scc_stack
      ∧ ∀ w ∈ new, w ∈ sia.visited ∧ w ∉ si.visited ∧ w ≠ n
          ∧ si.current_index < sia.visited_index w
          ∧ sia.visited_index ((sa.varmap n).node) ≤ sia.visited_index ((sa.varmap w).node)

theorem sccActive_entry (si : SccInfo) (n : Nat) (hnv : n ∉ si.visited) :
    ∀ v, sccActive
        { si with visited := insert n si.visited,
                  in_component := si.in_component.erase n,
                  visited_index := upd si.visited_index n si.current_index,
                  current_index := si.current_index + 1 } v
      ↔ (v = n ∨ sccActive si v) := by
  intro v
  unfold sccActive
  dsimp only
  by_cases hv : v = n
  · subst hv
    simp [hnv]
  · simp only [Finset.mem_insert, Finset.mem_erase]
    constructor
    · rintro ⟨hv1, hv2⟩
      rcases hv1 with h | h
      · exact absurd h hv
      · refine Or.inr ⟨h, ?_⟩
        intro hic
        exact hv2 ⟨hv, hic⟩
    · rintro (h | ⟨h1, h2⟩)
      · exact absurd h hv
      · exact ⟨Or.inr h1, fun hic => h2 hic.2⟩

theorem fold_base (g : PTAState) (P : Finset Nat) (n : Nat) (s : PTAState) (si : SccInfo)
    (hw : SccW g P s si) (hnv : n ∉ si.visited) (hroot : (s.varmap n).node = n) :
    FoldInv g P n s si s
      { si with visited := insert n si.visited,
                in_component := si.in_component.erase n,
                visited_index := upd si.visited_index n si.current_index,
                current_index := si.current_index + 1 } := by
  have hact := sccActive_entry si n hnv
  have hvne : ∀ v ∈ si.visited, v ≠ n := fun v hv hvn => hnv (hvn ▸ hv)
  refine ⟨⟨hw.graph_s, hw.graph_w, ?_, ?_, ?_, ?_, ?_, ?_, ?_, ?_⟩,
    ?_, ?_, ?_, ?_, ?_, ?_, ?_, ?_, ?_, ?_⟩
  · intro v hv
    rcases Finset.mem_insert.mp hv with rfl | hv'
    · show upd si.visited_index v si.current_index v < si.current_index + 1
      rw [upd_same]
      omega
    · show upd si.visited_index n si.current_index v < si.current_index + 1
      rw [upd_other _ _ _ _ (hvne v hv')]
      have := hw.idx_lt v hv'
      omega
  · intro v hv w hw2 heq
    dsimp only at hv hw2 heq
    rcases Finset.mem_insert.mp hv with rfl | hv' <;>
      rcases Finset.mem_insert.mp hw2 with h | hw'
    · exact h.symm
    · rw [upd_same, upd_other _ _ _ _ (hvne w hw')] at heq
      have := hw.idx_lt w hw'
      omega
    · subst h
      rw [upd_same, upd_other _ _ _ _ (hvne v hv')] at heq
      have := hw.idx_lt v hv'
      omega
    · rw [upd_other _ _ _ _ (hvne v hv'), upd_other _ _ _ _ (hvne w hw')] at heq
      exact hw.idx_inj v hv' w hw' heq
  · intro w hws
    rw [hact]
    exact Or.inr (hw.stack_active w hws)
  · exact hw.stack_nonself
  · intro v hv
    rw [hact] at hv
    rcases hv with rfl | hv'
    · exact Or.inr (Finset.mem_insert_self v P)
    · rcases hw.active_cover v hv' with h | h
      · exact Or.inl h
      · exact Or.inr (Finset.mem_insert_of_mem h)
  · intro p hp
    rw [hact]
    rcases Finset.mem_insert.mp hp with rfl | hp'
    · exact Or.inl rfl
    · exact Or.inr (hw.path_active p hp')
  · intro v hv hvact
    rw [hact] at hvact
    rcases hvact with rfl | hv'
    · exact Or.inl hroot
    · have hvn := hvne v hv'.1
      rcases hw.evid v hv'.1 hv' with h | ⟨h1, h2, h3⟩
      · exact Or.inl h
      · refine Or.inr ⟨h1, (hact _).mpr (Or.inr h2), ?_⟩
        show upd si.visited_index n si.current_index _ < upd si.visited_index n si.current_index v
        rw [upd_other _ _ _ _ (hvne _ h2.1), upd_other _ _ _ _ hvn]
        exact h3
  · intro v hv hvact
    rw [hact] at hvact
    push_neg at hvact
    rcases Finset.mem_insert.mp hv with rfl | hv'
    · exact absurd rfl hvact.1
    · exact hw.done_mutual v hv' hvact.2
  · exact Finset.mem_insert_self n _
  · rw [hact]
    exact Or.inl rfl
  · exact upd_same _ _ _
  · exact fun v hv => Finset.mem_insert_of_mem hv
  · intro v hv
    exact upd_other _ _ _ _ (hvne v hv)
  · exact Nat.lt_succ_self _
  · intro v hv hv2
    rcases Finset.mem_insert.mp hv with rfl | hv'
    · exact zreach_refl g v
    · exact absurd hv' hv2
  · intro v hv
    rw [hact]
    constructor
    · rintro (rfl | h)
      · exact absurd hv hnv
      · exact h
    · exact Or.inr
  · intro v hcon
    exact absurd rfl hcon
  · exact ⟨[], rfl, by simp⟩

theorem setNode_node_self (s : PTAState) (i t : Nat) :
    ((setNode s i t).varmap i).node = t := by
  simp [setNode, setVi, upd]

theorem setNode_vm_other (s : PTAState) (i t v : Nat) (h : v ≠ i) :
    (setNode s i t).varmap v = s.varmap v := by
  simp [setNode, setVi, upd, h]

theorem fold_update (g : PTAState) (P : Finset Nat) (n : Nat) (s : PTAState)
    (si : SccInfo) (sa : PTAState) (sia : SccInfo) (w : Nat)
    (hfi : FoldInv g P n s si sa sia)
    (hns : n ∉ si.scc_stack)
    (hwact : sccActive sia w)
    (hznw : zstep g n w)
    (hcond : sia.visited_index ((sa.varmap w).node)
        < sia.visited_index ((sa.varmap n).node)) :
    FoldInv g P n s si (setNode sa n ((sa.varmap w).node)) sia := by
  have hnn : n ∉ sia.scc_stack := by
    obtain ⟨new, hdec, hprops⟩ := hfi.stack_tail
    rw [hdec]
    intro hmem
    rcases List.mem_append.mp hmem with h | h
    · exact (hprops n h).2.2.1 rfl
    · exact hns h
  have hevw := hfi.winv.evid w hwact.1 hwact
  have hreach : zreach g n ((sa.varmap w).node) := by
    rcases hevw with he | ⟨h1, _, _⟩
    · rw [he]
      exact zreach_single hznw
    · exact zreach_trans (zreach_single hznw) h1
  have htact : sccActive sia ((sa.varmap w).node) := by
    rcases hevw with he | ⟨_, h2, _⟩
    · rw [he]
      exact hwact
    · exact h2
  have hnbound : sia.visited_index ((sa.varmap n).node) ≤ si.current_index := by
    rcases hfi.winv.evid n hfi.nvis hfi.nact with he | ⟨_, _, h3⟩
    · rw [he, hfi.nidx]
    · rw [hfi.nidx] at h3
      omega
  have htlt : sia.visited_index ((sa.varmap w).node) < si.current_index := by omega
  have hvm : ∀ v, v ≠ n → (setNode sa n ((sa.varmap w).node)).varmap v = sa.varmap v :=
    fun v hv => setNode_vm_other sa n _ v hv
  have hvn : ((setNode sa n ((sa.varmap w).node)).varmap n).node = (sa.varmap w).node :=
    setNode_node_self sa n _
  refine ⟨⟨hfi.winv.graph_s, hfi.winv.graph_w, hfi.winv.idx_lt, hfi.winv.idx_inj,
      hfi.winv.stack_active, ?_, hfi.winv.active_cover, hfi.winv.path_active, ?_, ?_⟩,
    hfi.nvis, hfi.nact, hfi.nidx, hfi.vis_mono, hfi.idx_pres, hfi.ci_mono,
    hfi.new_reach, hfi.old_status, ?_, ?_⟩
  · intro v hvs
    have hvne : v ≠ n := fun he => hnn (he ▸ hvs)
    rw [hvm v hvne]
    exact hfi.winv.stack_nonself v hvs
  · intro v hv hvact
    by_cases hvne : v = n
    · subst hvne
      rw [hvn]
      refine Or.inr ⟨hreach, htact, ?_⟩
      rw [hfi.nidx]
      exact htlt
    · rw [hvm v hvne]
      exact hfi.winv.evid v hv hvact
  · intro v hv hvact
    have hvne : v ≠ n := fun he => hvact (he ▸ hfi.nact)
    rw [hvm v hvne]
    exact hfi.winv.done_mutual v hv hvact
  · intro v hchg
    by_cases hvne : v = n
    · exact Or.inr hvne
    · rw [hvm v hvne] at hchg
      exact hfi.node_chg v hchg
  · obtain ⟨new, hdec, hprops⟩ := hfi.stack_tail
    refine ⟨new, hdec, ?_⟩
    intro w' hw'
    obtain ⟨p1, p2, p3, p4, p5⟩ := hprops w' hw'
    refine ⟨p1, p2, p3, p4, ?_⟩
    rw [hvm w' p3, hvn]
    omega

theorem fold_child_all (g : PTAState) (P : Finset Nat) (n : Nat) (s : PTAState)
    (si : SccInfo) (sa : PTAState) (sia : SccInfo) (w : Nat)
    (sm : PTAState) (sim : SccInfo) (acc : PTAState × SccInfo)
    (hfi : FoldInv g P n s si sa sia)
    (hns : n ∉ si.scc_stack)
    (hwnv : w ∉ sia.visited)
    (hznw : zstep g n w)
    (hpost : SccPost g (insert n P) w sa sia sm sim)
    (hout : (¬ sccActive sim w ∧ acc = (sm, sim))
      ∨ (sccActive sim w
          ∧ ¬ (sim.visited_index ((sm.varmap w).node)
                < sim.visited_index ((sm.varmap n).node))
          ∧ acc = (sm, sim))
      ∨ (sccActive sim w
          ∧ sim.visited_index ((sm.varmap w).node) < sim.visited_index ((sm.varmap n).node)
          ∧ acc = (setNode sm n ((sm.varmap w).node), sim))) :
    FoldInv g P n s si acc.1 acc.2 := by
  have hnw : n ≠ w := fun he => hwnv (he ▸ hfi.nvis)
  have hnvis_m : n ∈ sim.visited := hpost.vis_mono hfi.nvis
  have hnact_m : sccActive sim n := (hpost.old_status n hfi.nvis).mpr hfi.nact
  have hnidx_m : sim.visited_index n = si.current_index :=
    (hpost.idx_pres n hfi.nvis).trans hfi.nidx
  have hfrozen : ∀ v, v ∈ sia.visited → v ≠ w →
      (sm.varmap v).node = (sa.varmap v).node := by
    intro v hv hvw
    by_contra hchg
    rcases hpost.node_chg v hchg with ⟨_, hnot⟩ | he
    · exact hnot hv
    · exact hvw he
  have hn_frozen : (sm.varmap n).node = (sa.varmap n).node := hfrozen n hfi.nvis hnw
  have hn_tgt_vis : (sa.varmap n).node ∈ sia.visited := by
    rcases hfi.winv.evid n hfi.nvis hfi.nact with he | ⟨_, h2, _⟩
    · rw [he]
      exact hfi.nvis
    · exact h2.1
  have hnbound : sim.visited_index ((sm.varmap n).node) ≤ si.current_index := by
    rw [hn_frozen, hpost.idx_pres _ hn_tgt_vis]
    rcases hfi.winv.evid n hfi.nvis hfi.nact with he | ⟨_, _, h3⟩
    · rw [he, hfi.nidx]
    · rw [hfi.nidx] at h3
      omega
  obtain ⟨new_a, hdeca, hpropsa⟩ := hfi.stack_tail
  obtain ⟨new_c, hdecc, hpropsc⟩ := hpost.stack_tail
  have hdec2 : sim.scc_stack = (new_c ++ new_a) ++ si.scc_stack := by
    rw [hdecc, hdeca, List.append_assoc]
  have hnewa : ∀ w' ∈ new_a, w' ∈ sim.visited ∧ w' ∉ si.visited ∧ w' ≠ n
      ∧ si.current_index < sim.visited_index w'
      ∧ sim.visited_index ((sm.varmap n).node)
          ≤ sim.visited_index ((sm.varmap w').node) := by
    intro w' hw'
    obtain ⟨p1, p2, p3, p4, p5⟩ := hpropsa w' hw'
    have hw'w : w' ≠ w := fun he => hwnv (he ▸ p1)
    have hw'_tgt_vis : (sa.varmap w').node ∈ sia.visited := by
      have hw'act : sccActive sia w' := hfi.winv.stack_active w'
        (by rw [hdeca]; exact List.mem_append_left _ hw')
      rcases hfi.winv.evid w' p1 hw'act with he | ⟨_, h2, _⟩
      · rw [he]
        exact p1
      · exact h2.1
    refine ⟨hpost.vis_mono p1, p2, p3, ?_, ?_⟩
    · rw [hpost.idx_pres w' p1]
      exact p4
    · rw [hn_frozen, hfrozen w' p1 hw'w,
        hpost.idx_pres _ hn_tgt_vis, hpost.idx_pres _ hw'_tgt_vis]
      exact p5
  have hnewc_base : ∀ w' ∈ new_c, w' ∈ sim.visited ∧ w' ∉ si.visited ∧ w' ≠ n
      ∧ si.current_index < sim.visited_index w'
      ∧ sim.visited_index ((sm.varmap w).node)
          ≤ sim.visited_index ((sm.varmap w').node) := by
    intro w' hw'
    obtain ⟨p1, p2, p3, p4⟩ := hpropsc w' hw'
    refine ⟨p1, fun hsi => p2 (hfi.vis_mono hsi), fun he => p2 (he ▸ hfi.nvis), ?_, p4⟩
    have := hfi.ci_mono
    omega
  have hcommon : ∀ (sf : PTAState),
      sf.succs = sm.succs → sf.wstore = sm.wstore →
      (∀ v, v ≠ n → sf.varmap v = sm.varmap v) →
      ((sf.varmap n).node = (sm.varmap n).node
        ∨ (sf.varmap n).node = (sm.varmap w).node ∧ sccActive sim w
            ∧ sim.visited_index ((sm.varmap w).node)
                < sim.visited_index ((sm.varmap n).node)) →
      (∀ w' ∈ new_c ++ new_a,
          sim.visited_index ((sf.varmap n).node)
            ≤ sim.visited_index ((sf.varmap w').node)) →
      FoldInv g P n s si sf sim := by
    intro sf hfs hfw hfv hfn hp7
    have hnstk : n ∉ sim.scc_stack := by
      rw [hdec2]
      intro hmem
      rcases List.mem_append.mp hmem with h1 | h2
      · rcases List.mem_append.mp h1 with ha | hb
        · exact (hpropsc n ha).2.1 hfi.nvis
        · exact (hnewa n hb).2.2.1 rfl
      · exact hns h2
    have hevn : (sf.varmap n).node = n
        ∨ (zreach g n ((sf.varmap n).node) ∧ sccActive sim ((sf.varmap n).node)
            ∧ sim.visited_index ((sf.varmap n).node) < sim.visited_index n) := by
      rcases hfn with he | ⟨he, hwact, hlt⟩
      · rw [he]
        rcases hpost.winv.evid n hnvis_m hnact_m with h | h
        · exact Or.inl h
        · exact Or.inr h
      · rw [he]
        have hwev := hpost.winv.evid w hpost.n_vis hwact
        refine Or.inr ⟨?_, ?_, ?_⟩
        · rcases hwev with hs | ⟨h1, _, _⟩
          · rw [hs]
            exact zreach_single hznw
          · exact zreach_trans (zreach_single hznw) h1
        · rcases hwev with hs | ⟨_, h2, _⟩
          · rw [hs]
            exact hwact
          · exact h2
        · omega
    refine ⟨⟨hfs.trans hpost.winv.graph_s, hfw.trans hpost.winv.graph_w, hpost.winv.idx_lt,
        hpost.winv.idx_inj, hpost.winv.stack_active, ?_, hpost.winv.active_cover,
        hpost.winv.path_active, ?_, ?_⟩,
      hnvis_m, hnact_m, hnidx_m, hfi.vis_mono.trans hpost.vis_mono, ?_, ?_, ?_, ?_, ?_, ?_⟩
    · intro v hvs
      have hvn : v ≠ n := fun he => hnstk (he ▸ hvs)
      rw [hfv v hvn]
      exact hpost.winv.stack_nonself v hvs
    · intro v hv hvact
      by_cases hvn : v = n
      · subst hvn
        rcases hevn with he | hev
        · exact Or.inl he
        · exact Or.inr hev
      · rw [hfv v hvn]
        exact hpost.winv.evid v hv hvact
    · intro v hv hvact
      have hvn : v ≠ n := fun he => hvact (he ▸ hnact_m)
      rw [hfv v hvn]
      exact hpost.winv.done_mutual v hv hvact
    · intro v hv
      rw [hpost.idx_pres v (hfi.vis_mono hv)]
      exact hfi.idx_pres v hv
    · exact Nat.lt_trans hfi.ci_mono hpost.ci_mono
    · intro v hv hv2
      by_cases hvia : v ∈ sia.visited
      · exact hfi.new_reach v hvia hv2
      · exact zreach_trans (zreach_single hznw) (hpost.new_reach v hv hvia)
    · intro v hv
      exact (hpost.old_status v (hfi.vis_mono hv)).trans (hfi.old_status v hv)
    · intro v hchg
      by_cases hvn : v = n
      · exact Or.inr hvn
      · rw [hfv v hvn] at hchg
        by_cases hchg2 : (sm.varmap v).node ≠ (sa.varmap v).node
        · rcases hpost.node_chg v hchg2 with ⟨h1, h2⟩ | he
          · exact Or.inl ⟨h1, fun hsi => h2 (hfi.vis_mono hsi)⟩
          · subst he
            exact Or.inl ⟨hpost.n_vis, fun hsi => hwnv (hfi.vis_mono hsi)⟩
        · push_neg at hchg2
          rw [hchg2] at hchg
          rcases hfi.node_chg v hchg with ⟨h1, h2⟩ | he
          · exact Or.inl ⟨hpost.vis_mono h1, h2⟩
          · exact Or.inr he
    · refine ⟨new_c ++ new_a, hdec2, ?_⟩
      intro w' hw'
      have hw'n : w' ≠ n := by
        rcases List.mem_append.mp hw' with ha | hb
        · exact (hnewc_base w' ha).2.2.1
        · exact (hnewa w' hb).2.2.1
      have hbase : w' ∈ sim.visited ∧ w' ∉ si.visited
          ∧ si.current_index < sim.visited_index w' := by
        rcases List.mem_append.mp hw' with ha | hb
        · obtain ⟨q1, q2, _, q4, _⟩ := hnewc_base w' ha
          exact ⟨q1, q2, q4⟩
        · obtain ⟨q1, q2, _, q4, _⟩ := hnewa w' hb
          exact ⟨q1, q2, q4⟩
      refine ⟨hbase.1, hbase.2.1, hw'n, hbase.2.2, ?_⟩
      have := hp7 w' hw'
      rw [hfv w' hw'n]
      rw [hfv w' hw'n] at this
      exact this
  rcases hout with ⟨hwdone, hacc⟩ | ⟨hwact, hnoimp, hacc⟩ | ⟨hwact, himp, hacc⟩
  · subst hacc
    have hnewc_nil : new_c = [] := by
      rcases hpost.n_status with ⟨_, _, hstk⟩ | ⟨_, hact, _⟩
      · rw [hstk] at hdecc
        have : new_c.length + sia.scc_stack.length = sia.scc_stack.length := by
          rw [← List.length_append, ← hdecc]
        rw [← List.length_eq_zero]
        omega
      · exact absurd hact hwdone
    refine hcommon sm rfl rfl (fun v _ => rfl) (Or.inl rfl) ?_
    intro w' hw'
    rcases List.mem_append.mp hw' with ha | hb
    · rw [hnewc_nil] at ha
      cases ha
    · exact (hnewa w' hb).2.2.2.2
  · subst hacc
    refine hcommon sm rfl rfl (fun v _ => rfl) (Or.inl rfl) ?_
    intro w' hw'
    rcases List.mem_append.mp hw' with ha | hb
    · have := (hnewc_base w' ha).2.2.2.2
      omega
    · exact (hnewa w' hb).2.2.2.2
  · subst hacc
    refine hcommon (setNode sm n ((sm.varmap w).node)) rfl rfl
      (fun v hv => setNode_vm_other sm n _ v hv)
      (Or.inr ⟨setNode_node_self sm n _, hwact, himp⟩) ?_
    intro w' hw'
    have hw'n : w' ≠ n := by
      rcases List.mem_append.mp hw' with ha | hb
      · exact (hnewc_base w' ha).2.2.1
      · exact (hnewa w' hb).2.2.1
    rw [show ((setNode sm n ((sm.varmap w).node)).varmap n).node = (sm.varmap w).node
        from setNode_node_self sm n _,
      setNode_vm_other sm n _ w' hw'n]
    rcases List.mem_append.mp hw' with ha | hb
    · exact (hnewc_base w' ha).2.2.2.2
    · have := (hnewa w' hb).2.2.2.2
      omega

theorem foldlM_option_pred {α β : Type} (step : α → β → Option α) (Q : α → Prop) :
    ∀ (l : List β), (∀ a, Q a → ∀ b ∈ l, ∀ a2, step a b = some a2 → Q a2) →
    ∀ a a2, Q a → l.foldlM step a = some a2 → Q a2 := by
  intro l
  induction l with
  | nil =>
    intro _ a a2 hQ h
    simp only [List.foldlM_nil, pure, Option.some.injEq] at h
    rw [← h]
    exact hQ
  | cons x xs ih =>
    intro hstep a a2 hQ h
    rw [List.foldlM_cons] at h
    cases hs : step a x with
    | none => rw [hs] at h; cases h
    | some mid =>
      rw [hs] at h
      simp only [Option.bind_eq_bind, Option.some_bind] at h
      exact ih (fun a ha b hb => hstep a ha b (List.mem_cons_of_mem x hb))
        mid a2 (hstep a hQ x (List.mem_cons_self x xs) mid hs) h

theorem scc_fold_step (g : PTAState) (fuel : Nat) (P : Finset Nat) (n : Nat)
    (s : PTAState) (si : SccInfo)
    (IH : ∀ (Q : Finset Nat) (sx : PTAState) (six : SccInfo) (m : Nat)
        (sy : PTAState) (siy : SccInfo),
      SccW g Q sx six → m ∉ six.visited →
      scc_visit fuel sx six m = some (sy, siy) →
      SccPost g Q m sx six sy siy)
    (hns : n ∉ si.scc_stack)
    (c : CEdge) (hc : c ∈ g.succs n)
    (sa : PTAState) (sia : SccInfo) (sm : PTAState) (sim : SccInfo)
    (hfi : FoldInv g P n s si sa sia)
    (hstep : (fun (p : PTAState × SccInfo) (c : CEdge) => do
        let (s, si) := p
        if 0 ∈ s.wstore c.wref then do
          let w := c.dest
          let (s, si) ←
            if w ∉ si.visited then scc_visit fuel s si w else pure (s, si)
          if w ∉ si.in_component then
            let t := (s.varmap w).node
            let nnode := (s.varmap n).node
            if si.visited_index t < si.visited_index nnode then
              pure (setNode s n t, si)
            else pure (s, si)
          else pure (s, si)
        else pure (s, si)) (sa, sia) c = some (sm, sim)) :
    FoldInv g P n s si sm sim := by
  have hstep2 : (if 0 ∈ sa.wstore c.wref then
      (if c.dest ∉ sia.visited then
        scc_visit fuel sa sia c.dest >>= fun q =>
          if c.dest ∉ q.2.in_component then
            if q.2.visited_index ((q.1.varmap c.dest).node)
                < q.2.visited_index ((q.1.varmap n).node) then
              pure (setNode q.1 n ((q.1.varmap c.dest).node), q.2)
            else pure (q.1, q.2)
          else pure (q.1, q.2)
      else pure (sa, sia) >>= fun q =>
          if c.dest ∉ q.2.in_component then
            if q.2.visited_index ((q.1.varmap c.dest).node)
                < q.2.visited_index ((q.1.varmap n).node) then
              pure (setNode q.1 n ((q.1.varmap c.dest).node), q.2)
            else pure (q.1, q.2)
          else pure (q.1, q.2))
    else pure (sa, sia)) = some (sm, sim) := hstep
  by_cases h0 : 0 ∈ sa.wstore c.wref
  · rw [if_pos h0] at hstep2
    have hz : zstep g n c.dest :=
      ⟨c, hc, rfl, by rw [← hfi.winv.graph_w]; exact h0⟩
    by_cases hv : c.dest ∉ sia.visited
    · rw [if_pos hv] at hstep2
      rw [Option.bind_eq_bind, Option.bind_eq_some] at hstep2
      obtain ⟨q, hrec, hbr⟩ := hstep2
      obtain ⟨s2, si2⟩ := q
      have hpost := IH (insert n P) sa sia c.dest s2 si2 hfi.winv hv hrec
      dsimp only at hbr
      by_cases hic : c.dest ∉ si2.in_component
      · rw [if_pos hic] at hbr
        have hact2 : sccActive si2 c.dest := ⟨hpost.n_vis, hic⟩
        by_cases hlt : si2.visited_index ((s2.varmap c.dest).node)
            < si2.visited_index ((s2.varmap n).node)
        · rw [if_pos hlt] at hbr
          simp only [pure, Option.some.injEq, Prod.mk.injEq] at hbr
          obtain ⟨he1, he2⟩ := hbr
          have := fold_child_all g P n s si sa sia c.dest s2 si2
            (setNode s2 n ((s2.varmap c.dest).node), si2)
            hfi hns hv hz hpost (Or.inr (Or.inr ⟨hact2, hlt, rfl⟩))
          rw [← he1, ← he2]
          exact this
        · rw [if_neg hlt] at hbr
          simp only [pure, Option.some.injEq, Prod.mk.injEq] at hbr
          obtain ⟨he1, he2⟩ := hbr
          have := fold_child_all g P n s si sa sia c.dest s2 si2 (s2, si2)
            hfi hns hv hz hpost (Or.inr (Or.inl ⟨hact2, hlt, rfl⟩))
          rw [← he1, ← he2]
          exact this
      · rw [if_neg hic] at hbr
        simp only [pure, Option.some.injEq, Prod.mk.injEq] at hbr
        obtain ⟨he1, he2⟩ := hbr
        have hnotact : ¬ sccActive si2 c.dest := by
          push_neg at hic
          exact fun ha => ha.2 hic
        have := fold_child_all g P n s si sa sia c.dest s2 si2 (s2, si2)
          hfi hns hv hz hpost (Or.inl ⟨hnotact, rfl⟩)
        rw [← he1, ← he2]
        exact this
    · rw [if_neg hv] at hstep2
      have hvis : c.dest ∈ sia.visited := not_not.mp hv
      simp only [Option.bind_eq_bind, pure, Option.some_bind] at hstep2
      by_cases hic : c.dest ∉ sia.in_component
      · rw [if_pos hic] at hstep2
        have hact : sccActive sia c.dest := ⟨hvis, hic⟩
        by_cases hlt : sia.visited_index ((sa.varmap c.dest).node)
            < sia.visited_index ((sa.varmap n).node)
        · rw [if_pos hlt] at hstep2
          simp only [pure, Option.some.injEq, Prod.mk.injEq] at hstep2
          obtain ⟨he1, he2⟩ := hstep2
          rw [← he1, ← he2]
          exact fold_update g P n s si sa sia c.dest hfi hns hact hz hlt
        · rw [if_neg hlt] at hstep2
          simp only [pure, Option.some.injEq, Prod.mk.injEq] at hstep2
          obtain ⟨he1, he2⟩ := hstep2
          rw [← he1, ← he2]
          exact hfi
      · rw [if_neg hic] at hstep2
        simp only [pure, Option.some.injEq, Prod.mk.injEq] at hstep2
        obtain ⟨he1, he2⟩ := hstep2
        rw [← he1, ← he2]
        exact hfi
  · rw [if_neg h0] at hstep2
    simp only [pure, Option.some.injEq, Prod.mk.injEq] at hstep2
    obtain ⟨he1, he2⟩ := hstep2
    rw [← he1, ← he2]
    exact hfi

theorem post_push (g : PTAState) (P : Finset Nat) (n : Nat) (s : PTAState)
    (si : SccInfo) (s1 : PTAState) (si1 : SccInfo)
    (hfm : FoldInv g P n s si s1 si1)
    (hnv : n ∉ si.visited)
    (hnr : (s1.varmap n).node ≠ n) :
    SccPost g P n s si s1 { si1 with scc_stack := n :: si1.scc_stack } := by
  obtain ⟨new_f, hdec, hprops⟩ := hfm.stack_tail
  have hactn : ∀ v, sccActive { si1 with scc_stack := n :: si1.scc_stack } v
      ↔ sccActive si1 v := by
    intro v
    unfold sccActive
    exact Iff.rfl
  refine ⟨⟨hfm.winv.graph_s, hfm.winv.graph_w, hfm.winv.idx_lt, hfm.winv.idx_inj,
      ?_, ?_, ?_, ?_, ?_, ?_⟩,
    hfm.vis_mono, hfm.nvis, hfm.nidx, hfm.idx_pres, hfm.ci_mono,
    hfm.new_reach, ?_, hfm.node_chg, ?_, ?_⟩
  · intro w hw
    rw [hactn]
    rcases List.mem_cons.mp hw with rfl | hw'
    · exact hfm.nact
    · exact hfm.winv.stack_active w hw'
  · intro w hw
    rcases List.mem_cons.mp hw with rfl | hw'
    · exact hnr
    · exact hfm.winv.stack_nonself w hw'
  · intro v hv
    rw [hactn] at hv
    rcases hfm.winv.active_cover v hv with hst | hp
    · exact Or.inl (List.mem_cons_of_mem n hst)
    · rcases Finset.mem_insert.mp hp with rfl | hp'
      · exact Or.inl (List.mem_cons_self v _)
      · exact Or.inr hp'
  · intro p hp
    rw [hactn]
    exact hfm.winv.path_active p (Finset.mem_insert_of_mem hp)
  · intro v hv hvact
    rw [hactn] at hvact
    rcases hfm.winv.evid v hv hvact with h | ⟨h1, h2, h3⟩
    · exact Or.inl h
    · exact Or.inr ⟨h1, (hactn _).mpr h2, h3⟩
  · intro v hv hvact
    rw [hactn] at hvact
    exact hfm.winv.done_mutual v hv hvact
  · intro v hv
    rw [hactn]
    exact hfm.old_status v hv
  · refine ⟨n :: new_f, by simp [hdec], ?_⟩
    intro w hw
    dsimp only
    rcases List.mem_cons.mp hw with rfl | hw'
    · exact ⟨hfm.nvis, hnv, by rw [hfm.nidx], le_refl _⟩
    · obtain ⟨p1, p2, _, p4, p5⟩ := hprops w hw'
      exact ⟨p1, p2, by omega, p5⟩
  · refine Or.inr ⟨hnr, (hactn n).mpr hfm.nact, ?_⟩
    intro he
    have hlen := congrArg List.length he
    dsimp only at hlen
    rw [List.length_cons, hdec, List.length_append] at hlen
    omega

theorem post_pop (g : PTAState) (P : Finset Nat) (n : Nat) (s : PTAState)
    (si : SccInfo) (s1 : PTAState) (si1 : SccInfo)
    (hw : SccW g P s si)
    (hfm : FoldInv g P n s si s1 si1)
    (hns : n ∉ si.scc_stack)
    (hnv : n ∉ si.visited)
    (hnP : n ∉ P)
    (hroot : (s1.varmap n).node = n) :
    SccPost g P n s si
      (scc_pop_loop n (si1.visited_index n) s1
        { si1 with in_component := insert n si1.in_component } si1.scc_stack).1
      (scc_pop_loop n (si1.visited_index n) s1
        { si1 with in_component := insert n si1.in_component } si1.scc_stack).2 := by
  obtain ⟨new_f, hdec, hprops⟩ := hfm.stack_tail
  have htci : si1.visited_index n = si.current_index := hfm.nidx
  have hpopeq := congrArg
    (scc_pop_loop n (si1.visited_index n) s1
      { si1 with in_component := insert n si1.in_component }) hdec
  rw [hpopeq]
  have hsivis : ∀ v ∈ si.visited, si1.visited_index v < si1.visited_index n := by
    intro v hv
    rw [hfm.idx_pres v hv, htci]
    exact hw.idx_lt v hv
  have hspec := scc_pop_spec n (si1.visited_index n) new_f si.scc_stack s1
    { si1 with in_component := insert n si1.in_component }
    (fun w hw' => (hprops w hw').2.2.2.1.trans_eq' htci)
    (fun h tl he => by
      have hh : h ∈ si.scc_stack := by rw [he]; exact List.mem_cons_self h tl
      have h2 := hsivis h (hw.stack_active h hh).1
      show ¬ si1.visited_index n < si1.visited_index h
      omega)
  obtain ⟨e1, e2, e3, e4, e5, e6⟩ := hspec
  have e2' : (scc_pop_loop n (si1.visited_index n) s1
      { si1 with in_component := insert n si1.in_component }
      (new_f ++ si.scc_stack)).2.visited = si1.visited := e2
  have e3' : (scc_pop_loop n (si1.visited_index n) s1
      { si1 with in_component := insert n si1.in_component }
      (new_f ++ si.scc_stack)).2.current_index = si1.current_index := e3
  have e4' : (scc_pop_loop n (si1.visited_index n) s1
      { si1 with in_component := insert n si1.in_component }
      (new_f ++ si.scc_stack)).2.visited_index = si1.visited_index := e4
  have hnnf : n ∉ new_f := fun h => (hprops n h).2.2.1 rfl
  have hvmn : (scc_pop_loop n (si1.visited_index n) s1
      { si1 with in_component := insert n si1.in_component }
      (new_f ++ si.scc_stack)).1.varmap n = s1.varmap n := by
    rw [e6 n, if_neg hnnf]
  have hnfvis : ∀ w ∈ new_f, w ∉ si.visited := fun w hw' => (hprops w hw').2.1
  have hactL : ∀ v, sccActive (scc_pop_loop n (si1.visited_index n) s1
      { si1 with in_component := insert n si1.in_component }
      (new_f ++ si.scc_stack)).2 v
      ↔ (sccActive si1 v ∧ v ≠ n ∧ v ∉ new_f) := by
    intro v
    unfold sccActive
    rw [e2']
    constructor
    · rintro ⟨h1, h2⟩
      rw [e5 v] at h2
      push_neg at h2
      have h3 : v ∉ (insert n si1.in_component : Finset Nat) := h2.1
      rw [Finset.mem_insert] at h3
      push_neg at h3
      exact ⟨⟨h1, h3.2⟩, h3.1, h2.2⟩
    · rintro ⟨⟨h1, h2⟩, h3, h4⟩
      refine ⟨h1, ?_⟩
      rw [e5 v]
      push_neg
      refine ⟨?_, h4⟩
      show v ∉ (insert n si1.in_component : Finset Nat)
      rw [Finset.mem_insert]
      push_neg
      exact ⟨h3, h2⟩
  have hreach_n : ∀ w ∈ new_f, zreach g n w :=
    fun w hw' => hfm.new_reach w (hprops w hw').1 (hprops w hw').2.1
  have hreach_back : ∀ w ∈ new_f, zreach g w n := by
    refine chain_to_root g (insert n P) s1 si1 n (si1.visited_index n) new_f si.scc_stack
      hfm.winv hdec hfm.nvis rfl ?_ ?_ ?_
    · intro p hp
      rcases Finset.mem_insert.mp hp with rfl | hp'
      · exact le_refl _
      · exact le_of_lt (hsivis p (hw.path_active p hp').1)
    · intro w hw'
      exact le_of_lt (hsivis w (hw.stack_active w hw').1)
    · intro w hw'
      have := (hprops w hw').2.2.2.2
      rw [hroot] at this
      exact this
  have hidx_small : ∀ v, sccActive si1 v → v ≠ n → v ∉ new_f →
      si1.visited_index v < si1.visited_index n := by
    intro v hact hvn hvnf
    rcases hfm.winv.active_cover v hact with hst | hp
    · rw [hdec] at hst
      rcases List.mem_append.mp hst with h1 | h2
      · exact absurd h1 hvnf
      · exact hsivis v (hw.stack_active v h2).1
    · rcases Finset.mem_insert.mp hp with rfl | hp'
      · exact absurd rfl hvn
      · exact hsivis v (hw.path_active v hp').1
  have hnstk1 : n ∉ si1.scc_stack := by
    rw [hdec]
    intro hmem
    rcases List.mem_append.mp hmem with h | h
    · exact hnnf h
    · exact hns h
  refine ⟨⟨?_, ?_, ?_, ?_, ?_, ?_, ?_, ?_, ?_, ?_⟩,
    ?_, ?_, ?_, ?_, ?_, ?_, ?_, ?_, ?_, ?_⟩
  · exact (scc_pop_loop_graph n (si1.visited_index n) (new_f ++ si.scc_stack) s1
      { si1 with in_component := insert n si1.in_component }).1.trans hfm.winv.graph_s
  · exact (scc_pop_loop_graph n (si1.visited_index n) (new_f ++ si.scc_stack) s1
      { si1 with in_component := insert n si1.in_component }).2.2.1.trans hfm.winv.graph_w
  · intro v hv
    rw [e2'] at hv
    rw [e3', e4']
    exact hfm.winv.idx_lt v hv
  · intro v hv w2 hw2 heq
    rw [e2'] at hv hw2
    rw [e4'] at heq
    exact hfm.winv.idx_inj v hv w2 hw2 heq
  · intro w2 hw2
    rw [e1] at hw2
    rw [hactL]
    refine ⟨(hfm.old_status w2 (hw.stack_active w2 hw2).1).mpr (hw.stack_active w2 hw2), ?_, ?_⟩
    · exact fun he => hns (he ▸ hw2)
    · exact fun hnf => hnfvis w2 hnf (hw.stack_active w2 hw2).1
  · intro w2 hw2
    rw [e1] at hw2
    have hw2nf : w2 ∉ new_f := fun hnf => hnfvis w2 hnf (hw.stack_active w2 hw2).1
    rw [e6 w2, if_neg hw2nf]
    exact hfm.winv.stack_nonself w2 (by rw [hdec]; exact List.mem_append_right _ hw2)
  · intro v hv
    rw [hactL] at hv
    obtain ⟨h1, h2, h3⟩ := hv
    rw [e1]
    rcases hfm.winv.active_cover v h1 with hst | hp
    · rw [hdec] at hst
      rcases List.mem_append.mp hst with ha | hb
      · exact absurd ha h3
      · exact Or.inl hb
    · rcases Finset.mem_insert.mp hp with rfl | hp'
      · exact absurd rfl h2
      · exact Or.inr hp'
  · intro p hp
    rw [hactL]
    refine ⟨hfm.winv.path_active p (Finset.mem_insert_of_mem hp), ?_, ?_⟩
    · exact fun he => hnP (he ▸ hp)
    · exact fun hnf => hnfvis p hnf (hw.path_active p hp).1
  · intro v hv hvact
    rw [e2'] at hv
    rw [hactL] at hvact
    obtain ⟨h1, h2, h3⟩ := hvact
    rw [e6 v, if_neg h3, e4']
    rcases hfm.winv.evid v hv h1 with he | ⟨hre, hact1, hidx⟩
    · exact Or.inl he
    · have hvlt : si1.visited_index v < si1.visited_index n := hidx_small v h1 h2 h3
      have htgt_lt : si1.visited_index ((s1.varmap v).node) < si1.visited_index n := by omega
      have htn : (s1.varmap v).node ≠ n := fun he2 => by rw [he2] at htgt_lt; omega
      have htnf : (s1.varmap v).node ∉ new_f := by
        intro hnf
        have := (hprops _ hnf).2.2.2.1
        rw [htci] at htgt_lt
        omega
      refine Or.inr ⟨hre, ?_, hidx⟩
      rw [hactL]
      exact ⟨hact1, htn, htnf⟩
  · intro v hv hvact
    rw [e2'] at hv
    rw [hactL] at hvact
    push_neg at hvact
    by_cases hvnf : v ∈ new_f
    · rw [e6 v, if_pos hvnf]
      exact Or.inr ⟨hreach_back v hvnf, hreach_n v hvnf⟩
    · rw [e6 v, if_neg hvnf]
      by_cases hvn : v = n
      · subst hvn
        exact Or.inl hroot
      · have hnact1 : ¬ sccActive si1 v := fun h => hvnf (hvact h hvn)
        exact hfm.winv.done_mutual v hv hnact1
  · intro v hv
    rw [e2']
    exact hfm.vis_mono hv
  · rw [e2']
    exact hfm.nvis
  · rw [e4']
    exact hfm.nidx
  · intro v hv
    rw [e4']
    exact hfm.idx_pres v hv
  · rw [e3']
    exact hfm.ci_mono
  · intro v hv hv2
    rw [e2'] at hv
    exact hfm.new_reach v hv hv2
  · intro v hv
    rw [hactL]
    constructor
    · rintro ⟨h1, _, _⟩
      exact (hfm.old_status v hv).mp h1
    · intro h
      refine ⟨(hfm.old_status v hv).mpr h, ?_, ?_⟩
      · exact fun he => hnv (he ▸ hv)
      · exact fun hnf => hnfvis v hnf hv
  · intro v hchg
    by_cases hvnf : v ∈ new_f
    · exact Or.inl ⟨by rw [e2']; exact (hprops v hvnf).1, (hprops v hvnf).2.1⟩
    · rw [e6 v, if_neg hvnf] at hchg
      rcases hfm.node_chg v hchg with ⟨h1, h2⟩ | he
      · exact Or.inl ⟨by rw [e2']; exact h1, h2⟩
      · exact Or.inr he
  · refine ⟨[], by rw [e1]; rfl, ?_⟩
    intro w2 hw2
    cases hw2
  · refine Or.inl ⟨by rw [hvmn]; exact hroot, ?_, e1⟩
    intro hact
    rw [hactL] at hact
    exact hact.2.1 rfl

theorem scc_visit_sound (g : PTAState) : ∀ (fuel : Nat) (Q : Finset Nat) (sx : PTAState)
    (six : SccInfo) (m : Nat) (sy : PTAState) (siy : SccInfo),
    SccW g Q sx six → m ∉ six.visited →
    scc_visit fuel sx six m = some (sy, siy) →
    SccPost g Q m sx six sy siy := by
  intro fuel
  induction fuel with
  | zero =>
    intro Q sx six m sy siy _ _ h
    cases h
  | succ f ih =>
    intro Q sx six m sy siy hw hmv h
    unfold scc_visit at h
    split at h
    · cases h
    · rename_i hroot0
      have hroot : (sx.varmap m).node = m := not_not.mp hroot0
      dsimp only at h
      rw [Option.bind_eq_bind, Option.bind_eq_some] at h
      obtain ⟨q, hfold, hlast⟩ := h
      obtain ⟨s1, si1⟩ := q
      dsimp only at hlast
      have hmstk : m ∉ six.scc_stack := fun hstk => hmv (hw.stack_active m hstk).1
      have hmQ : m ∉ Q := fun hq => hmv (hw.path_active m hq).1
      have hedges : ∀ c ∈ sx.succs m, c ∈ g.succs m := by
        rw [hw.graph_s]
        exact fun c hc => hc
      have hbase := fold_base g Q m sx six hw hmv hroot
      have hfinv : FoldInv g Q m sx six s1 si1 :=
        foldlM_option_pred _
          (fun p : PTAState × SccInfo => FoldInv g Q m sx six p.1 p.2) (sx.succs m)
          (fun a ha c hc a2 hs => scc_fold_step g f Q m sx six ih hmstk c (hedges c hc)
            a.1 a.2 a2.1 a2.2 ha hs)
          (sx, _) (s1, si1) hbase hfold
      by_cases hr1 : (s1.varmap m).node = m
      · rw [if_pos hr1] at hlast
        simp only [pure, Option.some.injEq] at hlast
        have h1 := congrArg Prod.fst hlast
        have h2 := congrArg Prod.snd hlast
        dsimp only at h1 h2
        rw [← h1, ← h2]
        exact post_pop g Q m sx six s1 si1 hw hfinv hmstk hmv hmQ hr1
      · rw [if_neg hr1] at hlast
        simp only [pure, Option.some.injEq, Prod.mk.injEq] at hlast
        obtain ⟨he1, he2⟩ := hlast
        rw [← he1, ← he2]
        exact post_push g Q m sx six s1 si1 hfinv hmv hr1

theorem mutualz_refl (g : PTAState) (a : Nat) : mutualz g a a :=
  ⟨zreach_refl g a, zreach_refl g a⟩

theorem mutualz_symm {g : PTAState} {a b : Nat} (h : mutualz g a b) : mutualz g b a :=
  ⟨h.2, h.1⟩

theorem mutualz_trans {g : PTAState} {a b c : Nat} (h1 : mutualz g a b)
    (h2 : mutualz g b c) : mutualz g a c :=
  ⟨zreach_trans h1.1 h2.1, zreach_trans h2.2 h1.2⟩

theorem detect_fold_sound (g : PTAState) (s1 : PTAState) (si1 : SccInfo)
    (hfold : (List.range g.nvars).foldlM
      (fun (p : PTAState × SccInfo) i =>
        let (s, si) := p
        if i ∉ si.visited ∧ (s.varmap i).node = i then scc_visit (g.nvars + 1) s si i
        else pure (s, si))
      (g, init_scc_info g.nvars) = some (s1, si1)) :
    SccW g ∅ s1 si1 ∧ si1.scc_stack = []
    ∧ ∀ v, (s1.varmap v).node ≠ (g.varmap v).node → mutualz g v ((s1.varmap v).node) := by
  have hbase : SccW g ∅ g (init_scc_info g.nvars)
      ∧ (init_scc_info g.nvars).scc_stack = []
      ∧ ∀ v, (g.varmap v).node ≠ (g.varmap v).node →
          mutualz g v ((g.varmap v).node) := by
    refine ⟨⟨rfl, rfl, ?_, ?_, ?_, ?_, ?_, ?_, ?_, ?_⟩, rfl, ?_⟩
    · intro v hv
      simp [init_scc_info] at hv
    · intro v hv
      simp [init_scc_info] at hv
    · intro w hw
      simp [init_scc_info] at hw
    · intro w hw
      simp [init_scc_info] at hw
    · intro v hv
      obtain ⟨h1, _⟩ := hv
      simp [init_scc_info] at h1
    · intro p hp
      exact absurd hp (Finset.not_mem_empty p)
    · intro v hv
      simp [init_scc_info] at hv
    · intro v hv
      simp [init_scc_info] at hv
    · intro v hv
      exact absurd rfl hv
  refine foldlM_option_pred _
    (fun p : PTAState × SccInfo => SccW g ∅ p.1 p.2 ∧ p.2.scc_stack = []
      ∧ ∀ v, (p.1.varmap v).node ≠ (g.varmap v).node → mutualz g v ((p.1.varmap v).node))
    (List.range g.nvars) ?_ (g, init_scc_info g.nvars) (s1, si1) hbase hfold
  intro a ha i hi a2 hs
  obtain ⟨sa, sia⟩ := a
  obtain ⟨sy, siy⟩ := a2
  obtain ⟨hW, hstk0, hmz⟩ := ha
  dsimp only at hs
  split at hs
  · rename_i hcond
    have hpost := scc_visit_sound g (g.nvars + 1) ∅ sa sia i sy siy hW hcond.1 hs
    have hstk' : siy.scc_stack = [] := by
      rcases hpost.n_status with ⟨_, _, he⟩ | ⟨hne, hact, _⟩
      · rw [he, hstk0]
      · exfalso
        rcases hpost.winv.evid i hpost.n_vis hact with he2 | ⟨_, hact2, hidx⟩
        · exact hne he2
        · rcases hpost.winv.active_cover _ hact2 with hin | hin
          · obtain ⟨new, hdec, hprops⟩ := hpost.stack_tail
            rw [hdec, hstk0, List.append_nil] at hin
            have := (hprops _ hin).2.2.1
            rw [hpost.n_idx] at hidx
            omega
          · exact absurd hin (Finset.not_mem_empty _)
    have hnoact : ∀ v, ¬ sccActive siy v := by
      intro v hv
      rcases hpost.winv.active_cover v hv with hin | hin
      · rw [hstk'] at hin
        cases hin
      · exact absurd hin (Finset.not_mem_empty _)
    refine ⟨hpost.winv, hstk', ?_⟩
    intro v hvchg
    by_cases hch : (sy.varmap v).node = (sa.varmap v).node
    · rw [hch]
      rw [hch] at hvchg
      exact hmz v hvchg
    · have hvvis : v ∈ siy.visited := by
        rcases hpost.node_chg v hch with ⟨h1, _⟩ | he
        · exact h1
        · rw [he]
          exact hpost.n_vis
      rcases hpost.winv.done_mutual v hvvis (hnoact v) with he | hmzv
      · rw [he]
        exact mutualz_refl g v
      · exact hmzv
  · simp only [pure, Option.some.injEq, Prod.mk.injEq] at hs
    obtain ⟨h1, h2⟩ := hs
    rw [← h1, ← h2]
    exact ⟨hW, hstk0, hmz⟩

/-- C4: cycle detection inspects only successor edges whose weights bitmap
has the zero-weight bit set: deleting every other edge (zero_succ_filter)
leaves the representatives and the scc bookkeeping of scc_visit unchanged.
Consequently, inside find_and_collapse_graph_cycles the detection fold
assigns two entry representatives the same representative only when they lie
on a common cycle made entirely of zero-weight edges (mutualz), and when no
successor edge carries the zero weight the whole operation leaves every
variable record unchanged, so no two nodes are collapsed. -/
theorem cycle_detection_zero_weight_soundness (g : PTAState) :
    (∀ (fuel : Nat) (si : SccInfo) (n : Nat),
      Option.map (fun (p : PTAState × SccInfo) => (p.1.varmap, p.2)) (scc_visit fuel g si n)
        = Option.map (fun (p : PTAState × SccInfo) => (p.1.varmap, p.2))
            (scc_visit fuel (zero_succ_filter g) si n))
    ∧ (∀ (u : Bool) (s2 : PTAState), find_and_collapse_graph_cycles g u = some s2 →
        ∃ s1 si1,
          (List.range g.nvars).foldlM
            (fun (p : PTAState × SccInfo) i =>
              let (s, si) := p
              if i ∉ si.visited ∧ (s.varmap i).node = i then scc_visit (g.nvars + 1) s si i
              else pure (s, si))
            (g, init_scc_info g.nvars) = some (s1, si1)
          ∧ process_unification_queue s1 si1.unification_queue u = some s2
          ∧ ∀ a b, (g.varmap a).node = a → (g.varmap b).node = b →
              (s1.varmap a).node = (s1.varmap b).node → mutualz g a b)
    ∧ (∀ (u : Bool) (s2 : PTAState),
        (∀ m, ∀ c ∈ g.succs m, 0 ∉ g.wstore c.wref) →
        find_and_collapse_graph_cycles g u = some s2 → s2.varmap = g.varmap) := by
  refine ⟨?_, ?_, ?_⟩
  · intro fuel si n
    exact scc_visit_zero_filter fuel si n g (zero_succ_filter g) rfl rfl rfl (fun m => rfl)
  · intro u s2 h
    unfold find_and_collapse_graph_cycles at h
    dsimp only at h
    rw [Option.bind_eq_bind, Option.bind_eq_some] at h
    obtain ⟨⟨s1, si1⟩, hfold, hpuq⟩ := h
    refine ⟨s1, si1, hfold, hpuq, ?_⟩
    obtain ⟨_, _, hmz⟩ := detect_fold_sound g s1 si1 hfold
    intro a b hga hgb heq
    have hma : mutualz g a ((s1.varmap a).node) := by
      by_cases hch : (s1.varmap a).node = (g.varmap a).node
      · rw [hch, hga]
        exact mutualz_refl g a
      · exact hmz a (by rw [hga]; rw [hga] at hch; exact hch)
    have hmb : mutualz g b ((s1.varmap b).node) := by
      by_cases hch : (s1.varmap b).node = (g.varmap b).node
      · rw [hch, hgb]
        exact mutualz_refl g b
      · exact hmz b (by rw [hgb]; rw [hgb] at hch; exact hch)
    rw [heq] at hma
    exact mutualz_trans hma (mutualz_symm hmb)
  · intro u s2 hnz h
    exact find_and_collapse_no_zero g u s2 hnz h

/-- Two-variable state whose only two edges form a zero-weight cycle. -/
def c4w_state : PTAState :=
  { emptyState 2 with
    succs := fun n => if n = 0 then [⟨0, 1, 0⟩] else if n = 1 then [⟨1, 0, 0⟩] else [],
    preds := fun n => if n = 0 then [⟨0, 1, 0⟩] else if n = 1 then [⟨1, 0, 0⟩] else [],
    wstore := fun r => if r = 0 then {0} else ∅,
    nextRef := 1 }

def c4w_out : PTAState :=
  (find_and_collapse_graph_cycles c4w_state false).getD (emptyState 0)

def c4w_fold : Option (PTAState × SccInfo) :=
  (List.range c4w_state.nvars).foldlM
    (fun (p : PTAState × SccInfo) i =>
      let (s, si) := p
      if i ∉ si.visited ∧ (s.varmap i).node = i then scc_visit (c4w_state.nvars + 1) s si i
      else pure (s, si))
    (c4w_state, init_scc_info c4w_state.nvars)

def c4w_pair : PTAState × SccInfo :=
  c4w_fold.getD (emptyState 0, init_scc_info 0)

/-- Two-variable state whose single edge carries only the non-zero weight 1. -/
def c4w_nz : PTAState :=
  { emptyState 2 with
    succs := fun n => if n = 0 then [⟨0, 1, 0⟩] else [],
    wstore := fun r => if r = 0 then {1} else ∅,
    nextRef := 1 }

def c4w_nz_out : PTAState :=
  (find_and_collapse_graph_cycles c4w_nz false).getD (emptyState 0)

theorem cycle_detection_zero_weight_soundness_witness :
    mutualz c4w_state 0 1 ∧ c4w_nz_out.varmap = c4w_nz.varmap := by
  constructor
  · obtain ⟨_, hpart2, _⟩ := cycle_detection_zero_weight_soundness c4w_state
    have hfc : find_and_collapse_graph_cycles c4w_state false = some c4w_out := by rfl
    obtain ⟨s1, si1, hfold, _, hsound⟩ := hpart2 false c4w_out hfc
    have h1 : c4w_fold = some (s1, si1) := hfold
    have h2 : c4w_fold = some c4w_pair := rfl
    rw [h1] at h2
    injection h2 with h3
    apply hsound 0 1 rfl rfl
    have h4 : s1 = c4w_pair.1 := by rw [← h3]
    rw [h4]
    decide
  · obtain ⟨_, _, hpart3⟩ := cycle_detection_zero_weight_soundness c4w_nz
    have hfc2 : find_and_collapse_graph_cycles c4w_nz false = some c4w_nz_out := by rfl
    refine hpart3 false c4w_nz_out ?_ hfc2
    intro m c hc
    have hs : c4w_nz.succs m = if m = 0 then [(⟨0, 1, 0⟩ : CEdge)] else [] := rfl
    by_cases hm : m = 0
    · rw [hs, if_pos hm] at hc
      have hce : c = ⟨0, 1, 0⟩ := List.mem_singleton.mp hc
      rw [hce]
      decide
    · rw [hs, if_neg hm] at hc
      cases hc
